import Mathlib

/-!
# Barcode index of the assembler: per-edge barcode distributions

Shallow embedding of `common/barcode_index/barcode_index.hpp`.

* `size_t` / `uint64_t` values are natural numbers; an addition that can leave
  the 64-bit range is reduced modulo `SIZE_MOD`.  Container sizes are bounded
  by `max_size()` of the container, far below `2 ^ 63`, so sums of sizes are
  left unreduced.
* `std::map<BarcodeId, Info>` is a list of key/value pairs whose keys are
  strictly ascending (`StdMap`), the order in which the C++ container iterates.
* `boost::dynamic_bitset<>` is a `List Bool`, bit `i` at index `i`.
-/

namespace barcode_index

/-- Number of values of a 64-bit `size_t`. -/
def SIZE_MOD : Nat := 2 ^ 64

/-- The integer carried by a `BarcodeId` (`int_id_`); comparisons of `BarcodeId`
are comparisons of this integer. -/
abbrev BarcodeId := Nat

/-- Opaque edge handle of the assembly graph. -/
abbrev EdgeId := Nat

/-- Modelled from the spec: `Range` of `common/utils/range.hpp`, the interval
`[start_pos, end_pos)` of positions along an edge; the default range is `[0, 0)`. -/
structure Range where
  start_pos : Nat
  end_pos : Nat
deriving DecidableEq, Repr

/-- Modelled from the spec: the graph collaborator (`ConjugateDeBruijnGraph`), of
which the index uses the conjugate map and the edge length. -/
structure Graph where
  conjugate : EdgeId → EdgeId
  length : EdgeId → Nat

/-! ## `std::map` with integer keys -/

/-- `std::map::find` on the key-ordered node list. -/
def mapFind {V : Type} : List (Nat × V) → Nat → Option V
  | [], _ => none
  | (k, v) :: rest, key => if k = key then some v else mapFind rest key

/-- `std::map::insert`: a new node is placed at its position in key order, and
nothing changes when the key is already there. -/
def mapInsert {V : Type} : List (Nat × V) → Nat → V → List (Nat × V)
  | [], key, v => [(key, v)]
  | (k, w) :: rest, key, v =>
    if key < k then (key, v) :: (k, w) :: rest
    else if key = k then (k, w) :: rest
    else (k, w) :: mapInsert rest key v

/-- `std::map::erase` of the node holding `key`. -/
def mapErase {V : Type} : List (Nat × V) → Nat → List (Nat × V)
  | [], _ => []
  | (k, w) :: rest, key => if k = key then rest else (k, w) :: mapErase rest key

/-- Assignment through the reference returned by `std::map::at`: the value
stored under `key` becomes `v`. -/
def mapAssign {V : Type} : List (Nat × V) → Nat → V → List (Nat × V)
  | [], _, _ => []
  | (k, w) :: rest, key, v =>
    if k = key then (k, v) :: rest else (k, w) :: mapAssign rest key v

/-- Keys strictly ascending: the representation invariant of `std::map`. -/
def KeysAscending {V : Type} (l : List (Nat × V)) : Prop :=
  l.Pairwise (fun a b => a.1 < b.1)

theorem mapInsert_fst_mem {V : Type} (l : List (Nat × V)) (key : Nat) (v : V)
    (x : Nat × V) (hx : x ∈ mapInsert l key v) : x.1 = key ∨ x ∈ l := by
  induction l with
  | nil =>
    simp only [mapInsert, List.mem_singleton] at hx
    left; rw [hx]
  | cons hd tl ih =>
    obtain ⟨k, w⟩ := hd
    simp only [mapInsert] at hx
    split_ifs at hx with h1 h2
    · rcases List.mem_cons.1 hx with h | h
      · left; rw [h]
      · right; exact h
    · right; exact hx
    · rcases List.mem_cons.1 hx with h | h
      · right; rw [h]; exact List.mem_cons_self _ _
      · rcases ih h with h3 | h3
        · left; exact h3
        · right; exact List.mem_cons_of_mem _ h3

theorem mapInsert_ascending {V : Type} (l : List (Nat × V)) (key : Nat) (v : V)
    (h : KeysAscending l) : KeysAscending (mapInsert l key v) := by
  unfold KeysAscending at *
  induction l with
  | nil => simp [mapInsert]
  | cons hd tl ih =>
    obtain ⟨k, w⟩ := hd
    have htl := (List.pairwise_cons.1 h).2
    have hhd := (List.pairwise_cons.1 h).1
    simp only [mapInsert]
    split_ifs with h1 h2
    · refine List.pairwise_cons.2 ⟨?_, h⟩
      intro x hx
      rcases List.mem_cons.1 hx with hx | hx
      · rw [hx]; exact h1
      · exact lt_trans h1 (hhd x hx)
    · exact h
    · refine List.pairwise_cons.2 ⟨?_, ih htl⟩
      intro x hx
      rcases mapInsert_fst_mem tl key v x hx with hx | hx
      · rw [hx]; show k < key; omega
      · exact hhd x hx

theorem mapErase_sublist {V : Type} (l : List (Nat × V)) (key : Nat) :
    List.Sublist (mapErase l key) l := by
  induction l with
  | nil => simp [mapErase]
  | cons hd tl ih =>
    obtain ⟨k, w⟩ := hd
    simp only [mapErase]
    split_ifs with h1
    · exact List.sublist_cons_self _ _
    · exact List.Sublist.cons₂ _ ih

theorem mapErase_ascending {V : Type} (l : List (Nat × V)) (key : Nat)
    (h : KeysAscending l) : KeysAscending (mapErase l key) :=
  List.Pairwise.sublist (mapErase_sublist l key) h

theorem mapAssign_keys {V : Type} (l : List (Nat × V)) (key : Nat) (v : V) :
    (mapAssign l key v).map Prod.fst = l.map Prod.fst := by
  induction l with
  | nil => simp [mapAssign]
  | cons hd tl ih =>
    obtain ⟨k, w⟩ := hd
    simp only [mapAssign]
    split_ifs with h1
    · simp
    · simp [ih]

theorem keysAscending_iff_keys {V : Type} (l : List (Nat × V)) :
    KeysAscending l ↔ (l.map Prod.fst).Pairwise (fun a b => a < b) := by
  unfold KeysAscending
  rw [List.pairwise_map]

theorem mapAssign_ascending {V : Type} (l : List (Nat × V)) (key : Nat) (v : V)
    (h : KeysAscending l) : KeysAscending (mapAssign l key v) := by
  rw [keysAscending_iff_keys] at *
  rw [mapAssign_keys]
  exact h

/-- The container `std::map<BarcodeId, V>`: its nodes in iteration order, with
the ordering invariant of the container. -/
structure StdMap (V : Type) where
  entries : List (Nat × V)
  ascending : KeysAscending entries

namespace StdMap

/-- The empty map. -/
def empty {V : Type} : StdMap V := ⟨[], List.Pairwise.nil⟩

/-- Lookup: `find(key)`, with `none` for `end()`. -/
def find {V : Type} (m : StdMap V) (key : Nat) : Option V := mapFind m.entries key

/-- Insertion: `insert({key, v})`. -/
def insert {V : Type} (m : StdMap V) (key : Nat) (v : V) : StdMap V :=
  ⟨mapInsert m.entries key v, mapInsert_ascending m.entries key v m.ascending⟩

/-- Removal: `erase(it)` for the iterator at `key`. -/
def erase {V : Type} (m : StdMap V) (key : Nat) : StdMap V :=
  ⟨mapErase m.entries key, mapErase_ascending m.entries key m.ascending⟩

/-- In-place change of the value at `key` through `at(key)`. -/
def assign {V : Type} (m : StdMap V) (key : Nat) (v : V) : StdMap V :=
  ⟨mapAssign m.entries key v, mapAssign_ascending m.entries key v m.ascending⟩

/-- Number of nodes: `size()`. -/
def size {V : Type} (m : StdMap V) : Nat := m.entries.length

/-- The keys in iteration order. -/
def keys {V : Type} (m : StdMap V) : List Nat := m.entries.map Prod.fst

end StdMap

theorem StdMap.eq_of_entries {V : Type} (a b : StdMap V) (h : a.entries = b.entries) :
    a = b := by
  cases a; cases b; cases h; rfl

/-! ## Per-barcode evidence -/

/-- The class `SimpleBarcodeInfo`: read count and covered range. -/
structure SimpleBarcodeInfo where
  count_ : Nat
  range_ : Range
deriving DecidableEq, Repr

namespace SimpleBarcodeInfo

/-- Default constructor `SimpleBarcodeInfo()`. -/
def new : SimpleBarcodeInfo := ⟨0, ⟨0, 0⟩⟩

/-- Method `Update(size_t count, const Range& range)`. -/
def Update (info : SimpleBarcodeInfo) (count : Nat) (range : Range) : SimpleBarcodeInfo :=
  { count_ := (info.count_ + count) % SIZE_MOD
    range_ := ⟨min info.range_.start_pos range.start_pos,
               max info.range_.end_pos range.end_pos⟩ }

/-- Method `GetCount`. -/
def GetCount (info : SimpleBarcodeInfo) : Nat := info.count_

/-- Method `GetRange`. -/
def GetRange (info : SimpleBarcodeInfo) : Range := info.range_

end SimpleBarcodeInfo

/-- The call `is_on_frame_.set(i)` for every `i` of the loop
`for (size_t i = left_frame; i <= right_frame; ++i)`, in loop order.
(`dynamic_bitset::set` requires `i < size()`; an index outside the bitset leaves
the list as it is.) -/
def setFrames (bits : List Bool) (left_frame right_frame : Nat) : List Bool :=
  (List.range' left_frame (right_frame + 1 - left_frame)).foldl
    (fun acc i => acc.set i true) bits

/-- The class `FrameBarcodeInfo`: read count, bitset of covered frames and the
extreme covered frames. -/
structure FrameBarcodeInfo where
  count_ : Nat
  is_on_frame_ : List Bool
  leftmost_index_ : Nat
  rightmost_index_ : Nat
deriving DecidableEq, Repr

namespace FrameBarcodeInfo

/-- Constructor `FrameBarcodeInfo(size_t frames)`. -/
def new (frames : Nat) : FrameBarcodeInfo :=
  { count_ := 0
    is_on_frame_ := List.replicate frames false
    leftmost_index_ := frames
    rightmost_index_ := 0 }

/-- Method `Update(size_t count, size_t left_frame, size_t right_frame)`. -/
def Update (info : FrameBarcodeInfo) (count left_frame right_frame : Nat) :
    FrameBarcodeInfo :=
  { count_ := (info.count_ + count) % SIZE_MOD
    is_on_frame_ := setFrames info.is_on_frame_ left_frame right_frame
    leftmost_index_ := min left_frame info.leftmost_index_
    rightmost_index_ := max right_frame info.rightmost_index_ }

/-- Method `GetCount`. -/
def GetCount (info : FrameBarcodeInfo) : Nat := info.count_

/-- Method `GetLeftMost`. -/
def GetLeftMost (info : FrameBarcodeInfo) : Nat := info.leftmost_index_

/-- Method `GetRightMost`. -/
def GetRightMost (info : FrameBarcodeInfo) : Nat := info.rightmost_index_

/-- Method `GetFrame`: the bit of a frame. -/
def GetFrame (info : FrameBarcodeInfo) (frame : Nat) : Bool :=
  info.is_on_frame_.getD frame false

/-- Method `GetSize`: the number of frames. -/
def GetSize (info : FrameBarcodeInfo) : Nat := info.is_on_frame_.length

/-- Method `GetCovered`: the number of set bits. -/
def GetCovered (info : FrameBarcodeInfo) : Nat := info.is_on_frame_.count true

end FrameBarcodeInfo

/-! ## Edge entries -/

/-- The class template `EdgeEntry<entry_info_t>`. -/
structure EdgeEntry (entry_info_t : Type) where
  edge_ : EdgeId
  barcode_distribution_ : StdMap entry_info_t

namespace EdgeEntry

/-- Constructor `EdgeEntry(const EdgeId& edge)`. -/
def new {entry_info_t : Type} (edge : EdgeId) : EdgeEntry entry_info_t :=
  ⟨edge, StdMap.empty⟩

/-- Method `Size`. -/
def Size {entry_info_t : Type} (e : EdgeEntry entry_info_t) : Nat :=
  e.barcode_distribution_.size

/-- Method `has_barcode`. -/
def has_barcode {entry_info_t : Type} (e : EdgeEntry entry_info_t) (barcode : BarcodeId) :
    Bool :=
  (e.barcode_distribution_.find barcode).isSome

/-- Method `GetIntersectionSize`: the loop over the own distribution counts the
keys that `find` locates in the other distribution. -/
def GetIntersectionSize {entry_info_t : Type} (e other : EdgeEntry entry_info_t) : Nat :=
  e.barcode_distribution_.entries.foldl
    (fun result it =>
      if (other.barcode_distribution_.find it.1).isSome then result + 1 else result) 0

/-- Method `GetUnionSize`. -/
def GetUnionSize {entry_info_t : Type} (e other : EdgeEntry entry_info_t) : Nat :=
  e.Size + other.Size - e.GetIntersectionSize other

end EdgeEntry

/-- The class `SimpleEdgeEntry`. -/
abbrev SimpleEdgeEntry := EdgeEntry SimpleBarcodeInfo

namespace SimpleEdgeEntry

/-- Method `IsFarFromEdgeHead`. -/
def IsFarFromEdgeHead (gap_threshold : Nat) (info : SimpleBarcodeInfo) : Bool :=
  decide (info.GetRange.start_pos > gap_threshold)

/-- Method `IsLowReadCount`. -/
def IsLowReadCount (trimming_threshold : Nat) (info : SimpleBarcodeInfo) : Bool :=
  decide (info.GetCount < trimming_threshold)

/-- Method `Filter`: the loop visits every node once, in key order, and erases
the visited node when it is low in reads or far from the head. -/
def Filter (e : SimpleEdgeEntry) (trimming_threshold gap_threshold : Nat) : SimpleEdgeEntry :=
  { e with
    barcode_distribution_ :=
      e.barcode_distribution_.entries.foldl
        (fun m it =>
          if IsLowReadCount trimming_threshold it.2 || IsFarFromEdgeHead gap_threshold it.2
          then m.erase it.1 else m)
        e.barcode_distribution_ }

/-- Method `InsertBarcode`. -/
def InsertBarcode (e : SimpleEdgeEntry) (barcode : BarcodeId) (count : Nat) (range : Range) :
    SimpleEdgeEntry :=
  match e.barcode_distribution_.find barcode with
  | none =>
    { e with barcode_distribution_ := e.barcode_distribution_.insert barcode ⟨count, range⟩ }
  | some info =>
    { e with
      barcode_distribution_ := e.barcode_distribution_.assign barcode (info.Update count range) }

end SimpleEdgeEntry

/-- The class `FrameEdgeEntry`. -/
structure FrameEdgeEntry extends EdgeEntry FrameBarcodeInfo where
  edge_length_ : Nat
  frame_size_ : Nat
  number_of_frames_ : Nat

namespace FrameEdgeEntry

/-- Constructor `FrameEdgeEntry(edge, edge_length, frame_size)`: the member
`number_of_frames_` is `edge_length / frame_size + 1` in `size_t`. -/
def new (edge : EdgeId) (edge_length frame_size : Nat) : FrameEdgeEntry :=
  { edge_ := edge
    barcode_distribution_ := StdMap.empty
    edge_length_ := edge_length
    frame_size_ := frame_size
    number_of_frames_ := (edge_length / frame_size + 1) % SIZE_MOD }

/-- Method `GetFrameFromPos`. -/
def GetFrameFromPos (e : FrameEdgeEntry) (pos : Nat) : Nat := pos / e.frame_size_

/-- Method `IsFarFromEdgeHead`. -/
def IsFarFromEdgeHead (e : FrameEdgeEntry) (gap_threshold : Nat) (info : FrameBarcodeInfo) :
    Bool :=
  decide (info.GetLeftMost > gap_threshold / e.frame_size_)

/-- Method `IsLowReadCount`. -/
def IsLowReadCount (trimming_threshold : Nat) (info : FrameBarcodeInfo) : Bool :=
  decide (info.GetCount < trimming_threshold)

/-- Method `Filter`: the loop visits every node once, in key order, and erases
the visited node when it is low in reads or far from the head. -/
def Filter (e : FrameEdgeEntry) (trimming_threshold gap_threshold : Nat) : FrameEdgeEntry :=
  { e with
    barcode_distribution_ :=
      e.barcode_distribution_.entries.foldl
        (fun m it =>
          if IsLowReadCount trimming_threshold it.2 || e.IsFarFromEdgeHead gap_threshold it.2
          then m.erase it.1 else m)
        e.barcode_distribution_ }

/-- Method `InsertBarcode`: an absent barcode gets a fresh info and nothing
else; a present one is updated with the frames of the range. -/
def InsertBarcode (e : FrameEdgeEntry) (barcode : BarcodeId) (count : Nat) (range : Range) :
    FrameEdgeEntry :=
  match e.barcode_distribution_.find barcode with
  | none =>
    { e with
      barcode_distribution_ :=
        e.barcode_distribution_.insert barcode (FrameBarcodeInfo.new e.number_of_frames_) }
  | some info =>
    let left_frame := e.GetFrameFromPos range.start_pos
    let right_frame := e.GetFrameFromPos range.end_pos
    { e with
      barcode_distribution_ :=
        e.barcode_distribution_.assign barcode (info.Update count left_frame right_frame) }

end FrameEdgeEntry

/-- The call sequence `Update(c, lf, rf)` for every triple of the list, first
triple first. -/
def applyUpdates (info : FrameBarcodeInfo) (updates : List (Nat × Nat × Nat)) :
    FrameBarcodeInfo :=
  updates.foldl (fun acc u => acc.Update u.1 u.2.1 u.2.2) info

/-! ## The index -/

/-- What `BarcodeIndex<barcode_entry_t>` asks of its entry type: the inherited
method `EdgeEntry::Size`. -/
class BarcodeEntry (barcode_entry_t : Type) where
  Size : barcode_entry_t → Nat

instance instBarcodeEntrySimple : BarcodeEntry SimpleEdgeEntry := ⟨fun e => EdgeEntry.Size e⟩

instance instBarcodeEntryFrame : BarcodeEntry FrameEdgeEntry := ⟨fun e => e.toEdgeEntry.Size⟩

/-- The class template `BarcodeIndex<barcode_entry_t>`; the container
`std::unordered_map<EdgeId, barcode_entry_t>` is an association list. -/
structure BarcodeIndex (barcode_entry_t : Type) where
  g_ : Graph
  barcodes_number_ : Nat
  edge_to_entry_ : List (EdgeId × barcode_entry_t)

namespace BarcodeIndex

/-- Method `GetEntryHeads`: `edge_to_entry_.at(edge)`, with `none` where `at`
throws `std::out_of_range`. -/
def GetEntryHeads {barcode_entry_t : Type} (idx : BarcodeIndex barcode_entry_t)
    (edge : EdgeId) : Option barcode_entry_t :=
  idx.edge_to_entry_.lookup edge

/-- Method `GetEntryTails`: `edge_to_entry_.at(g_.conjugate(edge))`. -/
def GetEntryTails {barcode_entry_t : Type} (idx : BarcodeIndex barcode_entry_t)
    (edge : EdgeId) : Option barcode_entry_t :=
  idx.edge_to_entry_.lookup (idx.g_.conjugate edge)

/-- Method `GetHeadBarcodeNumber`. -/
def GetHeadBarcodeNumber {barcode_entry_t : Type} [BarcodeEntry barcode_entry_t]
    (idx : BarcodeIndex barcode_entry_t) (edge : EdgeId) : Option Nat :=
  (idx.GetEntryHeads edge).map BarcodeEntry.Size

/-- Method `GetTailBarcodeNumber`. -/
def GetTailBarcodeNumber {barcode_entry_t : Type} [BarcodeEntry barcode_entry_t]
    (idx : BarcodeIndex barcode_entry_t) (edge : EdgeId) : Option Nat :=
  (idx.GetEntryTails edge).map BarcodeEntry.Size

end BarcodeIndex

/-- A frame entry for an edge of length 100 with frame size 10, built by
insertions: barcode 1 with count 100 on the frames 0 and 1, barcode 2 with
count 100 on the frames 8 and 9. -/
def exampleFrameEntry : FrameEdgeEntry :=
  ((((FrameEdgeEntry.new 7 100 10).InsertBarcode 1 3 ⟨0, 10⟩).InsertBarcode 1 100
    ⟨0, 10⟩).InsertBarcode 2 3 ⟨80, 90⟩).InsertBarcode 2 100 ⟨80, 90⟩

/-- An index over the edges 0 and 1, conjugate to each other, where the entry of
edge 0 holds barcode 4 and the entry of edge 1 is empty. -/
def exampleIndex : BarcodeIndex SimpleEdgeEntry :=
  { g_ := ⟨fun e => if e % 2 = 0 then e + 1 else e - 1, fun _ => 100⟩
    barcodes_number_ := 1
    edge_to_entry_ :=
      [(0, SimpleEdgeEntry.InsertBarcode (EdgeEntry.new 0) 4 3 ⟨5, 25⟩), (1, EdgeEntry.new 1)] }

/-- An edge is indexed when `edge_to_entry_` holds an entry for it. -/
def IsIndexed {barcode_entry_t : Type} (idx : BarcodeIndex barcode_entry_t) (edge : EdgeId) :
    Prop :=
  (idx.edge_to_entry_.lookup edge).isSome = true

instance instDecidableIsIndexed {barcode_entry_t : Type} (idx : BarcodeIndex barcode_entry_t)
    (edge : EdgeId) : Decidable (IsIndexed idx edge) :=
  inferInstanceAs (Decidable ((idx.edge_to_entry_.lookup edge).isSome = true))

/-- The set of barcodes that are a key of the distribution of an entry. -/
def keySet {entry_info_t : Type} (e : EdgeEntry entry_info_t) : Finset BarcodeId :=
  e.barcode_distribution_.keys.toFinset

/-- The state of a frame info after at least one update inside a bitset of `N`
frames: the extreme frames are ordered, inside the bitset and set, and every
set bit lies between them. -/
def FrameInv (N : Nat) (info : FrameBarcodeInfo) : Prop :=
  info.is_on_frame_.length = N
  ∧ info.leftmost_index_ ≤ info.rightmost_index_
  ∧ info.rightmost_index_ < N
  ∧ info.is_on_frame_.getD info.leftmost_index_ false = true
  ∧ info.is_on_frame_.getD info.rightmost_index_ false = true
  ∧ ∀ i, info.is_on_frame_.getD i false = true →
      info.leftmost_index_ ≤ i ∧ i ≤ info.rightmost_index_

/-! ## Lemmas on the map operations -/

theorem mapFind_eq_none_of_lt {V : Type} (l : List (Nat × V)) (key : Nat)
    (h : ∀ x ∈ l, key < x.1) : mapFind l key = none := by
  induction l with
  | nil => rfl
  | cons hd tl ih =>
    obtain ⟨k, w⟩ := hd
    have hk : key < k := h (k, w) (List.mem_cons_self _ _)
    have hne : ¬ k = key := by omega
    simp only [mapFind, if_neg hne]
    exact ih (fun x hx => h x (List.mem_cons_of_mem _ hx))

theorem mapFind_isSome_iff {V : Type} (l : List (Nat × V)) (key : Nat) :
    (mapFind l key).isSome = true ↔ key ∈ l.map Prod.fst := by
  induction l with
  | nil => simp [mapFind]
  | cons hd tl ih =>
    obtain ⟨k, w⟩ := hd
    simp only [mapFind, List.map_cons, List.mem_cons]
    split_ifs with h1
    · simp [h1]
    · rw [ih]
      constructor
      · intro h; right; exact h
      · intro h
        rcases h with h | h
        · exact absurd h.symm h1
        · exact h

theorem mapFind_filter {V : Type} (p : V → Bool) (l : List (Nat × V)) (key : Nat)
    (h : KeysAscending l) :
    mapFind (l.filter (fun it => p it.2)) key = (mapFind l key).filter p := by
  unfold KeysAscending at h
  induction l with
  | nil => rfl
  | cons hd tl ih =>
    obtain ⟨k, w⟩ := hd
    have htl := (List.pairwise_cons.1 h).2
    have hhd := (List.pairwise_cons.1 h).1
    by_cases hk : k = key
    · subst hk
      by_cases hp : p w = true
      · simp [List.filter, hp, mapFind, Option.filter]
      · have hnone : mapFind (tl.filter (fun it => p it.2)) k = none := by
          apply mapFind_eq_none_of_lt
          intro x hx
          exact hhd x (List.mem_of_mem_filter hx)
        simp [List.filter, hp, mapFind, Option.filter, hnone]
    · by_cases hp : p w = true
      · simp [List.filter, hp, mapFind, hk, ih htl]
      · simp [List.filter, hp, mapFind, hk, ih htl]

theorem mapErase_append_cons {V : Type} (kept rest : List (Nat × V)) (k : Nat) (v : V)
    (h : ∀ x ∈ kept, x.1 ≠ k) : mapErase (kept ++ (k, v) :: rest) k = kept ++ rest := by
  induction kept with
  | nil => simp [mapErase]
  | cons hd tl ih =>
    obtain ⟨k1, w1⟩ := hd
    have h1 : ¬ k1 = k := h (k1, w1) (List.mem_cons_self _ _)
    have ih2 := ih (fun x hx => h x (List.mem_cons_of_mem _ hx))
    show mapErase ((k1, w1) :: (tl ++ (k, v) :: rest)) k = (k1, w1) :: (tl ++ rest)
    rw [mapErase, if_neg h1, ih2]

theorem eraseLoop_entries {V : Type} (bad : V → Bool) (l : List (Nat × V)) (m : StdMap V) :
    (l.foldl (fun acc it => if bad it.2 then acc.erase it.1 else acc) m).entries
      = l.foldl (fun acc it => if bad it.2 then mapErase acc it.1 else acc) m.entries := by
  induction l generalizing m with
  | nil => rfl
  | cons hd tl ih =>
    simp only [List.foldl_cons]
    by_cases hb : bad hd.2 = true
    · simp only [hb, if_true]
      rw [ih]
      rfl
    · simp only [hb]
      exact ih m

theorem eraseLoop_eq_filter {V : Type} (bad : V → Bool) (rest kept : List (Nat × V))
    (h : KeysAscending (kept ++ rest)) :
    rest.foldl (fun acc it => if bad it.2 then mapErase acc it.1 else acc) (kept ++ rest)
      = kept ++ rest.filter (fun it => !bad it.2) := by
  induction rest generalizing kept with
  | nil => simp
  | cons hd tl ih =>
    obtain ⟨k, v⟩ := hd
    simp only [List.foldl_cons]
    have hkept : ∀ x ∈ kept, x.1 ≠ k := by
      intro x hx
      have := (List.pairwise_append.1 h).2.2 x hx (k, v) (List.mem_cons_self _ _)
      exact Nat.ne_of_lt this
    by_cases hb : bad v = true
    · simp only [hb, if_true]
      rw [mapErase_append_cons kept tl k v hkept]
      have h2 : KeysAscending (kept ++ tl) := by
        unfold KeysAscending at *
        refine List.Pairwise.sublist ?_ h
        exact List.Sublist.append_left (List.sublist_cons_self _ _) _
      rw [ih kept h2]
      simp [List.filter, hb]
    · have h3 : kept ++ (k, v) :: tl = (kept ++ [(k, v)]) ++ tl := by simp
      have hb2 : bad v = false := by simpa using hb
      simp only [hb2, Bool.false_eq_true, if_false]
      rw [h3, ih (kept ++ [(k, v)]) (by rw [← h3]; exact h)]
      simp [List.filter, hb2]

theorem eraseLoop_find {V : Type} (bad : V → Bool) (m : StdMap V) (key : Nat) :
    (m.entries.foldl (fun acc it => if bad it.2 then acc.erase it.1 else acc) m).find key
      = (m.find key).filter (fun v => !bad v) := by
  unfold StdMap.find
  rw [eraseLoop_entries]
  have h := eraseLoop_eq_filter bad m.entries [] (by simpa using m.ascending)
  simp only [List.nil_append] at h
  rw [h]
  exact mapFind_filter (fun v => !bad v) m.entries key m.ascending

/-! ## Insertion into a frame entry -/

/-- C1 (the code on the scenario of the claim): on an empty entry for an edge of
length 100 with frame size 10, `InsertBarcode(b, 3, [5,25))` followed by
`InsertBarcode(b, 2, [40,55))` leaves exactly one barcode, whose info has
count 2, leftmost 4, rightmost 5 and only bits 4 and 5 set: the count and the
frames of the first insertion are not recorded. -/
theorem frame_insert_scenario_code (edge : EdgeId) (b : BarcodeId) :
    (((FrameEdgeEntry.new edge 100 10).InsertBarcode b 3 ⟨5, 25⟩).InsertBarcode b 2
        ⟨40, 55⟩).barcode_distribution_.entries
      = [(b, { count_ := 2
               is_on_frame_ := [false, false, false, false, true, true,
                                false, false, false, false, false]
               leftmost_index_ := 4
               rightmost_index_ := 5 })] := by
  simp [FrameEdgeEntry.InsertBarcode, FrameEdgeEntry.new, StdMap.find, StdMap.insert,
    StdMap.empty, mapFind, mapInsert, StdMap.assign, mapAssign, FrameBarcodeInfo.new,
    FrameBarcodeInfo.Update, FrameEdgeEntry.GetFrameFromPos, setFrames, SIZE_MOD, List.range']

/-- C2 (the code on a first insertion): on an empty entry for an edge of length
100 with frame size 10, `InsertBarcode(0, 3, [5,25))` maps barcode 0 to the
fresh info of 11 frames, which differs from that fresh info after
`Update(3, 5 / 10, 25 / 10)`. -/
theorem frame_first_insert_code :
    ((FrameEdgeEntry.new 7 100 10).InsertBarcode 0 3 ⟨5, 25⟩).barcode_distribution_.find 0
        = some (FrameBarcodeInfo.new 11)
      ∧ (FrameBarcodeInfo.new 11).Update 3 (5 / 10) (25 / 10)
        = { count_ := 3
            is_on_frame_ := [true, true, true, false, false, false,
                             false, false, false, false, false]
            leftmost_index_ := 0
            rightmost_index_ := 2 }
      ∧ FrameBarcodeInfo.new 11 ≠ (FrameBarcodeInfo.new 11).Update 3 (5 / 10) (25 / 10) := by
  refine ⟨by decide, by decide, by decide⟩

/-! ## Filtering -/

theorem frame_filter_find (e : FrameEdgeEntry) (t g : Nat) (b : BarcodeId) :
    (e.Filter t g).barcode_distribution_.find b
      = (e.barcode_distribution_.find b).filter
          (fun info => !(FrameEdgeEntry.IsLowReadCount t info || e.IsFarFromEdgeHead g info)) :=
  eraseLoop_find
    (fun info => FrameEdgeEntry.IsLowReadCount t info || e.IsFarFromEdgeHead g info)
    e.barcode_distribution_ b

theorem simple_filter_find (e : SimpleEdgeEntry) (t g : Nat) (b : BarcodeId) :
    (SimpleEdgeEntry.Filter e t g).barcode_distribution_.find b
      = (e.barcode_distribution_.find b).filter
          (fun info => !(SimpleEdgeEntry.IsLowReadCount t info
            || SimpleEdgeEntry.IsFarFromEdgeHead g info)) :=
  eraseLoop_find
    (fun info => SimpleEdgeEntry.IsLowReadCount t info
      || SimpleEdgeEntry.IsFarFromEdgeHead g info)
    e.barcode_distribution_ b

theorem option_filter_eq_some {V : Type} (p : V → Bool) (o : Option V) (v : V) :
    o.filter p = some v ↔ o = some v ∧ p v = true := by
  cases o with
  | none => simp [Option.filter]
  | some w =>
    by_cases hp : p w = true
    · simp only [Option.filter, hp, if_true, Option.some.injEq]
      constructor
      · intro h; subst h; exact ⟨rfl, hp⟩
      · intro h; exact h.1
    · simp only [Option.filter, hp, Option.some.injEq]
      constructor
      · intro h; cases h
      · intro h; rw [h.1] at hp; exact absurd h.2 hp

/-- C3: for a frame entry with `frame_size > 0`, `Filter(t, g)` removes exactly
the barcodes whose info has `count < t` or `leftmost > g / frame_size`: a
barcode found afterwards has `count >= t` and `leftmost <= g / frame_size` and
the info it had before; a barcode that had such an info is still found with
that info; a barcode whose info had `count < t` or `leftmost > g / frame_size`
is no longer found. -/
theorem frame_filter_spec (e : FrameEdgeEntry) (t g : Nat) (_hfs : 0 < e.frame_size_) :
    (∀ b info, (e.Filter t g).barcode_distribution_.find b = some info →
        t ≤ info.count_ ∧ info.leftmost_index_ ≤ g / e.frame_size_
          ∧ e.barcode_distribution_.find b = some info)
    ∧ (∀ b info, e.barcode_distribution_.find b = some info →
        t ≤ info.count_ → info.leftmost_index_ ≤ g / e.frame_size_ →
        (e.Filter t g).barcode_distribution_.find b = some info)
    ∧ (∀ b info, e.barcode_distribution_.find b = some info →
        (info.count_ < t ∨ g / e.frame_size_ < info.leftmost_index_) →
        (e.Filter t g).barcode_distribution_.find b = none) := by
  refine ⟨?_, ?_, ?_⟩
  · intro b info h
    rw [frame_filter_find, option_filter_eq_some] at h
    obtain ⟨h1, h2⟩ := h
    simp only [FrameEdgeEntry.IsLowReadCount, FrameEdgeEntry.IsFarFromEdgeHead,
      FrameBarcodeInfo.GetCount, FrameBarcodeInfo.GetLeftMost, Bool.not_or,
      Bool.and_eq_true, Bool.not_eq_true', decide_eq_false_iff_not] at h2
    exact ⟨by omega, by omega, h1⟩
  · intro b info h ht hg
    rw [frame_filter_find, option_filter_eq_some]
    refine ⟨h, ?_⟩
    simp only [FrameEdgeEntry.IsLowReadCount, FrameEdgeEntry.IsFarFromEdgeHead,
      FrameBarcodeInfo.GetCount, FrameBarcodeInfo.GetLeftMost, Bool.not_or,
      Bool.and_eq_true, Bool.not_eq_true', decide_eq_false_iff_not]
    exact ⟨by omega, by omega⟩
  · intro b info h hbad
    rw [frame_filter_find, h]
    have hp : (!(FrameEdgeEntry.IsLowReadCount t info || e.IsFarFromEdgeHead g info)) = false := by
      simp only [FrameEdgeEntry.IsLowReadCount, FrameEdgeEntry.IsFarFromEdgeHead,
        FrameBarcodeInfo.GetCount, FrameBarcodeInfo.GetLeftMost]
      rcases hbad with h1 | h1
      · simp [h1]
      · simp [h1]
    simp [Option.filter, hp]

/-- Witness of C3 (far-from-head scenario): in `exampleFrameEntry`, of frame
size 10, `Filter(1, 50)` removes barcode 2, whose leftmost frame is 8, and
keeps barcode 1, whose leftmost frame is 0, with its info. -/
theorem frame_filter_spec_witness :
    0 < exampleFrameEntry.frame_size_
    ∧ exampleFrameEntry.barcode_distribution_.find 2
        = some ⟨100, [false, false, false, false, false, false, false, false, true, true, false],
            8, 9⟩
    ∧ (exampleFrameEntry.Filter 1 50).barcode_distribution_.find 2 = none
    ∧ (exampleFrameEntry.Filter 1 50).barcode_distribution_.find 1
        = some ⟨100, [true, true, false, false, false, false, false, false, false, false, false],
            0, 1⟩ :=
  ⟨by decide, by decide,
   (frame_filter_spec exampleFrameEntry 1 50 (by decide)).2.2 2
     ⟨100, [false, false, false, false, false, false, false, false, true, true, false], 8, 9⟩
     (by decide) (Or.inr (by decide)),
   (frame_filter_spec exampleFrameEntry 1 50 (by decide)).2.1 1
     ⟨100, [true, true, false, false, false, false, false, false, false, false, false], 0, 1⟩
     (by decide) (by decide) (by decide)⟩

/-- C4: for a simple entry, `Filter(t, g)` removes exactly the barcodes whose
info has `count < t` or `range.start_pos > g`: a barcode found afterwards has
`count >= t` and `range.start_pos <= g` and the info it had before; a barcode
that had such an info is still found with that info; a barcode whose info had
`count < t` or `range.start_pos > g` is no longer found. -/
theorem simple_filter_spec (e : SimpleEdgeEntry) (t g : Nat) :
    (∀ b info, (SimpleEdgeEntry.Filter e t g).barcode_distribution_.find b = some info →
        t ≤ info.count_ ∧ info.range_.start_pos ≤ g
          ∧ e.barcode_distribution_.find b = some info)
    ∧ (∀ b info, e.barcode_distribution_.find b = some info →
        t ≤ info.count_ → info.range_.start_pos ≤ g →
        (SimpleEdgeEntry.Filter e t g).barcode_distribution_.find b = some info)
    ∧ (∀ b info, e.barcode_distribution_.find b = some info →
        (info.count_ < t ∨ g < info.range_.start_pos) →
        (SimpleEdgeEntry.Filter e t g).barcode_distribution_.find b = none) := by
  refine ⟨?_, ?_, ?_⟩
  · intro b info h
    rw [simple_filter_find, option_filter_eq_some] at h
    obtain ⟨h1, h2⟩ := h
    simp only [SimpleEdgeEntry.IsLowReadCount, SimpleEdgeEntry.IsFarFromEdgeHead,
      SimpleBarcodeInfo.GetCount, SimpleBarcodeInfo.GetRange, Bool.not_or,
      Bool.and_eq_true, Bool.not_eq_true', decide_eq_false_iff_not] at h2
    exact ⟨by omega, by omega, h1⟩
  · intro b info h ht hg
    rw [simple_filter_find, option_filter_eq_some]
    refine ⟨h, ?_⟩
    simp only [SimpleEdgeEntry.IsLowReadCount, SimpleEdgeEntry.IsFarFromEdgeHead,
      SimpleBarcodeInfo.GetCount, SimpleBarcodeInfo.GetRange, Bool.not_or,
      Bool.and_eq_true, Bool.not_eq_true', decide_eq_false_iff_not]
    exact ⟨by omega, by omega⟩
  · intro b info h hbad
    rw [simple_filter_find, h]
    have hp : (!(SimpleEdgeEntry.IsLowReadCount t info
        || SimpleEdgeEntry.IsFarFromEdgeHead g info)) = false := by
      simp only [SimpleEdgeEntry.IsLowReadCount, SimpleEdgeEntry.IsFarFromEdgeHead,
        SimpleBarcodeInfo.GetCount, SimpleBarcodeInfo.GetRange]
      rcases hbad with h1 | h1
      · simp [h1]
      · simp [h1]
    simp [Option.filter, hp]

/-! ## Head and tail counts -/

/-- C5: for an indexed edge `e` with `conjugate(conjugate(e)) = e`,
`GetHeadBarcodeNumber(e)` returns a number, and `GetTailBarcodeNumber(conjugate(e))`
returns the same number. -/
theorem head_count_eq_tail_count_conj {barcode_entry_t : Type} [BarcodeEntry barcode_entry_t]
    (idx : BarcodeIndex barcode_entry_t) (e : EdgeId) (hidx : IsIndexed idx e)
    (hconj : idx.g_.conjugate (idx.g_.conjugate e) = e) :
    (∃ n, idx.GetHeadBarcodeNumber e = some n)
    ∧ idx.GetHeadBarcodeNumber e = idx.GetTailBarcodeNumber (idx.g_.conjugate e) := by
  unfold IsIndexed at hidx
  constructor
  · obtain ⟨entry, hentry⟩ := Option.isSome_iff_exists.1 hidx
    exact ⟨BarcodeEntry.Size entry, by
      simp [BarcodeIndex.GetHeadBarcodeNumber, BarcodeIndex.GetEntryHeads, hentry]⟩
  · simp only [BarcodeIndex.GetHeadBarcodeNumber, BarcodeIndex.GetTailBarcodeNumber,
      BarcodeIndex.GetEntryHeads, BarcodeIndex.GetEntryTails, hconj]

/-- Witness of C5: in `exampleIndex`, edge 0 is indexed, its head count is 1,
and that is the tail count of its conjugate, edge 1. -/
theorem head_count_eq_tail_count_conj_witness :
    IsIndexed exampleIndex 0
    ∧ exampleIndex.g_.conjugate (exampleIndex.g_.conjugate 0) = 0
    ∧ exampleIndex.GetHeadBarcodeNumber 0 = some 1
    ∧ exampleIndex.GetHeadBarcodeNumber 0
        = exampleIndex.GetTailBarcodeNumber (exampleIndex.g_.conjugate 0) :=
  ⟨by decide, by decide, by decide,
   (head_count_eq_tail_count_conj exampleIndex 0 (by decide) (by decide)).2⟩

/-! ## Set arithmetic on the key sets -/

theorem countLoop_eq_countP {A : Type} (p : A → Bool) (l : List A) (n : Nat) :
    l.foldl (fun result it => if p it then result + 1 else result) n = n + l.countP p := by
  induction l generalizing n with
  | nil => simp
  | cons hd tl ih =>
    simp only [List.foldl_cons, List.countP_cons]
    by_cases hp : p hd = true
    · simp only [hp, if_true]
      rw [ih]; omega
    · simp only [hp]
      rw [ih]; simp

theorem keys_nodup {V : Type} (m : StdMap V) : m.keys.Nodup := by
  have h := (keysAscending_iff_keys m.entries).1 m.ascending
  exact List.Pairwise.imp (fun hab => Nat.ne_of_lt hab) h

theorem size_eq_card {V : Type} (a : EdgeEntry V) : a.Size = (keySet a).card := by
  unfold keySet EdgeEntry.Size StdMap.size
  rw [List.toFinset_card_of_nodup (keys_nodup _)]
  simp [StdMap.keys]

theorem intersectionSize_eq_card {V : Type} (a b : EdgeEntry V) :
    a.GetIntersectionSize b = (keySet a ∩ keySet b).card := by
  unfold EdgeEntry.GetIntersectionSize
  have h0 := countLoop_eq_countP
    (fun it : Nat × V => (b.barcode_distribution_.find it.1).isSome)
    a.barcode_distribution_.entries 0
  beta_reduce at h0
  rw [h0]
  have h1 : List.countP (fun it => (b.barcode_distribution_.find it.1).isSome)
        a.barcode_distribution_.entries
      = (a.barcode_distribution_.keys.filter
          (fun k => decide (k ∈ b.barcode_distribution_.keys))).length := by
    simp only [StdMap.keys]
    rw [List.countP_eq_length_filter, List.filter_map, List.length_map]
    congr 1
    apply List.filter_congr
    intro x _
    simp only [Function.comp, StdMap.find]
    rw [Bool.eq_iff_iff, mapFind_isSome_iff]
    simp
  have h2 : keySet a ∩ keySet b
      = (a.barcode_distribution_.keys.filter
          (fun k => decide (k ∈ b.barcode_distribution_.keys))).toFinset := by
    ext k
    simp [keySet]
  rw [h1, h2, List.toFinset_card_of_nodup ((keys_nodup _).filter _)]
  omega

/-- C6: for two edge entries of the same info type, `a.GetIntersectionSize(b)`
equals `b.GetIntersectionSize(a)`. -/
theorem intersection_size_comm {entry_info_t : Type} (a b : EdgeEntry entry_info_t) :
    a.GetIntersectionSize b = b.GetIntersectionSize a := by
  rw [intersectionSize_eq_card, intersectionSize_eq_card, Finset.inter_comm]

/-- C7: for two edge entries of the same info type, `a.GetUnionSize(b)` is
`a.Size() + b.Size() - a.GetIntersectionSize(b)`, where the intersection size
is at most `a.Size()` and so the subtraction stays at or above zero, and the
value is the number of barcodes that are a key of `a` or a key of `b`. -/
theorem union_size_spec {entry_info_t : Type} (a b : EdgeEntry entry_info_t) :
    a.GetUnionSize b = a.Size + b.Size - a.GetIntersectionSize b
    ∧ a.GetIntersectionSize b ≤ a.Size
    ∧ a.GetIntersectionSize b ≤ a.Size + b.Size
    ∧ a.GetUnionSize b + a.GetIntersectionSize b = a.Size + b.Size
    ∧ a.GetUnionSize b = (keySet a ∪ keySet b).card := by
  have hle : a.GetIntersectionSize b ≤ a.Size := by
    rw [intersectionSize_eq_card, size_eq_card]
    exact Finset.card_le_card Finset.inter_subset_left
  have hcard := Finset.card_union_add_card_inter (keySet a) (keySet b)
  have hu : a.GetUnionSize b = a.Size + b.Size - a.GetIntersectionSize b := rfl
  rw [← size_eq_card, ← size_eq_card, ← intersectionSize_eq_card] at hcard
  refine ⟨hu, hle, by omega, by omega, by omega⟩

/-! ## The bitset of a frame info -/

theorem set_getD_iff (bits : List Bool) (s i : Nat) :
    (bits.set s true).getD i false = true
      ↔ bits.getD i false = true ∨ (s = i ∧ i < bits.length) := by
  simp only [List.getD_eq_getElem?_getD, List.getElem?_set]
  by_cases h : s = i
  · subst h
    by_cases h2 : s < bits.length
    · simp [h2]
    · have h3 : bits[s]? = none := by simp; omega
      simp [h2, h3]
  · simp [h]

theorem setLoop_length (bits : List Bool) (s n : Nat) :
    ((List.range' s n).foldl (fun acc i => acc.set i true) bits).length = bits.length := by
  induction n generalizing s bits with
  | zero => simp
  | succ n ih =>
    simp only [List.range'_succ, List.foldl_cons]
    rw [ih]; simp

theorem setLoop_getD_iff (bits : List Bool) (s n i : Nat) :
    ((List.range' s n).foldl (fun acc j => acc.set j true) bits).getD i false = true
      ↔ bits.getD i false = true ∨ (s ≤ i ∧ i < s + n ∧ i < bits.length) := by
  induction n generalizing s bits with
  | zero =>
    simp only [List.range'_zero, List.foldl_nil]
    constructor
    · intro h; left; exact h
    · intro h
      rcases h with h | h
      · exact h
      · omega
  | succ n ih =>
    simp only [List.range'_succ, List.foldl_cons]
    rw [ih, set_getD_iff, List.length_set]
    constructor
    · intro h
      rcases h with (h | h) | h
      · left; exact h
      · right; omega
      · right; omega
    · intro h
      rcases h with h | h
      · left; left; exact h
      · by_cases hs : s = i
        · left; right; exact ⟨hs, h.2.2⟩
        · right; omega

theorem setFrames_length (bits : List Bool) (lf rf : Nat) :
    (setFrames bits lf rf).length = bits.length :=
  setLoop_length bits lf (rf + 1 - lf)

theorem setFrames_getD_iff (bits : List Bool) (lf rf i : Nat) :
    (setFrames bits lf rf).getD i false = true
      ↔ bits.getD i false = true ∨ (lf ≤ i ∧ i ≤ rf ∧ i < bits.length) := by
  unfold setFrames
  rw [setLoop_getD_iff]
  constructor
  · intro h
    rcases h with h | h
    · left; exact h
    · right; omega
  · intro h
    rcases h with h | h
    · left; exact h
    · right; omega

theorem replicate_false_getD (n i : Nat) : (List.replicate n false).getD i false = false := by
  rw [List.getD_eq_getElem?_getD]
  by_cases h : i < n
  · simp [List.getElem?_replicate, h]
  · simp [List.getElem?_replicate, h]

theorem count_true_le_of_window (bits : List Bool) (l r : Nat)
    (h : ∀ i, bits.getD i false = true → l ≤ i ∧ i < r) : bits.count true ≤ r - l := by
  induction bits generalizing l r with
  | nil => simp
  | cons b tl ih =>
    have htl : ∀ i, tl.getD i false = true → l - 1 ≤ i ∧ i < r - 1 := by
      intro i hi
      have h1 := h (i + 1) (by simpa using hi)
      omega
    have h2 := ih (l - 1) (r - 1) htl
    cases b with
    | true =>
      have h0 := h 0 (by simp)
      simp only [List.count_cons_self]
      omega
    | false =>
      have hc : List.count true (false :: tl) = List.count true tl := by simp
      rw [hc]
      omega

/-! ## Updates of a frame info -/

theorem frameInv_first_update (N c lf rf : Nat) (h1 : lf ≤ rf) (h2 : rf < N) :
    FrameInv N ((FrameBarcodeInfo.new N).Update c lf rf) := by
  have hlen : (List.replicate N false).length = N := List.length_replicate _ _
  have hl : min lf N = lf := by omega
  have hr : max rf 0 = rf := by omega
  unfold FrameInv
  simp only [FrameBarcodeInfo.Update, FrameBarcodeInfo.new, hl, hr, setFrames_length,
    setFrames_getD_iff, replicate_false_getD, hlen]
  refine ⟨trivial, h1, h2, ?_, ?_, ?_⟩
  · right; omega
  · right; omega
  · intro i hi
    rcases hi with hi | hi
    · cases hi
    · omega

theorem frameInv_update (N c lf rf : Nat) (info : FrameBarcodeInfo) (hinv : FrameInv N info)
    (h1 : lf ≤ rf) (h2 : rf < N) : FrameInv N (info.Update c lf rf) := by
  obtain ⟨hlen, hlr, hrN, hbl, hbr, hall⟩ := hinv
  unfold FrameInv
  simp only [FrameBarcodeInfo.Update, setFrames_length, setFrames_getD_iff, hlen]
  refine ⟨trivial, by omega, by omega, ?_, ?_, ?_⟩
  · by_cases hc : lf ≤ info.leftmost_index_
    · right
      rw [min_eq_left hc]; omega
    · left
      rw [min_eq_right (by omega)]; exact hbl
  · by_cases hc : info.rightmost_index_ ≤ rf
    · right
      rw [max_eq_left hc]; omega
    · left
      rw [max_eq_right (by omega)]; exact hbr
  · intro i hi
    rcases hi with hi | hi
    · have := hall i hi
      omega
    · omega

theorem frameInv_applyUpdates (N : Nat) (updates : List (Nat × Nat × Nat))
    (info : FrameBarcodeInfo) (hinv : FrameInv N info)
    (hvalid : ∀ u ∈ updates, u.2.1 ≤ u.2.2 ∧ u.2.2 < N) :
    FrameInv N (applyUpdates info updates) := by
  induction updates generalizing info with
  | nil => exact hinv
  | cons u rest ih =>
    have hu := hvalid u (List.mem_cons_self _ _)
    have hstep := frameInv_update N u.1 u.2.1 u.2.2 info hinv hu.1 hu.2
    exact ih (info.Update u.1 u.2.1 u.2.2) hstep
      (fun v hv => hvalid v (List.mem_cons_of_mem _ hv))

/-- C8: for a frame info reached from the initial state with `N` frames by one
or more calls `Update(c, lf, rf)` with `c >= 1` and `lf <= rf < N`:
`leftmost <= rightmost < N`, the bits at `leftmost` and at `rightmost` are set,
and the number of set bits is at most `rightmost - leftmost + 1`. -/
theorem frame_info_invariant (N : Nat) (updates : List (Nat × Nat × Nat))
    (hne : updates ≠ [])
    (hvalid : ∀ u ∈ updates, 1 ≤ u.1 ∧ u.2.1 ≤ u.2.2 ∧ u.2.2 < N) :
    (applyUpdates (FrameBarcodeInfo.new N) updates).GetLeftMost
        ≤ (applyUpdates (FrameBarcodeInfo.new N) updates).GetRightMost
    ∧ (applyUpdates (FrameBarcodeInfo.new N) updates).GetRightMost < N
    ∧ (applyUpdates (FrameBarcodeInfo.new N) updates).GetFrame
        (applyUpdates (FrameBarcodeInfo.new N) updates).GetLeftMost = true
    ∧ (applyUpdates (FrameBarcodeInfo.new N) updates).GetFrame
        (applyUpdates (FrameBarcodeInfo.new N) updates).GetRightMost = true
    ∧ (applyUpdates (FrameBarcodeInfo.new N) updates).GetCovered
        ≤ (applyUpdates (FrameBarcodeInfo.new N) updates).GetRightMost
          - (applyUpdates (FrameBarcodeInfo.new N) updates).GetLeftMost + 1 := by
  cases updates with
  | nil => exact absurd rfl hne
  | cons u rest =>
    have hu := hvalid u (List.mem_cons_self _ _)
    have hfirst := frameInv_first_update N u.1 u.2.1 u.2.2 hu.2.1 hu.2.2
    have hinv : FrameInv N (applyUpdates (FrameBarcodeInfo.new N) (u :: rest)) :=
      frameInv_applyUpdates N rest _ hfirst
        (fun v hv => (hvalid v (List.mem_cons_of_mem _ hv)).2)
    obtain ⟨_, hlr, hrN, hbl, hbr, hall⟩ := hinv
    refine ⟨hlr, hrN, hbl, hbr, ?_⟩
    have hcount := count_true_le_of_window _
      (applyUpdates (FrameBarcodeInfo.new N) (u :: rest)).leftmost_index_
      ((applyUpdates (FrameBarcodeInfo.new N) (u :: rest)).rightmost_index_ + 1)
      (fun i hi => by have := hall i hi; omega)
    simp only [FrameBarcodeInfo.GetCovered, FrameBarcodeInfo.GetRightMost,
      FrameBarcodeInfo.GetLeftMost]
    omega

/-- Witness of C8: after `Update(3, 0, 2)` and `Update(2, 4, 5)` on 11 frames the
extreme frames are 0 and 5, both set, and 5 bits are set. -/
theorem frame_info_invariant_witness :
    (applyUpdates (FrameBarcodeInfo.new 11) [(3, 0, 2), (2, 4, 5)]).GetLeftMost = 0
    ∧ (applyUpdates (FrameBarcodeInfo.new 11) [(3, 0, 2), (2, 4, 5)]).GetRightMost = 5
    ∧ (applyUpdates (FrameBarcodeInfo.new 11) [(3, 0, 2), (2, 4, 5)]).GetCovered = 5
    ∧ (applyUpdates (FrameBarcodeInfo.new 11) [(3, 0, 2), (2, 4, 5)]).GetCovered
        ≤ (applyUpdates (FrameBarcodeInfo.new 11) [(3, 0, 2), (2, 4, 5)]).GetRightMost
          - (applyUpdates (FrameBarcodeInfo.new 11) [(3, 0, 2), (2, 4, 5)]).GetLeftMost + 1 :=
  ⟨by decide, by decide, by decide,
   (frame_info_invariant 11 [(3, 0, 2), (2, 4, 5)] (by decide) (by decide)).2.2.2.2⟩

/-- C9 (as the code has it): for a frame info with `N` frames and `lf <= rf < N`,
`Update(c, lf, rf)` yields `count = (old count + c) mod 2^64`, a bitset of `N`
frames in which bit `i` is set exactly when it was set before or
`lf <= i <= rf`, `leftmost = min(old leftmost, lf)` and
`rightmost = max(old rightmost, rf)`. -/
theorem frame_update_spec (N : Nat) (info : FrameBarcodeInfo) (c lf rf : Nat)
    (hN : info.GetSize = N) (_h1 : lf ≤ rf) (h2 : rf < N) :
    (info.Update c lf rf).GetCount = (info.GetCount + c) % 2 ^ 64
    ∧ (info.Update c lf rf).GetSize = N
    ∧ (∀ i, (info.Update c lf rf).GetFrame i = true
          ↔ info.GetFrame i = true ∨ (lf ≤ i ∧ i ≤ rf))
    ∧ (info.Update c lf rf).GetLeftMost = min info.GetLeftMost lf
    ∧ (info.Update c lf rf).GetRightMost = max info.GetRightMost rf := by
  simp only [FrameBarcodeInfo.GetSize] at hN
  simp only [FrameBarcodeInfo.GetCount, FrameBarcodeInfo.GetSize, FrameBarcodeInfo.GetFrame,
    FrameBarcodeInfo.GetLeftMost, FrameBarcodeInfo.GetRightMost, FrameBarcodeInfo.Update,
    setFrames_length, setFrames_getD_iff, hN]
  refine ⟨rfl, trivial, ?_, Nat.min_comm _ _, Nat.max_comm _ _⟩
  intro i
  constructor
  · intro h
    rcases h with h | h
    · left; exact h
    · right; omega
  · intro h
    rcases h with h | h
    · left; exact h
    · right; omega

/-- Witness of C9: `Update(2, 4, 5)` on the 11-frame info that holds count 3 and
the frames 0 to 2. -/
theorem frame_update_spec_witness :
    ((FrameBarcodeInfo.new 11).Update 3 0 2).GetSize = 11
    ∧ (((FrameBarcodeInfo.new 11).Update 3 0 2).Update 2 4 5).GetCount = 5
    ∧ (((FrameBarcodeInfo.new 11).Update 3 0 2).Update 2 4 5).GetLeftMost = 0
    ∧ (((FrameBarcodeInfo.new 11).Update 3 0 2).Update 2 4 5).GetRightMost
        = max ((FrameBarcodeInfo.new 11).Update 3 0 2).GetRightMost 5 :=
  ⟨by decide, by decide, by decide,
   (frame_update_spec 11 ((FrameBarcodeInfo.new 11).Update 3 0 2) 2 4 5
      (by decide) (by decide) (by decide)).2.2.2.2⟩

/-- C9 fails as stated: on one frame, the info reached by `Update(2^64 - 1, 0, 0)`
has count `2^64 - 1`, and `Update(1, 0, 0)` on it yields count 0, not the
sum `2^64`. -/
theorem frame_update_count_wraps :
    ((FrameBarcodeInfo.new 1).Update (2 ^ 64 - 1) 0 0).GetSize = 1
    ∧ ((FrameBarcodeInfo.new 1).Update (2 ^ 64 - 1) 0 0).GetCount = 2 ^ 64 - 1
    ∧ (((FrameBarcodeInfo.new 1).Update (2 ^ 64 - 1) 0 0).Update 1 0 0).GetCount = 0
    ∧ (((FrameBarcodeInfo.new 1).Update (2 ^ 64 - 1) 0 0).Update 1 0 0).GetCount
        ≠ ((FrameBarcodeInfo.new 1).Update (2 ^ 64 - 1) 0 0).GetCount + 1 := by
  refine ⟨by decide, by decide, by decide, by decide⟩

/-! ## Updates of a simple info -/

/-- C10 (as the code has it): for a simple info, a count `c` and a range `r`,
`Update(c, r)` yields `count = (old count + c) mod 2^64`,
`range.start_pos = min(old start_pos, r.start_pos)` and
`range.end_pos = max(old end_pos, r.end_pos)`. -/
theorem simple_update_spec (info : SimpleBarcodeInfo) (c : Nat) (r : Range) :
    (info.Update c r).GetCount = (info.GetCount + c) % 2 ^ 64
    ∧ (info.Update c r).GetRange.start_pos = min info.GetRange.start_pos r.start_pos
    ∧ (info.Update c r).GetRange.end_pos = max info.GetRange.end_pos r.end_pos :=
  ⟨rfl, rfl, rfl⟩

/-- C10 fails as stated: `Update(1, [0,0))` on the simple info with count
`2^64 - 1` yields count 0, not the sum `2^64`. -/
theorem simple_update_count_wraps :
    (SimpleBarcodeInfo.Update ⟨2 ^ 64 - 1, ⟨0, 0⟩⟩ 1 ⟨0, 0⟩).GetCount = 0
    ∧ (SimpleBarcodeInfo.Update ⟨2 ^ 64 - 1, ⟨0, 0⟩⟩ 1 ⟨0, 0⟩).GetCount
        ≠ (SimpleBarcodeInfo.mk (2 ^ 64 - 1) ⟨0, 0⟩).GetCount + 1 := by
  refine ⟨by decide, by decide⟩

/-! ## Merging two simple infos -/

/-- Method `SimpleBarcodeInfo::Update(const SimpleBarcodeInfo& other)`; the local
`Range range` of the source is never read. -/
def SimpleBarcodeInfo.UpdateWith (info other : SimpleBarcodeInfo) : SimpleBarcodeInfo :=
  { count_ := (info.count_ + other.GetCount) % SIZE_MOD
    range_ := ⟨min info.range_.start_pos other.GetRange.start_pos,
               max info.range_.end_pos other.GetRange.end_pos⟩ }

/-- C11: for two simple infos `a` and `b`, merging `b` into `a` with
`Update(other)` gives the same count and the same range as merging `a` into `b`. -/
theorem simple_merge_comm (a b : SimpleBarcodeInfo) :
    (a.UpdateWith b).GetCount = (b.UpdateWith a).GetCount
    ∧ (a.UpdateWith b).GetRange = (b.UpdateWith a).GetRange := by
  simp only [SimpleBarcodeInfo.UpdateWith, SimpleBarcodeInfo.GetCount,
    SimpleBarcodeInfo.GetRange]
  refine ⟨by rw [Nat.add_comm], ?_⟩
  rw [Nat.min_comm, Nat.max_comm]

/-! ## The barcode encoder -/

/-- The class `BarcodeEncoder`; the container
`std::unordered_map<string, uint64_t> codes_` is the list of its elements in
the order in which they were inserted, with distinct keys. -/
structure BarcodeEncoder where
  codes_ : List (String × Nat)
  distinct : (codes_.map Prod.fst).Nodup

namespace BarcodeEncoder

/-- Constructor `BarcodeEncoder()`. -/
def new : BarcodeEncoder := ⟨[], List.nodup_nil⟩

/-- Method `GetSize`. -/
def GetSize (enc : BarcodeEncoder) : Nat := enc.codes_.length

/-- Method `GetCode`, with `none` where `VERIFY` fails. -/
def GetCode (enc : BarcodeEncoder) (barcode : String) : Option Nat :=
  enc.codes_.lookup barcode

end BarcodeEncoder

theorem lookup_eq_none_iff_not_mem_keys (l : List (String × Nat)) (s : String) :
    l.lookup s = none ↔ s ∉ l.map Prod.fst := by
  induction l with
  | nil => simp
  | cons hd tl ih =>
    obtain ⟨k, v⟩ := hd
    by_cases h : s = k
    · subst h
      simp [List.lookup]
    · have h2 : (s == k) = false := by simpa using h
      simp [List.lookup, h2, ih, h]

theorem addBarcode_distinct (l : List (String × Nat)) (s : String) (n : Nat)
    (hd : (l.map Prod.fst).Nodup) (hs : l.lookup s = none) :
    ((l ++ [(s, n)]).map Prod.fst).Nodup := by
  rw [List.map_append, List.nodup_append]
  refine ⟨hd, by simp, ?_⟩
  intro a ha hb
  simp only [List.map_cons, List.map_nil, List.mem_singleton] at hb
  subst hb
  exact (lookup_eq_none_iff_not_mem_keys l a).1 hs ha

/-- Method `BarcodeEncoder::AddBarcode`. -/
def BarcodeEncoder.AddBarcode (enc : BarcodeEncoder) (barcode : String) : BarcodeEncoder :=
  match h : enc.codes_.lookup barcode with
  | some _ => enc
  | none =>
    ⟨enc.codes_ ++ [(barcode, enc.codes_.length)],
      addBarcode_distinct enc.codes_ barcode enc.codes_.length enc.distinct h⟩

/-- The encoder after `AddBarcode` on every string of the list, first string
first, starting from the empty encoder. -/
def encodeAll (barcodes : List String) : BarcodeEncoder :=
  barcodes.foldl BarcodeEncoder.AddBarcode BarcodeEncoder.new

/-- The distinct strings of a list in the order of their first occurrence. -/
def firstOccurrences : List String → List String
  | [] => []
  | s :: rest => s :: (firstOccurrences rest).filter (fun t => decide (t ≠ s))

/-- The effect of `AddBarcode` on the element list. -/
def addCode (l : List (String × Nat)) (s : String) : List (String × Nat) :=
  match l.lookup s with
  | some _ => l
  | none => l ++ [(s, l.length)]

theorem addBarcode_codes (enc : BarcodeEncoder) (s : String) :
    (enc.AddBarcode s).codes_ = addCode enc.codes_ s := by
  unfold BarcodeEncoder.AddBarcode addCode
  split <;> rename_i h <;> simp [h]

theorem encodeLoop_codes (barcodes : List String) (enc : BarcodeEncoder) :
    (barcodes.foldl BarcodeEncoder.AddBarcode enc).codes_
      = barcodes.foldl addCode enc.codes_ := by
  induction barcodes generalizing enc with
  | nil => rfl
  | cons s rest ih =>
    simp only [List.foldl_cons]
    rw [ih, addBarcode_codes]

theorem lookup_of_mem_of_nodup (l : List (String × Nat)) (s : String) (c : Nat)
    (hd : (l.map Prod.fst).Nodup) (hm : (s, c) ∈ l) : l.lookup s = some c := by
  induction l with
  | nil => cases hm
  | cons hd0 tl ih =>
    obtain ⟨k, v⟩ := hd0
    simp only [List.map_cons, List.nodup_cons] at hd
    rcases List.mem_cons.1 hm with h | h
    · cases h
      simp [List.lookup]
    · have hne : s ≠ k := by
        intro heq
        subst heq
        exact hd.1 (List.mem_map.2 ⟨(s, c), h, rfl⟩)
      have h2 : (s == k) = false := by simpa using hne
      simp only [List.lookup, h2]
      exact ih hd.2 h

theorem mem_of_lookup_eq_some (l : List (String × Nat)) (s : String) (c : Nat)
    (h : l.lookup s = some c) : (s, c) ∈ l := by
  induction l with
  | nil => simp at h
  | cons hd0 tl ih =>
    obtain ⟨k, v⟩ := hd0
    by_cases hk : s = k
    · subst hk
      simp only [List.lookup, beq_self_eq_true, Option.some.injEq] at h
      subst h
      exact List.mem_cons_self _ _
    · have h2 : (s == k) = false := by simpa using hk
      simp only [List.lookup, h2] at h
      exact List.mem_cons_of_mem _ (ih h)

theorem lookup_append_single (l : List (String × Nat)) (s t : String) (n : Nat) :
    (l ++ [(s, n)]).lookup t
      = match l.lookup t with
        | some c => some c
        | none => if t = s then some n else none := by
  induction l with
  | nil =>
    by_cases h : t = s
    · subst h; simp [List.lookup]
    · have h2 : (t == s) = false := by simpa using h
      simp [List.lookup, h2, h]
  | cons hd0 tl ih =>
    obtain ⟨k, v⟩ := hd0
    by_cases hk : t = k
    · subst hk; simp [List.lookup]
    · have h2 : (t == k) = false := by simpa using hk
      simp only [List.cons_append, List.lookup, h2]
      exact ih

/-- C12: after `AddBarcode(s)` the call `GetCode(s)` succeeds; it returns the
code `s` had before when `s` was present, and the former `GetSize()` when `s`
was absent; the code of every other string is unchanged. -/
theorem addBarcode_getCode (enc : BarcodeEncoder) (s : String) :
    (∃ c, (enc.AddBarcode s).GetCode s = some c)
    ∧ (∀ c, enc.GetCode s = some c → (enc.AddBarcode s).GetCode s = some c)
    ∧ (enc.GetCode s = none → (enc.AddBarcode s).GetCode s = some enc.GetSize)
    ∧ (∀ t, t ≠ s → (enc.AddBarcode s).GetCode t = enc.GetCode t) := by
  simp only [BarcodeEncoder.GetCode, BarcodeEncoder.GetSize, addBarcode_codes]
  cases h : enc.codes_.lookup s with
  | some c0 =>
    have h1 : addCode enc.codes_ s = enc.codes_ := by simp [addCode, h]
    rw [h1, h]
    refine ⟨⟨c0, rfl⟩, ?_, ?_, ?_⟩
    · intro c hc; exact hc
    · intro hc; cases hc
    · intro t _; rfl
  | none =>
    have h1 : addCode enc.codes_ s = enc.codes_ ++ [(s, enc.codes_.length)] := by
      simp [addCode, h]
    have h2 : (enc.codes_ ++ [(s, enc.codes_.length)]).lookup s = some enc.codes_.length := by
      rw [lookup_append_single, h]; simp
    rw [h1, h2]
    refine ⟨⟨_, rfl⟩, ?_, ?_, ?_⟩
    · intro c hc; cases hc
    · intro _; rfl
    · intro t ht
      rw [lookup_append_single]
      cases h3 : enc.codes_.lookup t with
      | some c1 => rfl
      | none => simp [ht]

theorem addCode_snd (l : List (String × Nat)) (s : String)
    (h : l.map Prod.snd = List.range l.length) :
    (addCode l s).map Prod.snd = List.range (addCode l s).length := by
  unfold addCode
  cases l.lookup s with
  | some c => exact h
  | none => simp [h, List.range_succ]

theorem encodeLoop_snd (barcodes : List String) (l : List (String × Nat))
    (h : l.map Prod.snd = List.range l.length) :
    (barcodes.foldl addCode l).map Prod.snd = List.range (barcodes.foldl addCode l).length := by
  induction barcodes generalizing l with
  | nil => exact h
  | cons s rest ih =>
    simp only [List.foldl_cons]
    exact ih _ (addCode_snd l s h)

theorem addCode_keys (l : List (String × Nat)) (s : String) :
    (addCode l s).map Prod.fst
      = if s ∈ l.map Prod.fst then l.map Prod.fst else l.map Prod.fst ++ [s] := by
  unfold addCode
  cases h : l.lookup s with
  | some c =>
    have hm : s ∈ l.map Prod.fst := List.mem_map.2 ⟨(s, c), mem_of_lookup_eq_some l s c h, rfl⟩
    simp [hm]
  | none =>
    have hm : s ∉ l.map Prod.fst := (lookup_eq_none_iff_not_mem_keys l s).1 h
    simp only [if_neg hm]
    simp

theorem encodeLoop_keys (barcodes : List String) (l : List (String × Nat)) :
    (barcodes.foldl addCode l).map Prod.fst
      = l.map Prod.fst
        ++ (firstOccurrences barcodes).filter (fun t => decide (t ∉ l.map Prod.fst)) := by
  induction barcodes generalizing l with
  | nil => simp [firstOccurrences]
  | cons s rest ih =>
    simp only [List.foldl_cons]
    rw [ih, addCode_keys]
    by_cases hm : s ∈ l.map Prod.fst
    · rw [if_pos hm]
      simp only [firstOccurrences, List.filter_cons, hm, not_true_eq_false,
        decide_False, Bool.false_eq_true, if_false, List.filter_filter]
      congr 1
      apply List.filter_congr
      intro t _
      by_cases ht : t ∈ l.map Prod.fst
      · simp [ht]
      · have hts : t ≠ s := fun heq => ht (heq ▸ hm)
        simp [ht, hts]
    · rw [if_neg hm]
      simp only [firstOccurrences, List.filter_cons, hm, not_false_eq_true,
        decide_True, if_true, List.filter_filter, List.append_assoc, List.singleton_append]
      congr 2
      apply List.filter_congr
      intro t _
      by_cases ht : t ∈ l.map Prod.fst
      · simp [ht]
      · by_cases hts : t = s
        · simp [hts]
        · simp [ht, hts]

theorem firstOccurrences_mem (barcodes : List String) (s : String) :
    s ∈ firstOccurrences barcodes ↔ s ∈ barcodes := by
  induction barcodes with
  | nil => simp [firstOccurrences]
  | cons t rest ih =>
    simp only [firstOccurrences, List.mem_cons, List.mem_filter, decide_eq_true_eq, ih]
    constructor
    · intro h
      rcases h with h | h
      · left; exact h
      · right; exact h.1
    · intro h
      by_cases hs : s = t
      · left; exact hs
      · rcases h with h | h
        · exact absurd h hs
        · right; exact ⟨h, hs⟩

theorem encodeAll_keys (barcodes : List String) :
    (encodeAll barcodes).codes_.map Prod.fst = firstOccurrences barcodes := by
  unfold encodeAll
  rw [encodeLoop_codes, encodeLoop_keys]
  simp [BarcodeEncoder.new]

theorem encodeAll_snd (barcodes : List String) :
    (encodeAll barcodes).codes_.map Prod.snd = List.range (encodeAll barcodes).codes_.length := by
  unfold encodeAll
  rw [encodeLoop_codes]
  exact encodeLoop_snd barcodes _ (by simp [BarcodeEncoder.new])

/-- C13: for the encoder reached from the empty encoder by `AddBarcode` on the
strings of a list: two strings with the same code are equal, every code is
below `GetSize()`, every number below `GetSize()` is the code of a string, the
strings with a code are the strings added, `GetSize()` is the number of
distinct strings added, and the distinct string at position `k` in the order
of first addition (counted from 0) has code `k`. -/
theorem encoder_codes_bijective (barcodes : List String) :
    (∀ s t c, (encodeAll barcodes).GetCode s = some c →
        (encodeAll barcodes).GetCode t = some c → s = t)
    ∧ (∀ s c, (encodeAll barcodes).GetCode s = some c → c < (encodeAll barcodes).GetSize)
    ∧ (∀ c, c < (encodeAll barcodes).GetSize → ∃ s, (encodeAll barcodes).GetCode s = some c)
    ∧ (∀ s, (∃ c, (encodeAll barcodes).GetCode s = some c) ↔ s ∈ barcodes)
    ∧ (encodeAll barcodes).GetSize = (firstOccurrences barcodes).length
    ∧ (∀ k (hk : k < (firstOccurrences barcodes).length),
        (encodeAll barcodes).GetCode ((firstOccurrences barcodes).get ⟨k, hk⟩) = some k) := by
  have hkeys := encodeAll_keys barcodes
  have hsnd := encodeAll_snd barcodes
  have hdist := (encodeAll barcodes).distinct
  have hsize : (encodeAll barcodes).codes_.length = (firstOccurrences barcodes).length := by
    rw [← hkeys, List.length_map]
  have hnd : ((encodeAll barcodes).codes_.map Prod.snd).Nodup := by
    rw [hsnd]; exact List.nodup_range _
  simp only [BarcodeEncoder.GetCode, BarcodeEncoder.GetSize]
  refine ⟨?_, ?_, ?_, ?_, hsize, ?_⟩
  · intro s t c hs ht
    have h1 := mem_of_lookup_eq_some _ s c hs
    have h2 := mem_of_lookup_eq_some _ t c ht
    have h3 := List.inj_on_of_nodup_map hnd h1 h2 rfl
    exact congrArg Prod.fst h3
  · intro s c hs
    have h1 := mem_of_lookup_eq_some _ s c hs
    have h2 : c ∈ (encodeAll barcodes).codes_.map Prod.snd := List.mem_map.2 ⟨(s, c), h1, rfl⟩
    rw [hsnd] at h2
    exact List.mem_range.1 h2
  · intro c hc
    have h1 : c ∈ (encodeAll barcodes).codes_.map Prod.snd := by
      rw [hsnd]; exact List.mem_range.2 hc
    obtain ⟨⟨s, c1⟩, hm, hc1⟩ := List.mem_map.1 h1
    simp only at hc1
    subst hc1
    exact ⟨s, lookup_of_mem_of_nodup _ s c1 hdist hm⟩
  · intro s
    rw [← firstOccurrences_mem, ← hkeys]
    constructor
    · intro h
      obtain ⟨c, hc⟩ := h
      exact List.mem_map.2 ⟨(s, c), mem_of_lookup_eq_some _ s c hc, rfl⟩
    · intro h
      obtain ⟨⟨s1, c⟩, hm, hs1⟩ := List.mem_map.1 h
      simp only at hs1
      subst hs1
      exact ⟨c, lookup_of_mem_of_nodup _ s1 c hdist hm⟩
  · intro k hk
    have hk2 : k < (encodeAll barcodes).codes_.length := by omega
    have hm : (encodeAll barcodes).codes_.get ⟨k, hk2⟩ ∈ (encodeAll barcodes).codes_ :=
      List.get_mem _ _ _
    have hfst : ((encodeAll barcodes).codes_.get ⟨k, hk2⟩).1
        = (firstOccurrences barcodes).get ⟨k, hk⟩ := by
      simp only [List.get_eq_getElem]
      rw [← List.getElem_map Prod.fst]
      · simp only [hkeys]
      · rw [List.length_map]; exact hk2
    have hsnd2 : ((encodeAll barcodes).codes_.get ⟨k, hk2⟩).2 = k := by
      simp only [List.get_eq_getElem]
      rw [← List.getElem_map Prod.snd]
      · simp only [hsnd, List.getElem_range]
      · rw [List.length_map]; exact hk2
    apply lookup_of_mem_of_nodup _ _ _ hdist
    rw [← hfst]
    have hpair : (encodeAll barcodes).codes_.get ⟨k, hk2⟩
        = (((encodeAll barcodes).codes_.get ⟨k, hk2⟩).1, k) := Prod.ext rfl hsnd2
    rw [← hpair]
    exact hm

/-! ## Number of frames of a frame entry -/

theorem ceil_div_eq (a b : Nat) (hb : 0 < b) : ⌈(a : ℚ) / b⌉₊ = (a + b - 1) / b := by
  have hbq : (0 : ℚ) < b := by exact_mod_cast hb
  apply le_antisymm
  · rw [Nat.ceil_le, div_le_iff₀ hbq]
    have h1 : a ≤ (a + b - 1) / b * b := by
      have h2 := Nat.div_add_mod (a + b - 1) b
      have h3 := Nat.mod_lt (a + b - 1) hb
      have h4 : b * ((a + b - 1) / b) = (a + b - 1) / b * b := Nat.mul_comm _ _
      omega
    exact_mod_cast h1
  · rw [Nat.div_le_iff_le_mul_add_pred hb]
    have h1 : (a : ℚ) / b ≤ ⌈(a : ℚ) / b⌉₊ := Nat.le_ceil _
    rw [div_le_iff₀ hbq] at h1
    have h2 : a ≤ ⌈(a : ℚ) / b⌉₊ * b := by exact_mod_cast h1
    have h4 : b * ⌈(a : ℚ) / b⌉₊ = ⌈(a : ℚ) / b⌉₊ * b := Nat.mul_comm _ _
    omega

theorem ceil_div_cases (a b : Nat) (hb : 0 < b) :
    (b ∣ a → (a + b - 1) / b = a / b) ∧ (¬ b ∣ a → (a + b - 1) / b = a / b + 1) := by
  have h2 := Nat.div_add_mod a b
  have h3 := Nat.mod_lt a hb
  constructor
  · intro hd
    have hr : a % b = 0 := Nat.mod_eq_zero_of_dvd hd
    apply Nat.div_eq_of_lt_le
    · rw [Nat.mul_comm]; omega
    · rw [Nat.succ_mul, Nat.mul_comm]; omega
  · intro hd
    have hr : a % b ≠ 0 := fun h => hd (Nat.dvd_of_mod_eq_zero h)
    apply Nat.div_eq_of_lt_le
    · rw [Nat.succ_mul, Nat.mul_comm]; omega
    · rw [Nat.succ_mul, Nat.succ_mul, Nat.mul_comm]; omega

theorem number_of_frames_fits_iff (len frame_size : Nat) (hfs : 0 < frame_size)
    (hlen : len < SIZE_MOD) :
    len / frame_size + 1 < SIZE_MOD ↔ ¬ (len = SIZE_MOD - 1 ∧ frame_size = 1) := by
  by_cases h1 : frame_size = 1
  · subst h1
    rw [Nat.div_one]
    unfold SIZE_MOD at hlen ⊢
    omega
  · have h2 : len / frame_size ≤ len / 2 := Nat.div_le_div_left (by omega) (by decide)
    unfold SIZE_MOD at hlen ⊢
    omega

/-- C14 (as the code has it): for an edge length `len` and a frame size
`frame_size > 0`, the constructed frame entry has
`number_of_frames = (floor(len / frame_size) + 1) mod 2^64`, the value of the
`size_t` expression.  Where `floor(len / frame_size) + 1` is below `2^64`, which for
a `size_t` length is every case but `len = 2^64 - 1` with `frame_size = 1`, that is
`floor(len / frame_size) + 1`: `ceil(len / frame_size) + 1` when `frame_size`
divides `len`, and `ceil(len / frame_size)` when it does not.  For
`len = 2^64 - 1` with `frame_size = 1` it is 0. -/
theorem frame_entry_number_of_frames (edge : EdgeId) (len frame_size : Nat)
    (hfs : 0 < frame_size) :
    (FrameEdgeEntry.new edge len frame_size).number_of_frames_
        = (len / frame_size + 1) % SIZE_MOD
    ∧ (len / frame_size + 1 < SIZE_MOD →
        (FrameEdgeEntry.new edge len frame_size).number_of_frames_ = len / frame_size + 1
        ∧ (frame_size ∣ len →
            (FrameEdgeEntry.new edge len frame_size).number_of_frames_
              = ⌈(len : ℚ) / frame_size⌉₊ + 1)
        ∧ (¬ frame_size ∣ len →
            (FrameEdgeEntry.new edge len frame_size).number_of_frames_
              = ⌈(len : ℚ) / frame_size⌉₊))
    ∧ (len < SIZE_MOD →
        (len / frame_size + 1 < SIZE_MOD ↔ ¬ (len = SIZE_MOD - 1 ∧ frame_size = 1)))
    ∧ (len = SIZE_MOD - 1 → frame_size = 1 →
        (FrameEdgeEntry.new edge len frame_size).number_of_frames_ = 0) := by
  have hdef : (FrameEdgeEntry.new edge len frame_size).number_of_frames_
      = (len / frame_size + 1) % SIZE_MOD := rfl
  refine ⟨hdef, ?_, number_of_frames_fits_iff len frame_size hfs, ?_⟩
  · intro hfit
    have hval : (FrameEdgeEntry.new edge len frame_size).number_of_frames_
        = len / frame_size + 1 := by
      rw [hdef, Nat.mod_eq_of_lt hfit]
    have hc := ceil_div_cases len frame_size hfs
    rw [hval, ceil_div_eq len frame_size hfs]
    refine ⟨rfl, ?_, ?_⟩
    · intro hd
      rw [hc.1 hd]
    · intro hd
      rw [hc.2 hd]
  · intro hl hf
    rw [hdef, hl, hf, Nat.div_one]
    decide

/-- Witness of C14: an edge of length 100 with frame size 10 gets 11 frames. -/
theorem frame_entry_number_of_frames_witness :
    (FrameEdgeEntry.new 7 100 10).number_of_frames_ = 100 / 10 + 1 :=
  ((frame_entry_number_of_frames 7 100 10 (by decide)).2.1 (by decide)).1

/-- C14 fails as stated: an edge of length 5 with frame size 10 gets 1 frame,
while `ceil(5 / 10) + 1` is 2. -/
theorem frame_entry_number_of_frames_not_ceil :
    (FrameEdgeEntry.new 7 5 10).number_of_frames_ = 1
    ∧ ⌈((5 : Nat) : ℚ) / ((10 : Nat) : ℚ)⌉₊ + 1 = 2
    ∧ (FrameEdgeEntry.new 7 5 10).number_of_frames_
        ≠ ⌈((5 : Nat) : ℚ) / ((10 : Nat) : ℚ)⌉₊ + 1 := by
  have h1 : (FrameEdgeEntry.new 7 5 10).number_of_frames_ = 1 := by decide
  have h2 : ⌈((5 : Nat) : ℚ) / ((10 : Nat) : ℚ)⌉₊ = 1 := by
    rw [ceil_div_eq 5 10 (by decide)]
  refine ⟨h1, by rw [h2], ?_⟩
  rw [h1, h2]
  decide

/-! ## Lookups after insertion, and equality of maps -/

theorem mapFind_mapInsert_of_none {V : Type} (l : List (Nat × V)) (key : Nat) (v : V)
    (k : Nat) (h : mapFind l key = none) :
    mapFind (mapInsert l key v) k = if k = key then some v else mapFind l k := by
  induction l with
  | nil =>
    by_cases hk : k = key
    · subst hk; simp [mapInsert, mapFind]
    · have hk2 : ¬ key = k := fun h => hk h.symm
      simp [mapInsert, mapFind, hk, hk2]
  | cons hd tl ih =>
    obtain ⟨k0, w⟩ := hd
    have hne : ¬ k0 = key := by
      intro heq
      simp [mapFind, heq] at h
    have htl : mapFind tl key = none := by
      simpa [mapFind, hne] using h
    have hne2 : ¬ key = k0 := fun h => hne h.symm
    by_cases h1 : key < k0
    · simp only [mapInsert, if_pos h1]
      by_cases hk : k = key
      · subst hk; simp [mapFind]
      · have hk2 : ¬ key = k := fun h => hk h.symm
        simp only [mapFind, if_neg hk2, if_neg hk]
    · simp only [mapInsert, if_neg h1, if_neg hne2, mapFind]
      rw [ih htl]
      by_cases hk : k = key
      · subst hk
        simp only [if_neg hne, if_true]
      · simp only [if_neg hk]

theorem mapFind_mapAssign {V : Type} (l : List (Nat × V)) (key : Nat) (v : V) (k : Nat) :
    mapFind (mapAssign l key v) k
      = if k = key then (mapFind l key).map (fun _ => v) else mapFind l k := by
  induction l with
  | nil => simp [mapAssign, mapFind]
  | cons hd tl ih =>
    obtain ⟨k0, w⟩ := hd
    simp only [mapAssign]
    by_cases h0 : k0 = key
    · subst h0
      by_cases hk : k = k0
      · subst hk; simp [mapFind]
      · have hk2 : ¬ k0 = k := fun h => hk h.symm
        simp [mapFind, hk, hk2]
    · simp only [if_neg h0, mapFind]
      by_cases hk : k0 = k
      · subst hk
        simp [h0]
      · simp only [if_neg hk, ih]

theorem mapFind_eq_some_mem {V : Type} (l : List (Nat × V)) (key : Nat) (v : V)
    (h : mapFind l key = some v) : (key, v) ∈ l := by
  induction l with
  | nil => simp [mapFind] at h
  | cons hd tl ih =>
    obtain ⟨k0, w⟩ := hd
    by_cases h0 : k0 = key
    · subst h0
      simp only [mapFind, if_true, Option.some.injEq] at h
      subst h
      exact List.mem_cons_self _ _
    · simp only [mapFind, if_neg h0] at h
      exact List.mem_cons_of_mem _ (ih h)

theorem entries_eq_of_find_eq {V : Type} (a b : List (Nat × V)) (ha : KeysAscending a)
    (hb : KeysAscending b) (h : ∀ k, mapFind a k = mapFind b k) : a = b := by
  unfold KeysAscending at ha hb
  induction a generalizing b with
  | nil =>
    cases b with
    | nil => rfl
    | cons hd tl =>
      obtain ⟨k, v⟩ := hd
      have := h k
      simp [mapFind] at this
  | cons hd tl ih =>
    obtain ⟨k, v⟩ := hd
    cases b with
    | nil =>
      have := h k
      simp [mapFind] at this
    | cons hd2 tl2 =>
      obtain ⟨k2, v2⟩ := hd2
      have hatl := (List.pairwise_cons.1 ha).2
      have hahd := (List.pairwise_cons.1 ha).1
      have hbtl := (List.pairwise_cons.1 hb).2
      have hbhd := (List.pairwise_cons.1 hb).1
      have hk : k = k2 := by
        by_contra hne
        have h1 := h k
        have h2 := h k2
        have hne2 : ¬ k2 = k := fun h => hne h.symm
        simp only [mapFind, if_true, if_neg hne2] at h1
        simp only [mapFind, if_true, if_neg hne] at h2
        have m1 := hbhd _ (mapFind_eq_some_mem tl2 k v h1.symm)
        have m2 := hahd _ (mapFind_eq_some_mem tl k2 v2 h2)
        simp only at m1 m2
        omega
      subst hk
      have hv : v = v2 := by
        have h1 := h k
        simpa [mapFind] using h1
      subst hv
      have htl : tl = tl2 := by
        apply ih tl2 hatl hbtl
        intro j
        by_cases hj : k = j
        · subst hj
          rw [mapFind_eq_none_of_lt tl k hahd, mapFind_eq_none_of_lt tl2 k hbhd]
        · have := h j
          simpa [mapFind, hj] using this
      rw [htl]

theorem StdMap.eq_of_find_eq {V : Type} (a b : StdMap V) (h : ∀ k, a.find k = b.find k) :
    a = b :=
  StdMap.eq_of_entries a b (entries_eq_of_find_eq a.entries b.entries a.ascending b.ascending h)

theorem simple_insertBarcode_find (e : SimpleEdgeEntry) (b : BarcodeId) (c : Nat) (r : Range)
    (k : BarcodeId) :
    (SimpleEdgeEntry.InsertBarcode e b c r).barcode_distribution_.find k
      = if k = b then
          some (match e.barcode_distribution_.find b with
            | none => ⟨c, r⟩
            | some info => info.Update c r)
        else e.barcode_distribution_.find k := by
  unfold SimpleEdgeEntry.InsertBarcode
  cases h : e.barcode_distribution_.find b with
  | none =>
    simp only [StdMap.find, StdMap.insert]
    exact mapFind_mapInsert_of_none _ b _ k h
  | some info =>
    simp only [StdMap.find, StdMap.assign]
    rw [mapFind_mapAssign]
    have h2 : mapFind e.barcode_distribution_.entries b = some info := h
    rw [h2]; rfl

theorem frame_insertBarcode_find (e : FrameEdgeEntry) (b : BarcodeId) (c : Nat) (r : Range)
    (k : BarcodeId) :
    (e.InsertBarcode b c r).barcode_distribution_.find k
      = if k = b then
          some (match e.barcode_distribution_.find b with
            | none => FrameBarcodeInfo.new e.number_of_frames_
            | some info =>
              info.Update c (e.GetFrameFromPos r.start_pos) (e.GetFrameFromPos r.end_pos))
        else e.barcode_distribution_.find k := by
  unfold FrameEdgeEntry.InsertBarcode
  cases h : e.barcode_distribution_.find b with
  | none =>
    simp only [StdMap.find, StdMap.insert]
    exact mapFind_mapInsert_of_none _ b _ k h
  | some info =>
    simp only [StdMap.find, StdMap.assign]
    rw [mapFind_mapAssign]
    have h2 : mapFind e.barcode_distribution_.entries b = some info := h
    rw [h2]; rfl

theorem simple_insertBarcode_edge (e : SimpleEdgeEntry) (b : BarcodeId) (c : Nat) (r : Range) :
    (SimpleEdgeEntry.InsertBarcode e b c r).edge_ = e.edge_ := by
  unfold SimpleEdgeEntry.InsertBarcode
  cases e.barcode_distribution_.find b <;> rfl

theorem frame_insertBarcode_fields (e : FrameEdgeEntry) (b : BarcodeId) (c : Nat) (r : Range) :
    (e.InsertBarcode b c r).edge_ = e.edge_
    ∧ (e.InsertBarcode b c r).edge_length_ = e.edge_length_
    ∧ (e.InsertBarcode b c r).frame_size_ = e.frame_size_
    ∧ (e.InsertBarcode b c r).number_of_frames_ = e.number_of_frames_ := by
  unfold FrameEdgeEntry.InsertBarcode
  cases e.barcode_distribution_.find b <;> exact ⟨rfl, rfl, rfl, rfl⟩

/-! ## Insertions of different barcodes commute -/

theorem edgeEntry_eq {V : Type} (a b : EdgeEntry V) (h1 : a.edge_ = b.edge_)
    (h2 : ∀ k, a.barcode_distribution_.find k = b.barcode_distribution_.find k) : a = b := by
  obtain ⟨ea, da⟩ := a
  obtain ⟨eb, db⟩ := b
  simp only at h1 h2
  subst h1
  rw [StdMap.eq_of_find_eq da db h2]

theorem frameEdgeEntry_eq (a b : FrameEdgeEntry) (h1 : a.edge_ = b.edge_)
    (h2 : ∀ k, a.barcode_distribution_.find k = b.barcode_distribution_.find k)
    (h3 : a.edge_length_ = b.edge_length_) (h4 : a.frame_size_ = b.frame_size_)
    (h5 : a.number_of_frames_ = b.number_of_frames_) : a = b := by
  obtain ⟨ba, la, fa, na⟩ := a
  obtain ⟨bb, lb, fb, nb⟩ := b
  simp only at h1 h2 h3 h4 h5
  subst h3 h4 h5
  rw [edgeEntry_eq ba bb h1 h2]

theorem simple_insertBarcode_comm (e : SimpleEdgeEntry) (b1 b2 c1 c2 : Nat) (r1 r2 : Range)
    (hb : b1 ≠ b2) :
    SimpleEdgeEntry.InsertBarcode (SimpleEdgeEntry.InsertBarcode e b1 c1 r1) b2 c2 r2
      = SimpleEdgeEntry.InsertBarcode (SimpleEdgeEntry.InsertBarcode e b2 c2 r2) b1 c1 r1 := by
  have hb2 : b2 ≠ b1 := fun h => hb h.symm
  apply edgeEntry_eq
  · simp only [simple_insertBarcode_edge]
  · intro k
    simp only [simple_insertBarcode_find, if_neg hb, if_neg hb2]
    by_cases h1 : k = b1
    · subst h1
      simp only [if_neg hb, if_true]
    · simp only [if_neg h1]

theorem frame_insertBarcode_comm (e : FrameEdgeEntry) (b1 b2 c1 c2 : Nat) (r1 r2 : Range)
    (hb : b1 ≠ b2) :
    (e.InsertBarcode b1 c1 r1).InsertBarcode b2 c2 r2
      = (e.InsertBarcode b2 c2 r2).InsertBarcode b1 c1 r1 := by
  have hb2 : b2 ≠ b1 := fun h => hb h.symm
  have f1 := frame_insertBarcode_fields e b1 c1 r1
  have f2 := frame_insertBarcode_fields e b2 c2 r2
  have g1 := frame_insertBarcode_fields (e.InsertBarcode b1 c1 r1) b2 c2 r2
  have g2 := frame_insertBarcode_fields (e.InsertBarcode b2 c2 r2) b1 c1 r1
  apply frameEdgeEntry_eq
  · rw [g1.1, g2.1, f1.1, f2.1]
  · intro k
    simp only [frame_insertBarcode_find, FrameEdgeEntry.GetFrameFromPos, if_neg hb, if_neg hb2,
      f1.2.2.1, f1.2.2.2, f2.2.2.1, f2.2.2.2]
    by_cases h1 : k = b1
    · subst h1
      simp only [if_neg hb, if_true]
    · simp only [if_neg h1]
  · rw [g1.2.1, g2.2.1, f1.2.1, f2.2.1]
  · rw [g1.2.2.1, g2.2.2.1, f1.2.2.1, f2.2.2.1]
  · rw [g1.2.2.2, g2.2.2.2, f1.2.2.2, f2.2.2.2]

/-- C15: for a simple entry and for a frame entry with `frame_size > 0`, and two
ingests `InsertBarcode(b1, c1, r1)` and `InsertBarcode(b2, c2, r2)` with
`b1 != b2`, applying them in either order yields the same entry. -/
theorem insertBarcode_comm (es : SimpleEdgeEntry) (ef : FrameEdgeEntry)
    (b1 b2 c1 c2 : Nat) (r1 r2 : Range) (hb : b1 ≠ b2) (_hfs : 0 < ef.frame_size_) :
    SimpleEdgeEntry.InsertBarcode (SimpleEdgeEntry.InsertBarcode es b1 c1 r1) b2 c2 r2
      = SimpleEdgeEntry.InsertBarcode (SimpleEdgeEntry.InsertBarcode es b2 c2 r2) b1 c1 r1
    ∧ (ef.InsertBarcode b1 c1 r1).InsertBarcode b2 c2 r2
      = (ef.InsertBarcode b2 c2 r2).InsertBarcode b1 c1 r1 :=
  ⟨simple_insertBarcode_comm es b1 b2 c1 c2 r1 r2 hb,
   frame_insertBarcode_comm ef b1 b2 c1 c2 r1 r2 hb⟩

/-- Witness of C15: barcodes 1 and 3 inserted, in both orders, into the simple
entry that holds barcode 4 and into `exampleFrameEntry`; barcode 1 is already
in the frame entry and barcode 3 is not. -/
theorem insertBarcode_comm_witness :
    (1 : Nat) ≠ 3
    ∧ 0 < exampleFrameEntry.frame_size_
    ∧ SimpleEdgeEntry.InsertBarcode
        (SimpleEdgeEntry.InsertBarcode
          (SimpleEdgeEntry.InsertBarcode (EdgeEntry.new 0) 4 3 ⟨5, 25⟩) 1 2 ⟨0, 10⟩) 3 7 ⟨40, 55⟩
      = SimpleEdgeEntry.InsertBarcode
        (SimpleEdgeEntry.InsertBarcode
          (SimpleEdgeEntry.InsertBarcode (EdgeEntry.new 0) 4 3 ⟨5, 25⟩) 3 7 ⟨40, 55⟩) 1 2 ⟨0, 10⟩
    ∧ (exampleFrameEntry.InsertBarcode 1 2 ⟨30, 45⟩).InsertBarcode 3 7 ⟨40, 55⟩
      = (exampleFrameEntry.InsertBarcode 3 7 ⟨40, 55⟩).InsertBarcode 1 2 ⟨30, 45⟩ :=
  ⟨by decide, by decide,
   (insertBarcode_comm (SimpleEdgeEntry.InsertBarcode (EdgeEntry.new 0) 4 3 ⟨5, 25⟩)
      exampleFrameEntry 1 3 2 7 ⟨0, 10⟩ ⟨40, 55⟩ (by decide) (by decide)).1,
   (insertBarcode_comm (SimpleEdgeEntry.InsertBarcode (EdgeEntry.new 0) 4 3 ⟨5, 25⟩)
      exampleFrameEntry 1 3 2 7 ⟨30, 45⟩ ⟨40, 55⟩ (by decide) (by decide)).2⟩

/-! ## Updates of a frame info commute -/

theorem bits_eq_of_getD (a b : List Bool) (hl : a.length = b.length)
    (h : ∀ i, a.getD i false = true ↔ b.getD i false = true) : a = b := by
  apply List.ext_getElem hl
  intro i h1 h2
  have hi := h i
  simp only [List.getD_eq_getElem?_getD, List.getElem?_eq_getElem h1,
    List.getElem?_eq_getElem h2, Option.getD_some] at hi
  exact Bool.eq_iff_iff.2 hi

/-- C16: for a frame info with `N` frames and two updates with
`l1 <= r1 < N` and `l2 <= r2 < N`, `Update(c1, l1, r1)` followed by
`Update(c2, l2, r2)` yields the same info (count, bitset, leftmost, rightmost)
as the two updates in the opposite order. -/
theorem frame_update_comm (N : Nat) (info : FrameBarcodeInfo) (c1 l1 r1 c2 l2 r2 : Nat)
    (_hN : info.GetSize = N) (_h1 : l1 ≤ r1) (_h2 : r1 < N) (_h3 : l2 ≤ r2) (_h4 : r2 < N) :
    (info.Update c1 l1 r1).Update c2 l2 r2 = (info.Update c2 l2 r2).Update c1 l1 r1 := by
  simp only [FrameBarcodeInfo.Update, FrameBarcodeInfo.mk.injEq]
  refine ⟨?_, ?_, by omega, by omega⟩
  · rw [Nat.mod_add_mod, Nat.mod_add_mod]
    congr 1
    omega
  · apply bits_eq_of_getD
    · simp only [setFrames_length]
    · intro i
      simp only [setFrames_getD_iff, setFrames_length]
      constructor
      · intro h
        rcases h with (h | h) | h
        · left; left; exact h
        · right; exact h
        · left; right; exact h
      · intro h
        rcases h with (h | h) | h
        · left; left; exact h
        · right; exact h
        · left; right; exact h

/-- Witness of C16: on 11 frames, `Update(3, 0, 2)` and `Update(2, 4, 5)` in both
orders. -/
theorem frame_update_comm_witness :
    ((FrameBarcodeInfo.new 11).Update 3 0 2).Update 2 4 5
      = ((FrameBarcodeInfo.new 11).Update 2 4 5).Update 3 0 2 :=
  frame_update_comm 11 (FrameBarcodeInfo.new 11) 3 0 2 2 4 5
    (by decide) (by decide) (by decide) (by decide) (by decide)

/-! ## Text streams

`std::ofstream` output is the list of characters written.  `std::ifstream`
input is the list of characters still to be read together with the `failbit`
and the `eofbit` of the stream; exceptions are not enabled on the stream, so
a failed extraction only sets `failbit`. -/

/-- The decimal digit `d` as a character. -/
def digitChar (d : Nat) : Char := Char.ofNat (48 + d)

/-- The digits of `n`, most significant first, in front of `acc`. -/
def toDecimalAux : Nat → Nat → List Char → List Char
  | 0, _, acc => acc
  | fuel + 1, n, acc =>
    if n < 10 then digitChar n :: acc
    else toDecimalAux fuel (n / 10) (digitChar (n % 10) :: acc)

/-- The characters of `os << n` for an unsigned integer `n`: its decimal digits. -/
def printUnsigned (n : Nat) : List Char := toDecimalAux (n + 1) n []

/-- The characters of `os << bits` for a `dynamic_bitset`: one character per
bit, the bit of highest index first. -/
def printBitset (bits : List Bool) : List Char :=
  (bits.map (fun b => if b then '1' else '0')).reverse

/-- Whitespace of the classic locale. -/
def isspace (c : Char) : Bool :=
  c == ' ' || c == '\t' || c == '\n' || c == '\x0b' || c == '\x0c' || c == '\r'

/-- An input stream: the characters not yet read, `failbit` and `eofbit`. -/
structure IStream where
  buf : List Char
  fail : Bool
  eof : Bool
deriving DecidableEq, Repr

namespace IStream

/-- A freshly opened stream over a text. -/
def ofText (text : List Char) : IStream := ⟨text, false, false⟩

/-- Construction of `istream::sentry`: a stream that is not `good()` gets
`failbit`; otherwise leading whitespace is skipped, and reaching the end of the
input sets `failbit` and `eofbit`.  The flag tells whether extraction may go on. -/
def sentry (is : IStream) : IStream × Bool :=
  if is.fail || is.eof then ({ is with fail := true }, false)
  else if (is.buf.dropWhile isspace).isEmpty then (⟨[], true, true⟩, false)
  else ({ is with buf := is.buf.dropWhile isspace }, true)

/-- Extraction `is >> n` into an unsigned 64-bit variable.  The value is `none`
when the variable is left as it was (the sentry failed).  Otherwise an optional
sign and the following decimal digits are consumed: without a digit the
variable becomes 0 and `failbit` is set; a number of `2^64` or more gives the
largest value and `failbit`; a leading minus sign negates modulo `2^64`. -/
def extractUnsigned (is : IStream) : IStream × Option Nat :=
  match is.sentry with
  | (is1, false) => (is1, none)
  | (is1, true) =>
    let afterSign :=
      if is1.buf.head? == some '-' || is1.buf.head? == some '+' then is1.buf.tail
      else is1.buf
    let digits := afterSign.takeWhile Char.isDigit
    let rest := afterSign.dropWhile Char.isDigit
    let value := digits.foldl (fun acc c => acc * 10 + (c.toNat - 48)) 0
    if digits.isEmpty then (⟨rest, true, rest.isEmpty⟩, some 0)
    else if SIZE_MOD ≤ value then (⟨rest, true, rest.isEmpty⟩, some (SIZE_MOD - 1))
    else
      (⟨rest, false, rest.isEmpty⟩,
        some (if is1.buf.head? == some '-' then (SIZE_MOD - value) % SIZE_MOD else value))

/-- Extraction `is >> b` into a `dynamic_bitset` holding `bits`.  When the
sentry fails the bitset is left as it was.  Otherwise the bitset is cleared and
the following characters `0` and `1` are consumed, the first character read
becoming the bit of highest index; a bitset left empty sets `failbit`. -/
def extractBitset (is : IStream) (bits : List Bool) : IStream × List Bool :=
  match is.sentry with
  | (is1, false) => (is1, bits)
  | (is1, true) =>
    let chars := is1.buf.takeWhile (fun c => c == '0' || c == '1')
    let rest := is1.buf.dropWhile (fun c => c == '0' || c == '1')
    (⟨rest, chars.isEmpty, rest.isEmpty⟩, (chars.map (fun c => c == '1')).reverse)

end IStream

/-- The member `dynamic_bitset::find_first`: the lowest index of a set bit, and
`npos = 2^64 - 1` when no bit is set. -/
def find_first (bits : List Bool) : Nat :=
  if true ∈ bits then bits.indexOf true else SIZE_MOD - 1

/-- The loop `for (size_t i = start; i > 0; --i)` of `operator>>` for a frame
info: the first `i` with `test(i)`, and 0 when the loop ends without one. -/
def findRightmost (bits : List Bool) : Nat → Nat
  | 0 => 0
  | i + 1 => if bits.getD (i + 1) false then i + 1 else findRightmost bits i

/-- The characters of `os << info` for a simple info. -/
def SimpleBarcodeInfo.print (info : SimpleBarcodeInfo) : List Char :=
  printUnsigned info.count_ ++ [' '] ++ printUnsigned info.range_.start_pos ++ [' ']
    ++ printUnsigned info.range_.end_pos

/-- Extraction `is >> info` for a simple info.  The result is `none` when
`range_start` or `range_end`, which are not initialised, are left as they were
and then read: the behaviour of the source is undefined there. -/
def SimpleBarcodeInfo.extract (is : IStream) (info : SimpleBarcodeInfo) :
    Option (IStream × SimpleBarcodeInfo) :=
  match is.extractUnsigned with
  | (is1, count) =>
    match is1.extractUnsigned with
    | (is2, range_start) =>
      match is2.extractUnsigned with
      | (is3, range_end) =>
        match range_start, range_end with
        | some s, some e => some (is3, ⟨count.getD info.count_, ⟨s, e⟩⟩)
        | _, _ => none

/-- The characters of `os << info` for a frame info. -/
def FrameBarcodeInfo.print (info : FrameBarcodeInfo) : List Char :=
  printUnsigned info.count_ ++ [' '] ++ printBitset info.is_on_frame_

/-- Extraction `is >> info` for a frame info.  The result is `none` when the
bitset is empty after the extraction: the loop then starts at `size() - 1`,
which wraps, and `test` is called outside the bitset. -/
def FrameBarcodeInfo.extract (is : IStream) (info : FrameBarcodeInfo) :
    Option (IStream × FrameBarcodeInfo) :=
  match is.extractUnsigned with
  | (is1, count) =>
    match is1.extractBitset info.is_on_frame_ with
    | (is2, bits) =>
      if bits.isEmpty then none
      else
        some (is2,
          { count_ := count.getD info.count_
            is_on_frame_ := bits
            leftmost_index_ := find_first bits
            rightmost_index_ := findRightmost bits (bits.length - 1) })

/-- Method `FrameBarcodeInfo::Update(const FrameBarcodeInfo& other)`; `none`
when the two bitsets differ in size, which `operator|=` requires not to happen. -/
def FrameBarcodeInfo.UpdateWith (info other : FrameBarcodeInfo) : Option FrameBarcodeInfo :=
  if info.is_on_frame_.length = other.is_on_frame_.length then
    some
      { count_ := (info.count_ + other.count_) % SIZE_MOD
        is_on_frame_ := List.zipWith (fun x y => x || y) info.is_on_frame_ other.is_on_frame_
        leftmost_index_ := min info.leftmost_index_ other.leftmost_index_
        rightmost_index_ := max info.rightmost_index_ other.rightmost_index_ }
  else none

/-- Method `SimpleEdgeEntry::InsertInfo`. -/
def SimpleEdgeEntry.InsertInfo (e : SimpleEdgeEntry) (barcode : BarcodeId)
    (info : SimpleBarcodeInfo) : Option SimpleEdgeEntry :=
  match e.barcode_distribution_.find barcode with
  | none => some { e with barcode_distribution_ := e.barcode_distribution_.insert barcode info }
  | some old =>
    some { e with
      barcode_distribution_ := e.barcode_distribution_.assign barcode (old.UpdateWith info) }

/-- Method `FrameEdgeEntry::InsertInfo`. -/
def FrameEdgeEntry.InsertInfo (e : FrameEdgeEntry) (barcode : BarcodeId)
    (info : FrameBarcodeInfo) : Option FrameEdgeEntry :=
  match e.barcode_distribution_.find barcode with
  | none => some { e with barcode_distribution_ := e.barcode_distribution_.insert barcode info }
  | some old =>
    match old.UpdateWith info with
    | none => none
    | some merged =>
      some { e with barcode_distribution_ := e.barcode_distribution_.assign barcode merged }

/-- The characters written by `EdgeEntry::SerializeDistribution`: the size and a
line end, then for every node, in key order, the barcode id, a blank, the info
and a line end. -/
def serializeDistribution {V : Type} (printInfo : V → List Char) (m : StdMap V) : List Char :=
  printUnsigned m.size ++ ['\n']
    ++ (m.entries.map
          (fun it => printUnsigned it.1 ++ [' '] ++ printInfo it.2 ++ ['\n'])).flatten

/-- The loop of `EdgeEntry::DeserializeDistribution`, for the iterations still
to run.  The result is `none` where the behaviour of the source is undefined:
`int_id`, which is not initialised, is left as it was by the extraction, or the
extraction of the info or `InsertInfo` is undefined. -/
def deserializeLoop {E V : Type} (fresh : V)
    (extractInfo : IStream → V → Option (IStream × V))
    (insertInfo : E → BarcodeId → V → Option E) :
    Nat → IStream → E → Option (IStream × E)
  | 0, is, e => some (is, e)
  | n + 1, is, e =>
    match is.extractUnsigned with
    | (_, none) => none
    | (is1, some int_id) =>
      match extractInfo is1 fresh with
      | none => none
      | some (is2, info) =>
        match insertInfo e int_id info with
        | none => none
        | some e2 => deserializeLoop fresh extractInfo insertInfo n is2 e2

/-- The method `EdgeEntry::DeserializeDistribution`; `none` where the behaviour of
the source is undefined (`distr_size` read while not initialised, or an
undefined iteration).  No path of the method reports an error. -/
def deserializeDistribution {E V : Type} (fresh : V)
    (extractInfo : IStream → V → Option (IStream × V))
    (insertInfo : E → BarcodeId → V → Option E) (is : IStream) (e : E) :
    Option (IStream × E) :=
  match is.extractUnsigned with
  | (_, none) => none
  | (is1, some distr_size) => deserializeLoop fresh extractInfo insertInfo distr_size is1 e

/-- Method `Serialize` of a simple entry. -/
def SimpleEdgeEntry.Serialize (e : SimpleEdgeEntry) : List Char :=
  serializeDistribution SimpleBarcodeInfo.print e.barcode_distribution_

/-- Method `Deserialize` of a simple entry. -/
def SimpleEdgeEntry.Deserialize (is : IStream) (e : SimpleEdgeEntry) :
    Option (IStream × SimpleEdgeEntry) :=
  deserializeDistribution SimpleBarcodeInfo.new SimpleBarcodeInfo.extract
    SimpleEdgeEntry.InsertInfo is e

/-- Method `Serialize` of a frame entry. -/
def FrameEdgeEntry.Serialize (e : FrameEdgeEntry) : List Char :=
  serializeDistribution FrameBarcodeInfo.print e.barcode_distribution_

/-- Method `Deserialize` of a frame entry. -/
def FrameEdgeEntry.Deserialize (is : IStream) (e : FrameEdgeEntry) :
    Option (IStream × FrameEdgeEntry) :=
  deserializeDistribution (FrameBarcodeInfo.new 0) FrameBarcodeInfo.extract
    FrameEdgeEntry.InsertInfo is e

/-- Default constructor `FrameEdgeEntry()`. -/
def FrameEdgeEntry.default : FrameEdgeEntry :=
  { edge_ := 0
    barcode_distribution_ := StdMap.empty
    edge_length_ := 0
    frame_size_ := 0
    number_of_frames_ := 0 }

/-! ## Printing and reading back an unsigned integer -/

theorem digitChar_props (d : Nat) (hd : d < 10) :
    (digitChar d).isDigit = true ∧ (digitChar d).toNat - 48 = d
      ∧ isspace (digitChar d) = false ∧ digitChar d ≠ '-' ∧ digitChar d ≠ '+' := by
  interval_cases d <;> decide

theorem toDecimalAux_append (fuel n : Nat) (acc : List Char) :
    toDecimalAux fuel n acc = toDecimalAux fuel n [] ++ acc := by
  induction fuel generalizing n acc with
  | zero => simp [toDecimalAux]
  | succ fuel ih =>
    simp only [toDecimalAux]
    split_ifs with h
    · simp
    · rw [ih (n / 10) (digitChar (n % 10) :: acc), ih (n / 10) [digitChar (n % 10)]]
      simp

theorem toDecimalAux_spec (fuel n : Nat) (h : n < fuel) :
    (∀ c ∈ toDecimalAux fuel n [], c.isDigit = true)
    ∧ toDecimalAux fuel n [] ≠ []
    ∧ (toDecimalAux fuel n []).foldl (fun acc c => acc * 10 + (c.toNat - 48)) 0 = n := by
  induction fuel generalizing n with
  | zero => omega
  | succ fuel ih =>
    simp only [toDecimalAux]
    split_ifs with h10
    · have hp := digitChar_props n h10
      refine ⟨?_, by simp, ?_⟩
      · intro c hc
        simp only [List.mem_singleton] at hc
        rw [hc]; exact hp.1
      · simp [hp.2.1]
    · have hlt : n / 10 < fuel := by omega
      have hrec := ih (n / 10) hlt
      have hp := digitChar_props (n % 10) (Nat.mod_lt _ (by decide))
      rw [toDecimalAux_append]
      refine ⟨?_, ?_, ?_⟩
      · intro c hc
        rcases List.mem_append.1 hc with hc | hc
        · exact hrec.1 c hc
        · simp only [List.mem_singleton] at hc
          rw [hc]; exact hp.1
      · simp
      · rw [List.foldl_append, hrec.2.2]
        simp only [List.foldl_cons, List.foldl_nil, hp.2.1]
        omega

theorem printUnsigned_spec (n : Nat) :
    (∀ c ∈ printUnsigned n, c.isDigit = true)
    ∧ printUnsigned n ≠ []
    ∧ (printUnsigned n).foldl (fun acc c => acc * 10 + (c.toNat - 48)) 0 = n :=
  toDecimalAux_spec (n + 1) n (Nat.lt_succ_self n)

theorem takeWhile_append_stop {p : Char → Bool} (ds : List Char) (c : Char) (tail : List Char)
    (hds : ∀ x ∈ ds, p x = true) (hc : p c = false) :
    (ds ++ c :: tail).takeWhile p = ds ∧ (ds ++ c :: tail).dropWhile p = c :: tail := by
  induction ds with
  | nil => simp [List.takeWhile, List.dropWhile, hc]
  | cons d rest ih =>
    have hd : p d = true := hds d (List.mem_cons_self _ _)
    have hrest := ih (fun x hx => hds x (List.mem_cons_of_mem _ hx))
    simp [List.takeWhile, List.dropWhile, hd, hrest.1, hrest.2]

theorem dropWhile_isspace_skip (ws rest : List Char) (hws : ∀ w ∈ ws, isspace w = true)
    (hrest : ∀ c, rest.head? = some c → isspace c = false) :
    (ws ++ rest).dropWhile isspace = rest := by
  induction ws with
  | nil =>
    cases rest with
    | nil => rfl
    | cons c tl =>
      have := hrest c rfl
      simp [List.dropWhile, this]
  | cons w tl ih =>
    have hw : isspace w = true := hws w (List.mem_cons_self _ _)
    simp only [List.cons_append, List.dropWhile, hw]
    exact ih (fun x hx => hws x (List.mem_cons_of_mem _ hx))

theorem isDigit_not_space (c : Char) (h : c.isDigit = true) :
    isspace c = false ∧ c ≠ '-' ∧ c ≠ '+' := by
  have h1 : 48 ≤ c.val ∧ c.val ≤ 57 := by
    simpa [Char.isDigit] using h
  refine ⟨?_, ?_, ?_⟩
  · simp only [isspace, Bool.or_eq_false_iff, beq_eq_false_iff_ne, ne_eq]
    refine ⟨⟨⟨⟨⟨?_, ?_⟩, ?_⟩, ?_⟩, ?_⟩, ?_⟩ <;>
      (intro hc; rw [hc] at h1; revert h1; decide)
  · intro hc; rw [hc] at h1; revert h1; decide
  · intro hc; rw [hc] at h1; revert h1; decide

/-- Reading back a printed number: after whitespace `ws`, the digits of `n` and a
character `c` that is no digit, the extraction yields `n` and stops before `c`. -/
theorem extractUnsigned_print (ws : List Char) (n : Nat) (c : Char) (tail : List Char)
    (hws : ∀ w ∈ ws, isspace w = true) (hn : n < SIZE_MOD) (hc : c.isDigit = false) :
    IStream.extractUnsigned ⟨ws ++ printUnsigned n ++ c :: tail, false, false⟩
      = (⟨c :: tail, false, false⟩, some n) := by
  obtain ⟨hdig, hne, hval⟩ := printUnsigned_spec n
  obtain ⟨d, ds, hds⟩ := List.exists_cons_of_ne_nil hne
  have hd : d.isDigit = true := hdig d (by rw [hds]; exact List.mem_cons_self _ _)
  have hdprops := isDigit_not_space d hd
  have hskip : (ws ++ printUnsigned n ++ c :: tail).dropWhile isspace
      = printUnsigned n ++ c :: tail := by
    rw [List.append_assoc]
    apply dropWhile_isspace_skip ws _ hws
    intro x hx
    rw [hds] at hx
    simp only [List.cons_append, List.head?_cons, Option.some.injEq] at hx
    rw [← hx]; exact hdprops.1
  have htw := takeWhile_append_stop (p := Char.isDigit) (printUnsigned n) c tail hdig hc
  have hhead : (printUnsigned n ++ c :: tail).head? = some d := by
    rw [hds]; rfl
  have hminus : ((some d : Option Char) == some '-') = false := by
    simpa using hdprops.2.1
  have hplus : ((some d : Option Char) == some '+') = false := by
    simpa using hdprops.2.2
  have hnotempty : (printUnsigned n).isEmpty = false := by
    rw [hds]; rfl
  have hlt : ¬ SIZE_MOD ≤ n := by omega
  have hbodyne : (printUnsigned n ++ c :: tail).isEmpty = false := by
    rw [hds]; rfl
  have hsentry : IStream.sentry ⟨ws ++ printUnsigned n ++ c :: tail, false, false⟩
      = (⟨printUnsigned n ++ c :: tail, false, false⟩, true) := by
    simp only [IStream.sentry, Bool.or_self, Bool.false_eq_true, if_false, hskip, hbodyne]
  unfold IStream.extractUnsigned
  rw [hsentry]
  simp only [hhead, hminus, hplus, Bool.or_self, Bool.false_eq_true, if_false, htw.1, htw.2,
    hval, hnotempty, hlt, List.isEmpty_cons]

/-! ## Reading back a serialized distribution -/

/-- The frame entry for an edge of length 100 with frame size 10 into which
barcode 0 has been inserted once, with count 3 and range `[5,25)`. -/
def onceInsertedFrameEntry : FrameEdgeEntry :=
  (FrameEdgeEntry.new 7 100 10).InsertBarcode 0 3 ⟨5, 25⟩

/-- A simple entry built by insertions: barcode 4 with count 3 and range
`[5,25)`, barcode 9 with count 12 and range `[0,140)`. -/
def exampleSimpleEntry : SimpleEdgeEntry :=
  SimpleEdgeEntry.InsertBarcode
    (SimpleEdgeEntry.InsertBarcode
      (SimpleEdgeEntry.InsertBarcode (EdgeEntry.new 0) 9 5 ⟨100, 140⟩) 4 3 ⟨5, 25⟩) 9 7 ⟨0, 30⟩


/-- The numbers of a simple info fit in 64 bits. -/
def SimpleBarcodeInfo.Fits (info : SimpleBarcodeInfo) : Prop :=
  info.count_ < SIZE_MOD ∧ info.range_.start_pos < SIZE_MOD ∧ info.range_.end_pos < SIZE_MOD

/-- The size of a distribution, its barcode ids and the numbers of its infos fit
in 64 bits, as they do for every value of the C++ types. -/
def DistributionFits {V : Type} (fits : V → Prop) (m : StdMap V) : Prop :=
  m.size < SIZE_MOD ∧ ∀ it ∈ m.entries, it.1 < SIZE_MOD ∧ fits it.2

theorem mapInsert_append_of_gt {V : Type} (l : List (Nat × V)) (key : Nat) (v : V)
    (h : ∀ x ∈ l, x.1 < key) : mapInsert l key v = l ++ [(key, v)] := by
  induction l with
  | nil => rfl
  | cons hd tl ih =>
    obtain ⟨k, w⟩ := hd
    have hk : k < key := h (k, w) (List.mem_cons_self _ _)
    have h1 : ¬ key < k := by omega
    have h2 : ¬ key = k := by omega
    simp only [mapInsert, if_neg h1, if_neg h2, List.cons_append]
    rw [ih (fun x hx => h x (List.mem_cons_of_mem _ hx))]

theorem mapFind_eq_none_of_gt {V : Type} (l : List (Nat × V)) (key : Nat)
    (h : ∀ x ∈ l, x.1 < key) : mapFind l key = none := by
  induction l with
  | nil => rfl
  | cons hd tl ih =>
    obtain ⟨k, w⟩ := hd
    have hk : k < key := h (k, w) (List.mem_cons_self _ _)
    have hne : ¬ k = key := by omega
    simp only [mapFind, if_neg hne]
    exact ih (fun x hx => h x (List.mem_cons_of_mem _ hx))

theorem simple_extract_print (info : SimpleBarcodeInfo) (tail : List Char)
    (hfit : info.Fits) (fresh : SimpleBarcodeInfo) :
    SimpleBarcodeInfo.extract ⟨' ' :: (info.print ++ '\n' :: tail), false, false⟩ fresh
      = some (⟨'\n' :: tail, false, false⟩, info) := by
  obtain ⟨h1, h2, h3⟩ := hfit
  have hsp : ∀ w ∈ [' '], isspace w = true := by
    intro w hw
    simp only [List.mem_singleton] at hw
    rw [hw]; decide
  have e1 : (' ' :: (info.print ++ '\n' :: tail))
      = [' '] ++ printUnsigned info.count_
        ++ ' ' :: (printUnsigned info.range_.start_pos
          ++ ' ' :: (printUnsigned info.range_.end_pos ++ '\n' :: tail)) := by
    simp [SimpleBarcodeInfo.print]
  have e2 : (' ' :: (printUnsigned info.range_.start_pos
          ++ ' ' :: (printUnsigned info.range_.end_pos ++ '\n' :: tail)))
      = [' '] ++ printUnsigned info.range_.start_pos
        ++ ' ' :: (printUnsigned info.range_.end_pos ++ '\n' :: tail) := by
    simp
  have e3 : (' ' :: (printUnsigned info.range_.end_pos ++ '\n' :: tail))
      = [' '] ++ printUnsigned info.range_.end_pos ++ '\n' :: tail := by
    simp
  unfold SimpleBarcodeInfo.extract
  rw [e1, extractUnsigned_print [' '] _ ' ' _ hsp h1 (by decide)]
  simp only
  rw [e2, extractUnsigned_print [' '] _ ' ' _ hsp h2 (by decide)]
  simp only
  rw [e3, extractUnsigned_print [' '] _ '\n' _ hsp h3 (by decide)]
  simp only [Option.getD_some]

/-- The loop of `DeserializeDistribution` on the records written for the nodes
`l`, when the keys of `l` lie above the keys already in the entry: every record
is read back and inserted, in order. -/
theorem deserializeLoop_records {E V : Type} (fresh : V) (printInfo : V → List Char)
    (extractInfo : IStream → V → Option (IStream × V))
    (insertInfo : E → BarcodeId → V → Option E)
    (dist : E → StdMap V) (setDist : E → StdMap V → E) (fits : V → Prop)
    (hdist : ∀ e m, dist (setDist e m) = m)
    (hset : ∀ e m1 m2, setDist (setDist e m1) m2 = setDist e m2)
    (hself : ∀ e, setDist e (dist e) = e)
    (hread : ∀ v tail, fits v →
      extractInfo ⟨' ' :: (printInfo v ++ '\n' :: tail), false, false⟩ fresh
        = some (⟨'\n' :: tail, false, false⟩, v))
    (hins : ∀ e k v, (dist e).find k = none →
      insertInfo e k v = some (setDist e ((dist e).insert k v)))
    (l : List (Nat × V)) (e : E)
    (hasc : KeysAscending ((dist e).entries ++ l))
    (hfit : ∀ it ∈ l, it.1 < SIZE_MOD ∧ fits it.2) :
    ∃ m : StdMap V, m.entries = (dist e).entries ++ l
      ∧ deserializeLoop fresh extractInfo insertInfo l.length
          ⟨'\n' :: (l.map
            (fun it => printUnsigned it.1 ++ [' '] ++ printInfo it.2 ++ ['\n'])).flatten,
            false, false⟩ e
        = some (⟨['\n'], false, false⟩, setDist e m) := by
  induction l generalizing e with
  | nil =>
    refine ⟨dist e, by simp, ?_⟩
    simp only [List.length_nil, List.map_nil, List.flatten_nil, deserializeLoop, hself]
  | cons hd tl ih =>
    obtain ⟨k, v⟩ := hd
    have hk := hfit (k, v) (List.mem_cons_self _ _)
    have hlt : ∀ x ∈ (dist e).entries, x.1 < k := by
      intro x hx
      exact (List.pairwise_append.1 hasc).2.2 x hx (k, v) (List.mem_cons_self _ _)
    have hnone : (dist e).find k = none := mapFind_eq_none_of_gt _ k hlt
    have hentries : ((dist e).insert k v).entries = (dist e).entries ++ [(k, v)] :=
      mapInsert_append_of_gt _ k v hlt
    have hasc2 : KeysAscending
        ((dist (setDist e ((dist e).insert k v))).entries ++ tl) := by
      rw [hdist, hentries, List.append_assoc]
      exact hasc
    obtain ⟨m, hm, hloop⟩ := ih (setDist e ((dist e).insert k v)) hasc2
      (fun it hit => hfit it (List.mem_cons_of_mem _ hit))
    refine ⟨m, ?_, ?_⟩
    · rw [hm, hdist, hentries, List.append_assoc]; rfl
    · have htext : ('\n' :: (((k, v) :: tl).map
            (fun it => printUnsigned it.1 ++ [' '] ++ printInfo it.2 ++ ['\n'])).flatten)
          = ['\n'] ++ printUnsigned k
            ++ ' ' :: (printInfo v ++ '\n' :: (tl.map
              (fun it => printUnsigned it.1 ++ [' '] ++ printInfo it.2 ++ ['\n'])).flatten) := by
        simp
      have hnl : ∀ w ∈ ['\n'], isspace w = true := by
        intro w hw
        simp only [List.mem_singleton] at hw
        rw [hw]; decide
      rw [htext]
      simp only [List.length_cons, deserializeLoop]
      rw [extractUnsigned_print ['\n'] k ' ' _ hnl hk.1 (by decide)]
      simp only
      rw [hread v _ hk.2]
      simp only
      rw [hins e k v hnone]
      simp only
      rw [hloop, hset]

/-- The method `DeserializeDistribution` on the text written by
`SerializeDistribution`, started on an entry without barcodes: the call
returns, and the entry then holds the serialized distribution. -/
theorem deserialize_serialize {E V : Type} (fresh : V) (printInfo : V → List Char)
    (extractInfo : IStream → V → Option (IStream × V))
    (insertInfo : E → BarcodeId → V → Option E)
    (dist : E → StdMap V) (setDist : E → StdMap V → E) (fits : V → Prop)
    (hdist : ∀ e m, dist (setDist e m) = m)
    (hset : ∀ e m1 m2, setDist (setDist e m1) m2 = setDist e m2)
    (hself : ∀ e, setDist e (dist e) = e)
    (hread : ∀ v tail, fits v →
      extractInfo ⟨' ' :: (printInfo v ++ '\n' :: tail), false, false⟩ fresh
        = some (⟨'\n' :: tail, false, false⟩, v))
    (hins : ∀ e k v, (dist e).find k = none →
      insertInfo e k v = some (setDist e ((dist e).insert k v)))
    (m : StdMap V) (e : E) (hempty : (dist e).entries = []) (hfit : DistributionFits fits m) :
    deserializeDistribution fresh extractInfo insertInfo
        (IStream.ofText (serializeDistribution printInfo m)) e
      = some (⟨['\n'], false, false⟩, setDist e m) := by
  have hasc : KeysAscending ((dist e).entries ++ m.entries) := by
    rw [hempty]; exact m.ascending
  obtain ⟨m2, hm2, hloop⟩ := deserializeLoop_records fresh printInfo extractInfo insertInfo
    dist setDist fits hdist hset hself hread hins m.entries e hasc hfit.2
  have hmeq : m2 = m := StdMap.eq_of_entries m2 m (by rw [hm2, hempty]; rfl)
  rw [hmeq] at hloop
  have htext : serializeDistribution printInfo m
      = [] ++ printUnsigned m.size
        ++ '\n' :: (m.entries.map
          (fun it => printUnsigned it.1 ++ [' '] ++ printInfo it.2 ++ ['\n'])).flatten := by
    simp [serializeDistribution]
  unfold deserializeDistribution IStream.ofText
  rw [htext, extractUnsigned_print [] m.size '\n' _ (by simp) hfit.1 (by decide)]
  simp only
  exact hloop

theorem simple_insertInfo_absent (e : SimpleEdgeEntry) (k : BarcodeId)
    (v : SimpleBarcodeInfo) (h : e.barcode_distribution_.find k = none) :
    SimpleEdgeEntry.InsertInfo e k v
      = some { e with barcode_distribution_ := e.barcode_distribution_.insert k v } := by
  unfold SimpleEdgeEntry.InsertInfo
  rw [h]

theorem frame_insertInfo_absent (e : FrameEdgeEntry) (k : BarcodeId)
    (v : FrameBarcodeInfo) (h : e.barcode_distribution_.find k = none) :
    e.InsertInfo k v
      = some { e with barcode_distribution_ := e.barcode_distribution_.insert k v } := by
  unfold FrameEdgeEntry.InsertInfo
  rw [h]

/-- C18: for a simple entry `E` (whose size, barcode ids, counts and positions
are 64-bit values), `Deserialize` on the text written by `Serialize`, started on
an empty entry, returns, and the entry then holds the distribution of `E`: the
same barcodes, each with the same count, `start_pos` and `end_pos`. -/
theorem simple_serialize_roundtrip (e : SimpleEdgeEntry) (edge : EdgeId)
    (hfit : DistributionFits SimpleBarcodeInfo.Fits e.barcode_distribution_) :
    SimpleEdgeEntry.Deserialize (IStream.ofText (SimpleEdgeEntry.Serialize e))
        (EdgeEntry.new edge)
      = some (⟨['\n'], false, false⟩,
          { edge_ := edge, barcode_distribution_ := e.barcode_distribution_ }) :=
  deserialize_serialize SimpleBarcodeInfo.new SimpleBarcodeInfo.print SimpleBarcodeInfo.extract
    SimpleEdgeEntry.InsertInfo (fun x => x.barcode_distribution_)
    (fun x m => { x with barcode_distribution_ := m }) SimpleBarcodeInfo.Fits
    (fun _ _ => rfl) (fun _ _ _ => rfl) (fun _ => rfl)
    (fun v tail hv => simple_extract_print v tail hv SimpleBarcodeInfo.new)
    simple_insertInfo_absent e.barcode_distribution_ (EdgeEntry.new edge) rfl hfit

/-- Witness of C18: the simple entry with barcode 4 (count 3, range `[5,25)`) and
barcode 9 (count 12, range `[0,140)`) is written as two records and read back. -/
theorem simple_serialize_roundtrip_witness :
    SimpleEdgeEntry.Serialize exampleSimpleEntry = "2\n4 3 5 25\n9 12 0 140\n".toList
    ∧ SimpleEdgeEntry.Deserialize (IStream.ofText (SimpleEdgeEntry.Serialize exampleSimpleEntry))
        (EdgeEntry.new 1)
      = some (⟨['\n'], false, false⟩,
          { edge_ := 1, barcode_distribution_ := exampleSimpleEntry.barcode_distribution_ }) :=
  ⟨by decide,
   simple_serialize_roundtrip exampleSimpleEntry 1
     (by unfold DistributionFits SimpleBarcodeInfo.Fits; decide)⟩

/-! ## Reading back a frame info -/

/-- The count of a frame info fits in 64 bits, and the info is in the state
that follows at least one update: a bit is set, `leftmost` is the lowest and
`rightmost` the highest set bit. -/
def FrameBarcodeInfo.Fits (info : FrameBarcodeInfo) : Prop :=
  info.count_ < SIZE_MOD ∧ FrameInv info.is_on_frame_.length info

theorem indexOf_true_eq (bits : List Bool) (l : Nat) (hl : bits.getD l false = true)
    (hmin : ∀ i, bits.getD i false = true → l ≤ i) : bits.indexOf true = l := by
  induction bits generalizing l with
  | nil => simp at hl
  | cons b tl ih =>
    cases b with
    | true =>
      have h0 := hmin 0 (by simp)
      have hl0 : l = 0 := by omega
      rw [hl0]; simp
    | false =>
      cases l with
      | zero => simp at hl
      | succ l1 =>
        have h1 : tl.getD l1 false = true := by simpa using hl
        have h2 : ∀ i, tl.getD i false = true → l1 ≤ i := by
          intro i hi
          have := hmin (i + 1) (by simpa using hi)
          omega
        have h3 := ih l1 h1 h2
        rw [List.indexOf_cons_ne _ (by decide), h3]

theorem find_first_eq (bits : List Bool) (l : Nat) (hl : bits.getD l false = true)
    (hmin : ∀ i, bits.getD i false = true → l ≤ i) : find_first bits = l := by
  have hmem : true ∈ bits := by
    rw [List.getD_eq_getElem?_getD] at hl
    cases h : bits[l]? with
    | none => simp [h] at hl
    | some b =>
      simp only [h, Option.getD_some] at hl
      subst hl
      obtain ⟨hlt, hget⟩ := List.getElem?_eq_some.1 h
      rw [← hget]
      exact List.getElem_mem _
  unfold find_first
  rw [if_pos hmem]
  exact indexOf_true_eq bits l hl hmin

theorem findRightmost_eq (bits : List Bool) (r i : Nat) (hr : bits.getD r false = true)
    (hmax : ∀ j, bits.getD j false = true → j ≤ r) (hi : r ≤ i) :
    findRightmost bits i = r := by
  induction i with
  | zero =>
    have : r = 0 := by omega
    rw [this]; rfl
  | succ i ih =>
    simp only [findRightmost]
    by_cases hb : bits.getD (i + 1) false = true
    · have := hmax (i + 1) hb
      rw [if_pos hb]; omega
    · rw [if_neg hb]
      apply ih
      by_contra hcon
      have : r = i + 1 := by omega
      rw [this] at hr
      exact hb hr

theorem printBitset_chars (bits : List Bool) :
    (∀ c ∈ printBitset bits, (c == '0' || c == '1') = true)
    ∧ ((printBitset bits).map (fun c => c == '1')).reverse = bits := by
  constructor
  · intro c hc
    simp only [printBitset, List.mem_reverse, List.mem_map] at hc
    obtain ⟨b, _, hb⟩ := hc
    cases b <;> (rw [← hb]; decide)
  · simp only [printBitset, List.map_reverse, List.reverse_reverse, List.map_map]
    have : ((fun c => c == '1') ∘ fun b => if b = true then '1' else '0') = id := by
      funext b
      cases b <;> decide
    rw [this, List.map_id]

theorem extractBitset_print (bits old : List Bool) (tail : List Char) (hne : bits ≠ []) :
    IStream.extractBitset ⟨' ' :: (printBitset bits ++ '\n' :: tail), false, false⟩ old
      = (⟨'\n' :: tail, false, false⟩, bits) := by
  obtain ⟨hchars, hback⟩ := printBitset_chars bits
  have hpne : printBitset bits ≠ [] := by
    intro h
    have h2 := hback
    rw [h] at h2
    simp only [List.map_nil, List.reverse_nil] at h2
    exact hne h2.symm
  obtain ⟨d, ds, hds⟩ := List.exists_cons_of_ne_nil hpne
  have hd : (d == '0' || d == '1') = true := hchars d (by rw [hds]; exact List.mem_cons_self _ _)
  have hdsp : isspace d = false := by
    rcases Bool.or_eq_true_iff.1 hd with h | h
    · rw [beq_iff_eq.1 h]; decide
    · rw [beq_iff_eq.1 h]; decide
  have hskip : (' ' :: (printBitset bits ++ '\n' :: tail)).dropWhile isspace
      = printBitset bits ++ '\n' :: tail := by
    have := dropWhile_isspace_skip [' '] (printBitset bits ++ '\n' :: tail)
      (by intro w hw; simp only [List.mem_singleton] at hw; rw [hw]; decide)
      (by
        intro x hx
        rw [hds] at hx
        simp only [List.cons_append, List.head?_cons, Option.some.injEq] at hx
        rw [← hx]; exact hdsp)
    simpa using this
  have htw := takeWhile_append_stop (p := fun c => c == '0' || c == '1')
    (printBitset bits) '\n' tail hchars (by decide)
  have hbodyne : (printBitset bits ++ '\n' :: tail).isEmpty = false := by
    rw [hds]; rfl
  have hsentry : IStream.sentry ⟨' ' :: (printBitset bits ++ '\n' :: tail), false, false⟩
      = (⟨printBitset bits ++ '\n' :: tail, false, false⟩, true) := by
    simp only [IStream.sentry, Bool.or_self, Bool.false_eq_true, if_false, hskip, hbodyne]
  have hpe : (printBitset bits).isEmpty = false := by
    rw [hds]; rfl
  unfold IStream.extractBitset
  rw [hsentry]
  simp only [htw.1, htw.2, hback, hpe, List.isEmpty_cons]

theorem frame_extract_print (info : FrameBarcodeInfo) (tail : List Char)
    (hfit : info.Fits) (fresh : FrameBarcodeInfo) :
    FrameBarcodeInfo.extract ⟨' ' :: (info.print ++ '\n' :: tail), false, false⟩ fresh
      = some (⟨'\n' :: tail, false, false⟩, info) := by
  obtain ⟨hcount, hlen, hlr, hrN, hbl, hbr, hall⟩ := hfit
  have hne : info.is_on_frame_ ≠ [] := by
    intro h
    rw [h] at hrN
    simp at hrN
  have hsp : ∀ w ∈ [' '], isspace w = true := by
    intro w hw
    simp only [List.mem_singleton] at hw
    rw [hw]; decide
  have e1 : (' ' :: (info.print ++ '\n' :: tail))
      = [' '] ++ printUnsigned info.count_
        ++ ' ' :: (printBitset info.is_on_frame_ ++ '\n' :: tail) := by
    simp [FrameBarcodeInfo.print]
  have hfirst := find_first_eq info.is_on_frame_ info.leftmost_index_ hbl
    (fun i hi => (hall i hi).1)
  have hright := findRightmost_eq info.is_on_frame_ info.rightmost_index_
    (info.is_on_frame_.length - 1) hbr (fun j hj => (hall j hj).2) (by omega)
  have hnotempty : info.is_on_frame_.isEmpty = false := by
    cases h : info.is_on_frame_ with
    | nil => exact absurd h hne
    | cons _ _ => rfl
  unfold FrameBarcodeInfo.extract
  rw [e1, extractUnsigned_print [' '] _ ' ' _ hsp hcount (by decide)]
  simp only
  rw [extractBitset_print info.is_on_frame_ _ tail hne]
  simp only [hnotempty, Bool.false_eq_true, if_false, Option.getD_some, hfirst, hright]

/-- Reading back a frame entry: for a frame entry whose infos have all been
updated at least once (and whose numbers are 64-bit values), `Deserialize` on
the text written by `Serialize`, started on an entry without barcodes, returns,
and the entry then holds the serialized distribution. -/
theorem frame_serialize_roundtrip_updated (e start : FrameEdgeEntry)
    (hstart : start.barcode_distribution_.entries = [])
    (hfit : DistributionFits FrameBarcodeInfo.Fits e.barcode_distribution_) :
    FrameEdgeEntry.Deserialize (IStream.ofText e.Serialize) start
      = some (⟨['\n'], false, false⟩,
          { start with barcode_distribution_ := e.barcode_distribution_ }) :=
  deserialize_serialize (FrameBarcodeInfo.new 0) FrameBarcodeInfo.print
    FrameBarcodeInfo.extract FrameEdgeEntry.InsertInfo (fun x => x.barcode_distribution_)
    (fun x m => { x with barcode_distribution_ := m }) FrameBarcodeInfo.Fits
    (fun _ _ => rfl) (fun _ _ _ => rfl) (fun _ => rfl)
    (fun v tail hv => frame_extract_print v tail hv (FrameBarcodeInfo.new 0))
    frame_insertInfo_absent e.barcode_distribution_ start hstart hfit

/-- C17 (the code on an entry with a barcode inserted once): the frame entry
`onceInsertedFrameEntry` holds barcode 0 with count 0, no bit set, leftmost 11
and rightmost 0; it is written as `1\n0 0 00000000000\n`; reading that text back
into an empty entry gives barcode 0 with leftmost `2^64 - 1`, not 11. -/
theorem frame_serialize_roundtrip_code :
    onceInsertedFrameEntry.barcode_distribution_.entries
        = [(0, ⟨0, List.replicate 11 false, 11, 0⟩)]
    ∧ onceInsertedFrameEntry.Serialize = "1\n0 0 00000000000\n".toList
    ∧ (FrameEdgeEntry.Deserialize (IStream.ofText onceInsertedFrameEntry.Serialize)
          FrameEdgeEntry.default).map (fun r => r.2.barcode_distribution_.entries)
        = some [(0, ⟨0, List.replicate 11 false, 2 ^ 64 - 1, 0⟩)]
    ∧ (FrameEdgeEntry.Deserialize (IStream.ofText onceInsertedFrameEntry.Serialize)
          FrameEdgeEntry.default).map (fun r => r.2.barcode_distribution_.entries)
        ≠ some onceInsertedFrameEntry.barcode_distribution_.entries := by
  refine ⟨by decide, by decide, by decide, by decide⟩

/-! ## Malformed input -/

theorem extractUnsigned_non_numeric (ws : List Char) (c : Char) (tail : List Char)
    (hws : ∀ w ∈ ws, isspace w = true) (hsp : isspace c = false) (hdig : c.isDigit = false)
    (hminus : c ≠ '-') (hplus : c ≠ '+') :
    IStream.extractUnsigned ⟨ws ++ c :: tail, false, false⟩
      = (⟨c :: tail, true, false⟩, some 0) := by
  have hskip : (ws ++ c :: tail).dropWhile isspace = c :: tail := by
    apply dropWhile_isspace_skip ws _ hws
    intro x hx
    simp only [List.head?_cons, Option.some.injEq] at hx
    rw [← hx]; exact hsp
  have hsentry : IStream.sentry ⟨ws ++ c :: tail, false, false⟩
      = (⟨c :: tail, false, false⟩, true) := by
    simp only [IStream.sentry, Bool.or_self, Bool.false_eq_true, if_false, hskip,
      List.isEmpty_cons]
  have h1 : ((some c : Option Char) == some '-') = false := by simpa using hminus
  have h2 : ((some c : Option Char) == some '+') = false := by simpa using hplus
  unfold IStream.extractUnsigned
  rw [hsentry]
  simp only [List.head?_cons, h1, h2, Bool.or_self, Bool.false_eq_true, if_false,
    List.takeWhile_cons, List.dropWhile_cons, hdig, List.isEmpty_nil, if_true,
    List.isEmpty_cons]

/-- C19 (as the code has it): for an input text in which, after whitespace, a
character that is no digit and no sign stands where the number of barcodes is
expected, `Deserialize` of a simple entry and of a frame entry returns with the
entry unchanged; no error reaches the caller, and the stream is left with
`failbit` set in front of that character. -/
theorem deserialize_non_numeric_size (ws : List Char) (c : Char) (tail : List Char)
    (es : SimpleEdgeEntry) (ef : FrameEdgeEntry)
    (hws : ∀ w ∈ ws, isspace w = true) (hsp : isspace c = false) (hdig : c.isDigit = false)
    (hminus : c ≠ '-') (hplus : c ≠ '+') :
    SimpleEdgeEntry.Deserialize (IStream.ofText (ws ++ c :: tail)) es
        = some (⟨c :: tail, true, false⟩, es)
    ∧ FrameEdgeEntry.Deserialize (IStream.ofText (ws ++ c :: tail)) ef
        = some (⟨c :: tail, true, false⟩, ef) := by
  have h := extractUnsigned_non_numeric ws c tail hws hsp hdig hminus hplus
  constructor
  · unfold SimpleEdgeEntry.Deserialize deserializeDistribution IStream.ofText
    rw [h]
    simp only [deserializeLoop]
  · unfold FrameEdgeEntry.Deserialize deserializeDistribution IStream.ofText
    rw [h]
    simp only [deserializeLoop]

/-- Witness of C19: the text `x 4 3 5 25`, with a letter where the number of
barcodes is expected, read into `exampleSimpleEntry` and into
`exampleFrameEntry`. -/
theorem deserialize_non_numeric_size_witness :
    SimpleEdgeEntry.Deserialize (IStream.ofText ([] ++ 'x' :: " 4 3 5 25\n".toList))
        exampleSimpleEntry
      = some (⟨'x' :: " 4 3 5 25\n".toList, true, false⟩, exampleSimpleEntry)
    ∧ FrameEdgeEntry.Deserialize (IStream.ofText ([] ++ 'x' :: " 4 3 5 25\n".toList))
        exampleFrameEntry
      = some (⟨'x' :: " 4 3 5 25\n".toList, true, false⟩, exampleFrameEntry) :=
  deserialize_non_numeric_size [] 'x' " 4 3 5 25\n".toList exampleSimpleEntry
    exampleFrameEntry (by simp) (by decide) (by decide) (by decide) (by decide)

/-- C19 fails as stated: on the text `abc`, a non-numeric token where the number
of barcodes is expected, `Deserialize` of a simple entry returns the entry it
was given. -/
theorem deserialize_returns_on_malformed :
    SimpleEdgeEntry.Deserialize (IStream.ofText "abc".toList) (EdgeEntry.new 0)
      = some (⟨"abc".toList, true, false⟩, EdgeEntry.new 0) := by
  rfl

/-! ## Vertex entries of scaffold vertices

Shallow embedding of `SimpleScaffoldVertexEntryExtractor` of
`common/barcode_index/scaffold_vertex_index_builder.hpp`. -/

/-- Modelled from the spec: `ScaffoldVertex`, either one edge or a path, which is
the sequence of its edges. -/
inductive ScaffoldVertex where
  | EdgeIdVertex (edge : EdgeId)
  | PathVertex (path : List EdgeId)

/-- Modelled from the spec: the queries of `FrameBarcodeIndexInfoExtractor` that
the vertex extractor calls, as functions of the edge, the count threshold and
the tail threshold. -/
structure FrameBarcodeIndexInfoExtractor where
  GetBarcodesFromHead : EdgeId → Nat → Nat → List BarcodeId
  GetBarcodesAndCountsFromHead : EdgeId → Nat → Nat → List (BarcodeId × Nat)

/-- The class `SimpleScaffoldVertexEntryExtractor`. -/
structure SimpleScaffoldVertexEntryExtractor where
  g_ : Graph
  barcode_extractor_ : FrameBarcodeIndexInfoExtractor
  tail_threshold_ : Nat
  count_threshold_ : Nat
  length_threshold_ : Nat

/-- Modelled from the spec: `SimpleVertexEntry`, a set of barcode ids, as a
container of keys. -/
abbrev SimpleVertexEntry := StdMap Unit

/-- The statement `barcode_to_count[barcode] += reads` on the container
`std::unordered_map<BarcodeId, size_t>`: an absent barcode starts at 0. -/
def addCount : List (BarcodeId × Nat) → BarcodeId → Nat → List (BarcodeId × Nat)
  | [], barcode, reads => [(barcode, (0 + reads) % SIZE_MOD)]
  | (k, v) :: rest, barcode, reads =>
    if k = barcode then (k, (v + reads) % SIZE_MOD) :: rest
    else (k, v) :: addCount rest barcode reads

namespace SimpleScaffoldVertexEntryExtractor

/-- The first loop of `ExtractEntryInner(shared_ptr<PathVertex>)`, from the edge
at the head of the list on, with the current value of `current_prefix` and of
`barcode_to_count`. -/
def pathLoop (x : SimpleScaffoldVertexEntryExtractor) :
    List EdgeId → Nat → List (BarcodeId × Nat) → List (BarcodeId × Nat)
  | [], _, barcode_to_count => barcode_to_count
  | current_edge :: rest, current_prefix_len, barcode_to_count =>
    if current_prefix_len ≤ x.tail_threshold_ then
      if x.g_.length current_edge < x.length_threshold_ then
        pathLoop x rest ((current_prefix_len + x.g_.length current_edge) % SIZE_MOD)
          barcode_to_count
      else
        pathLoop x rest ((current_prefix_len + x.g_.length current_edge) % SIZE_MOD)
          ((x.barcode_extractor_.GetBarcodesAndCountsFromHead current_edge x.count_threshold_
              (x.tail_threshold_ - current_prefix_len)).foldl
            (fun acc barcode_and_reads => addCount acc barcode_and_reads.1 barcode_and_reads.2)
            barcode_to_count)
    else barcode_to_count

/-- Method `ExtractEntryInner(shared_ptr<PathVertex>)`. -/
def ExtractEntryInnerPath (x : SimpleScaffoldVertexEntryExtractor) (path : List EdgeId) :
    SimpleVertexEntry :=
  (pathLoop x path 0 []).foldl
    (fun result barcode_and_count =>
      if 5 ≤ barcode_and_count.2 then result.insert barcode_and_count.1 () else result)
    StdMap.empty

/-- Method `ExtractEntryInner(shared_ptr<EdgeIdVertex>)`. -/
def ExtractEntryInnerEdge (x : SimpleScaffoldVertexEntryExtractor) (edge : EdgeId) :
    SimpleVertexEntry :=
  (x.barcode_extractor_.GetBarcodesFromHead edge x.count_threshold_ x.tail_threshold_).foldl
    (fun result barcode => result.insert barcode ()) StdMap.empty

/-- Method `ExtractEntry`. -/
def ExtractEntry (x : SimpleScaffoldVertexEntryExtractor) (vertex : ScaffoldVertex) :
    SimpleVertexEntry :=
  match vertex with
  | ScaffoldVertex.EdgeIdVertex edge => x.ExtractEntryInnerEdge edge
  | ScaffoldVertex.PathVertex path => x.ExtractEntryInnerPath path

end SimpleScaffoldVertexEntryExtractor

/-- Membership of a barcode in a vertex entry. -/
def SimpleVertexEntry.Contains (entry : SimpleVertexEntry) (b : BarcodeId) : Prop :=
  (entry.find b).isSome = true

/-- The read count of barcode `b` in a query result. -/
def countOf (b : BarcodeId) (l : List (BarcodeId × Nat)) : Nat :=
  ((l.filter (fun it => decide (it.1 = b))).map Prod.snd).sum

/-- The mathematical sum `len(e0) + ... + len(e(i-1))` of the lengths of the
first `i` edges of a path. -/
def pathPrefixLen (g : Graph) (path : List EdgeId) (i : Nat) : Nat :=
  ((path.take i).map g.length).sum

/-- The summed read count of the claim: the sum over the indices `i` of the path
with `base + prefix(i) <= tail_threshold` and `len(ei) >= length_threshold` of the
count of `b` in the query for `ei` with tail `tail_threshold - (base + prefix(i))`.
The claim has `base = 0`. -/
def summedReadCountFrom (x : SimpleScaffoldVertexEntryExtractor) (base : Nat)
    (path : List EdgeId) (b : BarcodeId) : Nat :=
  ((List.range path.length).map
    (fun i =>
      if base + pathPrefixLen x.g_ path i ≤ x.tail_threshold_
          ∧ x.length_threshold_ ≤ x.g_.length (path.getD i 0) then
        countOf b
          (x.barcode_extractor_.GetBarcodesAndCountsFromHead (path.getD i 0) x.count_threshold_
            (x.tail_threshold_ - (base + pathPrefixLen x.g_ path i)))
      else 0)).sum

/-- The summed read count of barcode `b` over a path, as the claim defines it. -/
def summedReadCount (x : SimpleScaffoldVertexEntryExtractor) (path : List EdgeId)
    (b : BarcodeId) : Nat :=
  summedReadCountFrom x 0 path b

/-- The extractor of the path scenario: edges 0, 1, 2 of lengths 200, 50, 300;
barcode 7 has 3 reads in the query for edge 0 with tail 400 and 4 reads in the
query for edge 2 with tail 150; thresholds: tail 400, count 1, length 100. -/
def exampleExtractor : SimpleScaffoldVertexEntryExtractor :=
  { g_ := ⟨fun e => e, fun e => if e = 0 then 200 else if e = 1 then 50 else 300⟩
    barcode_extractor_ :=
      { GetBarcodesFromHead := fun _ _ _ => []
        GetBarcodesAndCountsFromHead := fun e _ t =>
          if e = 0 ∧ t = 400 then [(7, 3)] else if e = 2 ∧ t = 150 then [(7, 4)] else [] }
    tail_threshold_ := 400
    count_threshold_ := 1
    length_threshold_ := 100 }

/-- An extractor over two edges of length 100 on each of which barcode 7 has
`2^63` reads; thresholds: tail 1000, count 1, length 0. -/
def wrappingExtractor : SimpleScaffoldVertexEntryExtractor :=
  { g_ := ⟨fun e => e, fun _ => 100⟩
    barcode_extractor_ :=
      { GetBarcodesFromHead := fun _ _ _ => []
        GetBarcodesAndCountsFromHead := fun _ _ _ => [(7, 2 ^ 63)] }
    tail_threshold_ := 1000
    count_threshold_ := 1
    length_threshold_ := 0 }

/-- An extractor over three edges of length `2^63`, where barcode 7 has 5 reads
on edge 2 only; thresholds: tail `2^64 - 1`, count 1, length 0. -/
def longPathExtractor : SimpleScaffoldVertexEntryExtractor :=
  { g_ := ⟨fun e => e, fun _ => 2 ^ 63⟩
    barcode_extractor_ :=
      { GetBarcodesFromHead := fun _ _ _ => []
        GetBarcodesAndCountsFromHead := fun e _ _ => if e = 2 then [(7, 5)] else [] }
    tail_threshold_ := 2 ^ 64 - 1
    count_threshold_ := 1
    length_threshold_ := 0 }

/-- The value `barcode_to_count` holds for a barcode, 0 for an absent one. -/
def countValue (m : List (BarcodeId × Nat)) (b : BarcodeId) : Nat :=
  (mapFind m b).getD 0

theorem mapFind_addCount (m : List (BarcodeId × Nat)) (b : BarcodeId) (c : Nat)
    (k : BarcodeId) :
    mapFind (addCount m b c) k
      = if k = b then some ((countValue m b + c) % SIZE_MOD) else mapFind m k := by
  induction m with
  | nil =>
    by_cases hk : k = b
    · subst hk; simp [addCount, mapFind, countValue]
    · have hk2 : ¬ b = k := fun h => hk h.symm
      simp [addCount, mapFind, hk, hk2]
  | cons hd tl ih =>
    obtain ⟨k0, v⟩ := hd
    by_cases h0 : k0 = b
    · subst h0
      by_cases hk : k = k0
      · subst hk; simp [addCount, mapFind, countValue]
      · have hk2 : ¬ k0 = k := fun h => hk h.symm
        simp [addCount, mapFind, hk, hk2]
    · simp only [addCount, if_neg h0, mapFind]
      by_cases hk : k0 = k
      · subst hk
        simp [h0]
      · simp only [if_neg hk, ih, countValue, mapFind, if_neg h0]

theorem countValue_addCount (m : List (BarcodeId × Nat)) (b : BarcodeId) (c : Nat)
    (k : BarcodeId) :
    countValue (addCount m b c) k
      = if k = b then (countValue m b + c) % SIZE_MOD else countValue m k := by
  unfold countValue
  rw [mapFind_addCount]
  split_ifs <;> rfl

theorem addCount_keys (m : List (BarcodeId × Nat)) (b : BarcodeId) (c : Nat) :
    (addCount m b c).map Prod.fst
      = if b ∈ m.map Prod.fst then m.map Prod.fst else m.map Prod.fst ++ [b] := by
  induction m with
  | nil => simp [addCount]
  | cons hd tl ih =>
    obtain ⟨k0, v⟩ := hd
    by_cases h0 : k0 = b
    · subst h0
      simp [addCount]
    · have h1 : ¬ b = k0 := fun h => h0 h.symm
      simp only [addCount, if_neg h0, List.map_cons, ih, List.mem_cons, h1, false_or]
      split_ifs <;> simp

theorem addCount_nodup (m : List (BarcodeId × Nat)) (b : BarcodeId) (c : Nat)
    (h : (m.map Prod.fst).Nodup) : ((addCount m b c).map Prod.fst).Nodup := by
  rw [addCount_keys]
  split_ifs with hb
  · exact h
  · rw [List.nodup_append]
    refine ⟨h, by simp, ?_⟩
    intro a ha hab
    simp only [List.mem_singleton] at hab
    subst hab
    exact hb ha

theorem addCount_lt (m : List (BarcodeId × Nat)) (b : BarcodeId) (c : Nat)
    (h : ∀ it ∈ m, it.2 < SIZE_MOD) : ∀ it ∈ addCount m b c, it.2 < SIZE_MOD := by
  have hpos : 0 < SIZE_MOD := by decide
  induction m with
  | nil =>
    intro it hit
    simp only [addCount, List.mem_singleton] at hit
    rw [hit]
    exact Nat.mod_lt _ hpos
  | cons hd tl ih =>
    obtain ⟨k0, v⟩ := hd
    intro it hit
    simp only [addCount] at hit
    split_ifs at hit with h0
    · rcases List.mem_cons.1 hit with h1 | h1
      · rw [h1]; exact Nat.mod_lt _ hpos
      · exact h it (List.mem_cons_of_mem _ h1)
    · rcases List.mem_cons.1 hit with h1 | h1
      · rw [h1]; exact h (k0, v) (List.mem_cons_self _ _)
      · exact ih (fun x hx => h x (List.mem_cons_of_mem _ hx)) it h1

/-- The state of `barcode_to_count`: distinct barcodes, values below `2^64`. -/
def CountsOk (m : List (BarcodeId × Nat)) : Prop :=
  (m.map Prod.fst).Nodup ∧ ∀ it ∈ m, it.2 < SIZE_MOD

theorem addCountLoop_ok (q m : List (BarcodeId × Nat)) (h : CountsOk m) :
    CountsOk (q.foldl (fun acc it => addCount acc it.1 it.2) m) := by
  induction q generalizing m with
  | nil => exact h
  | cons hd tl ih =>
    simp only [List.foldl_cons]
    exact ih _ ⟨addCount_nodup m hd.1 hd.2 h.1, addCount_lt m hd.1 hd.2 h.2⟩

theorem addCountLoop_value (q m : List (BarcodeId × Nat)) (b : BarcodeId) :
    countValue (q.foldl (fun acc it => addCount acc it.1 it.2) m) b % SIZE_MOD
      = (countValue m b + countOf b q) % SIZE_MOD := by
  induction q generalizing m with
  | nil => simp [countOf]
  | cons hd tl ih =>
    obtain ⟨k, c⟩ := hd
    simp only [List.foldl_cons]
    rw [ih, countValue_addCount]
    by_cases hk : b = k
    · subst hk
      have hc : countOf b ((b, c) :: tl) = c + countOf b tl := by
        simp [countOf]
      rw [if_pos rfl, hc, Nat.mod_add_mod]
      congr 1
      omega
    · have hk2 : ¬ k = b := fun h => hk h.symm
      have hc : countOf b ((k, c) :: tl) = countOf b tl := by
        simp [countOf, hk2]
      rw [if_neg hk, hc]

theorem mapFind_mapInsert_isSome {V : Type} (l : List (Nat × V)) (key : Nat) (v : V)
    (k : Nat) :
    (mapFind (mapInsert l key v) k).isSome = true
      ↔ k = key ∨ (mapFind l k).isSome = true := by
  induction l with
  | nil =>
    by_cases hk : key = k
    · subst hk; simp [mapInsert, mapFind]
    · have hk2 : ¬ k = key := fun h => hk h.symm
      simp [mapInsert, mapFind, hk, hk2]
  | cons hd tl ih =>
    obtain ⟨k0, w⟩ := hd
    by_cases h1 : key < k0
    · simp only [mapInsert, if_pos h1]
      by_cases hk : key = k
      · subst hk; simp [mapFind]
      · have hk2 : ¬ k = key := fun h => hk h.symm
        simp only [mapFind, if_neg hk, hk2, false_or]
    · by_cases h2 : key = k0
      · subst h2
        simp only [mapInsert, if_neg h1, if_true]
        by_cases hk : key = k
        · subst hk; simp [mapFind]
        · have hk2 : ¬ k = key := fun h => hk h.symm
          simp only [hk2, false_or]
      · simp only [mapInsert, if_neg h1, if_neg h2, mapFind]
        by_cases hk : k0 = k
        · subst hk; simp
        · simp only [if_neg hk, ih]

theorem insertLoop_contains (counts : List (BarcodeId × Nat)) (r : StdMap Unit)
    (b : BarcodeId) :
    ((counts.foldl
        (fun result it => if 5 ≤ it.2 then result.insert it.1 () else result) r).find b).isSome
        = true
      ↔ (r.find b).isSome = true ∨ ∃ it ∈ counts, it.1 = b ∧ 5 ≤ it.2 := by
  induction counts generalizing r with
  | nil => simp
  | cons hd tl ih =>
    obtain ⟨k, v⟩ := hd
    simp only [List.foldl_cons]
    rw [ih]
    by_cases hv : 5 ≤ v
    · simp only [if_pos hv, StdMap.find, StdMap.insert, mapFind_mapInsert_isSome,
        List.mem_cons, exists_eq_or_imp]
      constructor
      · intro h
        rcases h with (h | h) | h
        · right; left; exact ⟨h.symm, hv⟩
        · left; exact h
        · right; right; exact h
      · intro h
        rcases h with h | h | h
        · left; right; exact h
        · left; left; exact h.1.symm
        · right; exact h
    · simp only [if_neg hv, List.mem_cons, exists_eq_or_imp]
      constructor
      · intro h
        rcases h with h | h
        · left; exact h
        · right; right; exact h
      · intro h
        rcases h with h | h | h
        · left; exact h
        · exact absurd h.2 hv
        · right; exact h

theorem mapFind_of_mem_of_nodup {V : Type} (l : List (Nat × V)) (k : Nat) (v : V)
    (hd : (l.map Prod.fst).Nodup) (hm : (k, v) ∈ l) : mapFind l k = some v := by
  induction l with
  | nil => cases hm
  | cons hd0 tl ih =>
    obtain ⟨k0, w⟩ := hd0
    simp only [List.map_cons, List.nodup_cons] at hd
    rcases List.mem_cons.1 hm with h | h
    · cases h
      simp [mapFind]
    · have hne : ¬ k0 = k := by
        intro heq
        subst heq
        exact hd.1 (List.mem_map.2 ⟨(k0, v), h, rfl⟩)
      simp only [mapFind, if_neg hne]
      exact ih hd.2 h

theorem exists_count_iff (counts : List (BarcodeId × Nat)) (b : BarcodeId)
    (hd : (counts.map Prod.fst).Nodup) :
    (∃ it ∈ counts, it.1 = b ∧ 5 ≤ it.2) ↔ 5 ≤ countValue counts b := by
  unfold countValue
  constructor
  · intro h
    obtain ⟨⟨k, v⟩, hm, hk, hv⟩ := h
    simp only at hk hv
    subst hk
    rw [mapFind_of_mem_of_nodup counts k v hd hm]
    exact hv
  · intro h
    cases hf : mapFind counts b with
    | none => simp [hf] at h
    | some v =>
      simp only [hf, Option.getD_some] at h
      exact ⟨(b, v), mapFind_eq_some_mem counts b v hf, rfl, h⟩

theorem countValue_lt (counts : List (BarcodeId × Nat)) (b : BarcodeId)
    (h : ∀ it ∈ counts, it.2 < SIZE_MOD) : countValue counts b < SIZE_MOD := by
  unfold countValue
  cases hf : mapFind counts b with
  | none => simp only [Option.getD_none]; decide
  | some v => exact h (b, v) (mapFind_eq_some_mem counts b v hf)

theorem pathPrefixLen_cons (g : Graph) (e : EdgeId) (rest : List EdgeId) (i : Nat) :
    pathPrefixLen g (e :: rest) (i + 1) = g.length e + pathPrefixLen g rest i := by
  simp [pathPrefixLen]

theorem summedReadCountFrom_cons (x : SimpleScaffoldVertexEntryExtractor) (base : Nat)
    (e : EdgeId) (rest : List EdgeId) (b : BarcodeId) :
    summedReadCountFrom x base (e :: rest) b
      = (if base ≤ x.tail_threshold_ ∧ x.length_threshold_ ≤ x.g_.length e then
          countOf b
            (x.barcode_extractor_.GetBarcodesAndCountsFromHead e x.count_threshold_
              (x.tail_threshold_ - base))
        else 0)
        + summedReadCountFrom x (base + x.g_.length e) rest b := by
  unfold summedReadCountFrom
  rw [List.length_cons, List.range_succ_eq_map, List.map_cons, List.sum_cons, List.map_map]
  refine congrArg₂ (fun a c => a + c) ?_ ?_
  · simp [pathPrefixLen]
  · refine congrArg List.sum ?_
    apply List.map_congr_left
    intro i _
    simp only [Function.comp, Nat.succ_eq_add_one, pathPrefixLen_cons, List.getD_cons_succ,
      Nat.add_assoc]

theorem summedReadCountFrom_beyond (x : SimpleScaffoldVertexEntryExtractor) (base : Nat)
    (path : List EdgeId) (b : BarcodeId) (h : x.tail_threshold_ < base) :
    summedReadCountFrom x base path b = 0 := by
  unfold summedReadCountFrom
  apply List.sum_eq_zero
  intro v hv
  obtain ⟨i, _, hi⟩ := List.mem_map.1 hv
  rw [← hi, if_neg]
  omega

theorem pathLoop_ok (x : SimpleScaffoldVertexEntryExtractor) (path : List EdgeId)
    (base : Nat) (m : List (BarcodeId × Nat)) (h : CountsOk m) :
    CountsOk (x.pathLoop path base m) := by
  induction path generalizing base m with
  | nil => exact h
  | cons e rest ih =>
    simp only [SimpleScaffoldVertexEntryExtractor.pathLoop]
    split_ifs
    · exact ih _ _ h
    · exact ih _ _ (addCountLoop_ok _ _ h)
    · exact h

theorem pathLoop_value (x : SimpleScaffoldVertexEntryExtractor) (path : List EdgeId)
    (base : Nat) (m : List (BarcodeId × Nat)) (b : BarcodeId)
    (hno : base + (path.map x.g_.length).sum < SIZE_MOD) :
    countValue (x.pathLoop path base m) b % SIZE_MOD
      = (countValue m b + summedReadCountFrom x base path b) % SIZE_MOD := by
  induction path generalizing base m with
  | nil => simp [SimpleScaffoldVertexEntryExtractor.pathLoop, summedReadCountFrom]
  | cons e rest ih =>
    simp only [List.map_cons, List.sum_cons] at hno
    have hmod : (base + x.g_.length e) % SIZE_MOD = base + x.g_.length e :=
      Nat.mod_eq_of_lt (by omega)
    have hno2 : (base + x.g_.length e) + (rest.map x.g_.length).sum < SIZE_MOD := by omega
    rw [summedReadCountFrom_cons]
    simp only [SimpleScaffoldVertexEntryExtractor.pathLoop, hmod]
    by_cases h1 : base ≤ x.tail_threshold_
    · by_cases h2 : x.g_.length e < x.length_threshold_
      · have h3 : ¬ (base ≤ x.tail_threshold_ ∧ x.length_threshold_ ≤ x.g_.length e) := by
          omega
        rw [if_pos h1, if_pos h2, if_neg h3, ih _ _ hno2]
        congr 1
        omega
      · have h3 : base ≤ x.tail_threshold_ ∧ x.length_threshold_ ≤ x.g_.length e := by
          omega
        rw [if_pos h1, if_neg h2, if_pos h3, ih _ _ hno2]
        rw [Nat.add_mod, addCountLoop_value, ← Nat.add_mod]
        congr 1
        omega
    · have h3 : ¬ (base ≤ x.tail_threshold_ ∧ x.length_threshold_ ≤ x.g_.length e) := by
        omega
      rw [if_neg h1, if_neg h3, summedReadCountFrom_beyond x _ rest b (by omega)]
      simp

/-- C20 (as the code has it): for a path vertex whose edge lengths sum to less
than `2^64`, `ExtractEntry` returns exactly the set of barcodes whose summed read
count, taken modulo `2^64`, is at least 5, where the sum runs over the indices
`i` with `prefix(i) <= tail_threshold` and `len(ei) >= length_threshold` and the
term for `i` is the count of the barcode in
`GetBarcodesAndCountsFromHead(ei, count_threshold, tail_threshold - prefix(i))`;
when the summed read count itself is below `2^64`, these are the barcodes whose
summed read count is at least 5. -/
theorem extract_path_entry_spec (x : SimpleScaffoldVertexEntryExtractor)
    (path : List EdgeId) (b : BarcodeId)
    (hno : (path.map x.g_.length).sum < SIZE_MOD) :
    ((x.ExtractEntry (ScaffoldVertex.PathVertex path)).Contains b
        ↔ 5 ≤ summedReadCount x path b % SIZE_MOD)
    ∧ (summedReadCount x path b < SIZE_MOD →
        ((x.ExtractEntry (ScaffoldVertex.PathVertex path)).Contains b
          ↔ 5 ≤ summedReadCount x path b)) := by
  have hok : CountsOk (x.pathLoop path 0 []) :=
    pathLoop_ok x path 0 [] ⟨List.nodup_nil, fun it hit => by cases hit⟩
  have hval := pathLoop_value x path 0 [] b (by omega)
  have hlt := countValue_lt (x.pathLoop path 0 []) b hok.2
  rw [Nat.mod_eq_of_lt hlt] at hval
  have h0 : countValue [] b = 0 := rfl
  rw [h0, Nat.zero_add] at hval
  have hmain : (x.ExtractEntry (ScaffoldVertex.PathVertex path)).Contains b
      ↔ 5 ≤ summedReadCount x path b % SIZE_MOD := by
    unfold SimpleVertexEntry.Contains SimpleScaffoldVertexEntryExtractor.ExtractEntry
      SimpleScaffoldVertexEntryExtractor.ExtractEntryInnerPath summedReadCount
    simp only
    rw [insertLoop_contains, exists_count_iff _ b hok.1, hval]
    simp [StdMap.find, StdMap.empty, mapFind]
  refine ⟨hmain, ?_⟩
  intro hsmall
  rw [hmain, Nat.mod_eq_of_lt hsmall]

/-- Witness of C20 (path scenario): on the path of the edges 0, 1, 2 of lengths
200, 50, 300 with tail threshold 400 and length threshold 100, barcode 7 has 3
reads at edge 0 (tail 400) and 4 reads at edge 2 (tail 150); edge 1 is skipped;
the summed read count is 7 and barcode 7 is in the vertex entry. -/
theorem extract_path_entry_spec_witness :
    ([0, 1, 2].map exampleExtractor.g_.length).sum < SIZE_MOD
    ∧ summedReadCount exampleExtractor [0, 1, 2] 7 = 7
    ∧ (exampleExtractor.ExtractEntry (ScaffoldVertex.PathVertex [0, 1, 2])).Contains 7 :=
  ⟨by decide, by decide,
   (extract_path_entry_spec exampleExtractor [0, 1, 2] 7 (by decide)).1.2 (by decide)⟩

/-- C20 fails as stated.  On a path of two edges on each of which barcode 7 has
`2^63` reads, the summed read count is `2^64`, which is at least 5, but the sum
kept in `barcode_to_count` wraps to 0 and barcode 7 is not in the vertex entry.
On a path of three edges of length `2^63` with tail threshold `2^64 - 1`,
`current_prefix` wraps to 0 before the third edge, which is queried although
its prefix `2^64` exceeds the tail threshold: barcode 7, with 5 reads there, is
in the vertex entry although its summed read count is 0. -/
theorem extract_path_entry_count_wraps :
    summedReadCount wrappingExtractor [0, 1] 7 = 2 ^ 64
    ∧ 5 ≤ summedReadCount wrappingExtractor [0, 1] 7
    ∧ wrappingExtractor.pathLoop [0, 1] 0 [] = [(7, 0)]
    ∧ ¬ (wrappingExtractor.ExtractEntry (ScaffoldVertex.PathVertex [0, 1])).Contains 7
    ∧ summedReadCount longPathExtractor [0, 1, 2] 7 = 0
    ∧ longPathExtractor.pathLoop [0, 1, 2] 0 [] = [(7, 5)]
    ∧ (longPathExtractor.ExtractEntry (ScaffoldVertex.PathVertex [0, 1, 2])).Contains 7 := by
  refine ⟨by decide, by decide, by decide, ?_, by decide, by decide, ?_⟩
  · unfold SimpleVertexEntry.Contains
    decide
  · unfold SimpleVertexEntry.Contains
    decide

/-! ## Insertion of a present barcode, and of an absent one -/

/-- The entry after `InsertBarcode` for every triple of the list, first triple
first. -/
def insertAll (e : FrameEdgeEntry) (ops : List (BarcodeId × Nat × Range)) : FrameEdgeEntry :=
  ops.foldl (fun acc op => acc.InsertBarcode op.1 op.2.1 op.2.2) e

/-- C26: for a frame entry with `frame_size > 0` and a barcode `b` present in
it, `InsertBarcode(b, count, range)` replaces the info of `b` by the result of
`Update(count, range.start_pos / frame_size, range.end_pos / frame_size)` on its
previous info, and leaves the keys and the info of every other barcode
unchanged. -/
theorem frame_insertBarcode_present (e : FrameEdgeEntry) (b : BarcodeId) (count : Nat)
    (range : Range) (info : FrameBarcodeInfo) (_hfs : 0 < e.frame_size_)
    (hp : e.barcode_distribution_.find b = some info) :
    (e.InsertBarcode b count range).barcode_distribution_.find b
        = some (info.Update count (range.start_pos / e.frame_size_)
            (range.end_pos / e.frame_size_))
    ∧ (e.InsertBarcode b count range).barcode_distribution_.keys
        = e.barcode_distribution_.keys
    ∧ (∀ k, k ≠ b →
        (e.InsertBarcode b count range).barcode_distribution_.find k
          = e.barcode_distribution_.find k) := by
  refine ⟨?_, ?_, ?_⟩
  · rw [frame_insertBarcode_find, if_pos rfl, hp]
    rfl
  · unfold FrameEdgeEntry.InsertBarcode
    rw [hp]
    exact mapAssign_keys _ _ _
  · intro k hk
    rw [frame_insertBarcode_find, if_neg hk]

/-- Witness of C26: barcode 1 of `exampleFrameEntry` (count 100, frames 0 and 1)
after `InsertBarcode(1, 2, [30,45))`. -/
theorem frame_insertBarcode_present_witness :
    (exampleFrameEntry.InsertBarcode 1 2 ⟨30, 45⟩).barcode_distribution_.find 1
        = some ⟨102, [true, true, false, true, true, false, false, false, false, false, false],
            0, 4⟩
    ∧ (exampleFrameEntry.InsertBarcode 1 2 ⟨30, 45⟩).barcode_distribution_.keys = [1, 2]
    ∧ (exampleFrameEntry.InsertBarcode 1 2 ⟨30, 45⟩).barcode_distribution_.find 1
        = some ((FrameBarcodeInfo.mk 100
            [true, true, false, false, false, false, false, false, false, false, false]
            0 1).Update 2 (30 / exampleFrameEntry.frame_size_)
              (45 / exampleFrameEntry.frame_size_)) :=
  ⟨by decide, by decide,
   (frame_insertBarcode_present exampleFrameEntry 1 2 ⟨30, 45⟩
      ⟨100, [true, true, false, false, false, false, false, false, false, false, false], 0, 1⟩
      (by decide) (by decide)).1⟩

/-- C27 (as the code has it): for a simple entry and a barcode `b` absent from
it, `InsertBarcode(b, count, range)` leaves `b` mapped to the info constructed
as `SimpleBarcodeInfo(count, range)`, with that count and that range, and
leaves every other barcode unchanged. -/
theorem simple_insertBarcode_absent (e : SimpleEdgeEntry) (b : BarcodeId) (count : Nat)
    (range : Range) (ha : e.barcode_distribution_.find b = none) :
    (SimpleEdgeEntry.InsertBarcode e b count range).barcode_distribution_.find b
        = some ⟨count, range⟩
    ∧ (∀ k, k ≠ b →
        (SimpleEdgeEntry.InsertBarcode e b count range).barcode_distribution_.find k
          = e.barcode_distribution_.find k) := by
  constructor
  · rw [simple_insertBarcode_find, if_pos rfl, ha]
  · intro k hk
    rw [simple_insertBarcode_find, if_neg hk]

/-- Witness of C27: barcode 6, absent from `exampleSimpleEntry`, inserted with
count 3 and range `[5,25)`. -/
theorem simple_insertBarcode_absent_witness :
    exampleSimpleEntry.barcode_distribution_.find 6 = none
    ∧ (SimpleEdgeEntry.InsertBarcode exampleSimpleEntry 6 3 ⟨5, 25⟩).barcode_distribution_.find 6
        = some ⟨3, ⟨5, 25⟩⟩ :=
  ⟨by decide, (simple_insertBarcode_absent exampleSimpleEntry 6 3 ⟨5, 25⟩ (by decide)).1⟩

/-- C27 fails as stated: on the empty simple entry, `InsertBarcode(4, 3, [5,25))`
maps barcode 4 to count 3 and range `[5,25)`, while `Update(3, [5,25))` on a
freshly constructed info gives count 3 and range `[0,25)`. -/
theorem simple_first_insert_not_update :
    (SimpleEdgeEntry.InsertBarcode (EdgeEntry.new 0) 4 3 ⟨5, 25⟩).barcode_distribution_.find 4
        = some ⟨3, ⟨5, 25⟩⟩
    ∧ SimpleBarcodeInfo.new.Update 3 ⟨5, 25⟩ = ⟨3, ⟨0, 25⟩⟩
    ∧ (SimpleEdgeEntry.InsertBarcode (EdgeEntry.new 0) 4 3 ⟨5, 25⟩).barcode_distribution_.find 4
        ≠ some (SimpleBarcodeInfo.new.Update 3 ⟨5, 25⟩) := by
  refine ⟨by decide, by decide, by decide⟩

/-- Whatever range with `start_pos <= end_pos` the default constructor of `Range`
gives, `Update(count, range)` on a fresh info differs from
`SimpleBarcodeInfo(count, range)` for the range that starts behind the end of
the default range. -/
theorem simple_first_insert_differs_any_default (d : Range) (count : Nat)
    (hd : d.start_pos ≤ d.end_pos) :
    (SimpleBarcodeInfo.mk 0 d).Update count ⟨d.end_pos + 1, d.end_pos + 2⟩
      ≠ ⟨count, ⟨d.end_pos + 1, d.end_pos + 2⟩⟩ := by
  intro h
  have h2 := congrArg (fun i => i.range_.start_pos) h
  simp only [SimpleBarcodeInfo.Update] at h2
  omega

/-! ## Frames of an insertion lie inside the bitset -/

theorem insertAll_fields (e : FrameEdgeEntry) (ops : List (BarcodeId × Nat × Range)) :
    (insertAll e ops).frame_size_ = e.frame_size_
    ∧ (insertAll e ops).number_of_frames_ = e.number_of_frames_ := by
  induction ops generalizing e with
  | nil => exact ⟨rfl, rfl⟩
  | cons op rest ih =>
    have h := frame_insertBarcode_fields e op.1 op.2.1 op.2.2
    have h2 := ih (e.InsertBarcode op.1 op.2.1 op.2.2)
    simp only [insertAll, List.foldl_cons] at h2 ⊢
    exact ⟨h2.1.trans h.2.2.1, h2.2.trans h.2.2.2⟩

theorem insertAll_sizes (e : FrameEdgeEntry) (ops : List (BarcodeId × Nat × Range))
    (h : ∀ b info, e.barcode_distribution_.find b = some info →
      info.GetSize = e.number_of_frames_) :
    ∀ b info, (insertAll e ops).barcode_distribution_.find b = some info →
      info.GetSize = e.number_of_frames_ := by
  induction ops generalizing e with
  | nil => exact h
  | cons op rest ih =>
    have hf := frame_insertBarcode_fields e op.1 op.2.1 op.2.2
    have hstep : ∀ b info,
        (e.InsertBarcode op.1 op.2.1 op.2.2).barcode_distribution_.find b = some info →
        info.GetSize = (e.InsertBarcode op.1 op.2.1 op.2.2).number_of_frames_ := by
      intro b info hb
      rw [hf.2.2.2]
      rw [frame_insertBarcode_find] at hb
      by_cases hk : b = op.1
      · rw [if_pos hk] at hb
        cases hfind : e.barcode_distribution_.find op.1 with
        | none =>
          rw [hfind] at hb
          simp only [Option.some.injEq] at hb
          rw [← hb]
          simp [FrameBarcodeInfo.GetSize, FrameBarcodeInfo.new]
        | some old =>
          rw [hfind] at hb
          simp only [Option.some.injEq] at hb
          rw [← hb]
          have hold := h op.1 old hfind
          simp only [FrameBarcodeInfo.GetSize, FrameBarcodeInfo.Update, setFrames_length]
          exact hold
      · rw [if_neg hk] at hb
        exact h b info hb
    have h2 := ih (e.InsertBarcode op.1 op.2.1 op.2.2) hstep
    intro b info hb
    rw [← hf.2.2.2]
    exact h2 b info hb

/-- C30 (as amended): for a frame entry constructed with edge length `L` and
frame size `f > 0` such that `floor(L / f) + 1 < 2^64` (for a `size_t` length:
every case but `L = 2^64 - 1` with `f = 1`), after any insertions, and for a range
with `start_pos <= end_pos <= L`: the frames that `InsertBarcode` computes satisfy
`left_frame <= right_frame < number_of_frames`, and every info of the entry has a
bitset of `number_of_frames` bits, so that `Update` sets bits inside the bitset
only. -/
theorem frame_insert_frames_in_range (edge : EdgeId) (L f : Nat)
    (ops : List (BarcodeId × Nat × Range)) (range : Range)
    (_hf : 0 < f) (hfit : L / f + 1 < SIZE_MOD)
    (h1 : range.start_pos ≤ range.end_pos) (h2 : range.end_pos ≤ L) :
    (insertAll (FrameEdgeEntry.new edge L f) ops).GetFrameFromPos range.start_pos
        ≤ (insertAll (FrameEdgeEntry.new edge L f) ops).GetFrameFromPos range.end_pos
    ∧ (insertAll (FrameEdgeEntry.new edge L f) ops).GetFrameFromPos range.end_pos
        < (insertAll (FrameEdgeEntry.new edge L f) ops).number_of_frames_
    ∧ (∀ b info,
        (insertAll (FrameEdgeEntry.new edge L f) ops).barcode_distribution_.find b = some info →
        (insertAll (FrameEdgeEntry.new edge L f) ops).GetFrameFromPos range.end_pos
          < info.GetSize) := by
  have hfields := insertAll_fields (FrameEdgeEntry.new edge L f) ops
  have hsizes := insertAll_sizes (FrameEdgeEntry.new edge L f) ops
    (by intro b info hb; simp [FrameEdgeEntry.new, StdMap.find, StdMap.empty, mapFind] at hb)
  have hfs : (FrameEdgeEntry.new edge L f).frame_size_ = f := rfl
  have hnf : (FrameEdgeEntry.new edge L f).number_of_frames_ = L / f + 1 := by
    have hdef : (FrameEdgeEntry.new edge L f).number_of_frames_
        = (L / f + 1) % SIZE_MOD := rfl
    rw [hdef, Nat.mod_eq_of_lt hfit]
  have hle : range.start_pos / f ≤ range.end_pos / f := Nat.div_le_div_right h1
  have hlt : range.end_pos / f < L / f + 1 := Nat.lt_succ_of_le (Nat.div_le_div_right h2)
  simp only [FrameEdgeEntry.GetFrameFromPos, hfields.1, hfields.2, hfs, hnf]
  refine ⟨hle, hlt, ?_⟩
  intro b info hb
  rw [hsizes b info hb, hnf]
  exact hlt

/-- Witness of C30 (as amended): the entry for an edge of length 100 with frame
size 10 after two insertions of barcode 0, and the range `[40,100)`: frames 4
and 10 of 11. -/
theorem frame_insert_frames_in_range_witness :
    (insertAll (FrameEdgeEntry.new 7 100 10) [(0, 3, ⟨5, 25⟩), (0, 2, ⟨40, 55⟩)]).GetFrameFromPos 40
        = 4
    ∧ (insertAll (FrameEdgeEntry.new 7 100 10) [(0, 3, ⟨5, 25⟩), (0, 2, ⟨40, 55⟩)]).GetFrameFromPos
        100 = 10
    ∧ (insertAll (FrameEdgeEntry.new 7 100 10) [(0, 3, ⟨5, 25⟩), (0, 2, ⟨40, 55⟩)]).GetFrameFromPos
        (Range.mk 40 100).end_pos
        < (insertAll (FrameEdgeEntry.new 7 100 10)
            [(0, 3, ⟨5, 25⟩), (0, 2, ⟨40, 55⟩)]).number_of_frames_ :=
  ⟨by decide, by decide,
   (frame_insert_frames_in_range 7 100 10 [(0, 3, ⟨5, 25⟩), (0, 2, ⟨40, 55⟩)] ⟨40, 100⟩
      (by decide) (by decide) (by decide) (by decide)).2.1⟩

/-- C30 fails as stated.  The entry constructed with edge length `2^64 - 1` and
frame size 1 has `number_of_frames = 0`, since `(2^64 - 1) / 1 + 1` wraps in
`size_t`.  For the range `[0,0]`, with `start_pos <= end_pos <= L`, the right
frame is 0, which is not below `number_of_frames`; the info that a first
`InsertBarcode` stores has a bitset of 0 bits, and the second `InsertBarcode`
calls `Update(count, 0, 0)` on it, whose `set(0)` lies outside that bitset. -/
theorem frame_insert_frame_out_of_range :
    (0 : Nat) < 1
    ∧ (Range.mk 0 0).start_pos ≤ (Range.mk 0 0).end_pos
    ∧ (Range.mk 0 0).end_pos ≤ 2 ^ 64 - 1
    ∧ (FrameEdgeEntry.new 7 (2 ^ 64 - 1) 1).number_of_frames_ = 0
    ∧ (FrameEdgeEntry.new 7 (2 ^ 64 - 1) 1).GetFrameFromPos (Range.mk 0 0).end_pos = 0
    ∧ ¬ ((FrameEdgeEntry.new 7 (2 ^ 64 - 1) 1).GetFrameFromPos (Range.mk 0 0).end_pos
          < (FrameEdgeEntry.new 7 (2 ^ 64 - 1) 1).number_of_frames_)
    ∧ ((FrameEdgeEntry.new 7 (2 ^ 64 - 1) 1).InsertBarcode 0 1 ⟨0, 0⟩).barcode_distribution_.find 0
        = some (FrameBarcodeInfo.new 0)
    ∧ (FrameBarcodeInfo.new 0).GetSize = 0
    ∧ ¬ ((insertAll (FrameEdgeEntry.new 7 (2 ^ 64 - 1) 1) [(0, 1, ⟨0, 0⟩)]).GetFrameFromPos
          (Range.mk 0 0).end_pos
          < (FrameBarcodeInfo.new 0).GetSize) := by
  refine ⟨by decide, by decide, by decide, by decide, by decide, by decide, by decide,
    by decide, by decide⟩

/-! ## Extreme frames of a frame info read from text -/

theorem indexOf_true_spec (bits : List Bool) (h : true ∈ bits) :
    bits.getD (bits.indexOf true) false = true
    ∧ ∀ i, bits.getD i false = true → bits.indexOf true ≤ i := by
  induction bits with
  | nil => cases h
  | cons b tl ih =>
    cases b with
    | true => simp
    | false =>
      have htl : true ∈ tl := by
        rcases List.mem_cons.1 h with h1 | h1
        · cases h1
        · exact h1
      obtain ⟨h1, h2⟩ := ih htl
      rw [List.indexOf_cons_ne _ (by decide)]
      refine ⟨by simpa using h1, ?_⟩
      intro i hi
      cases i with
      | zero => simp at hi
      | succ j =>
        have := h2 j (by simpa using hi)
        omega

theorem findRightmost_spec (bits : List Bool) (i : Nat) :
    findRightmost bits i ≤ i
    ∧ (findRightmost bits i ≠ 0 → bits.getD (findRightmost bits i) false = true)
    ∧ ∀ j, j ≤ i → bits.getD j false = true → j ≤ findRightmost bits i := by
  induction i with
  | zero =>
    refine ⟨Nat.le_refl _, fun h => absurd rfl h, ?_⟩
    intro j hj _
    simp only [findRightmost]; omega
  | succ i ih =>
    by_cases hb : bits.getD (i + 1) false = true
    · simp only [findRightmost, if_pos hb]
      exact ⟨Nat.le_refl _, fun _ => hb, fun j hj _ => hj⟩
    · simp only [findRightmost, if_neg hb]
      obtain ⟨h1, h2, h3⟩ := ih
      refine ⟨by omega, h2, ?_⟩
      intro j hj hjb
      by_cases hji : j = i + 1
      · rw [hji] at hjb; exact absurd hjb hb
      · exact h3 j (by omega) hjb

theorem takeWhile_append_head {p : Char → Bool} (ds rest : List Char)
    (hds : ∀ x ∈ ds, p x = true) (hrest : ∀ c, rest.head? = some c → p c = false) :
    (ds ++ rest).takeWhile p = ds ∧ (ds ++ rest).dropWhile p = rest := by
  cases rest with
  | nil =>
    simp only [List.append_nil]
    exact ⟨List.takeWhile_eq_self_iff.2 hds, List.dropWhile_eq_nil_iff.2 hds⟩
  | cons c tl => exact takeWhile_append_stop ds c tl hds (hrest c rfl)

/-- C28: when the extraction of the count leaves a good stream on which, after
whitespace, a textual bitset of at least one bit with at least one bit set
follows, `operator>>` for a frame info returns an info whose bitset is the one
of the text (first character highest bit), whose `leftmost` is the index of the
lowest set bit and whose `rightmost` is the index of the highest set bit; this
includes the bitset in which bit 0 is the only set bit. -/
theorem frame_extract_extremes (is : IStream) (fresh : FrameBarcodeInfo)
    (count : Option Nat) (ws chars rest : List Char)
    (hcount : is.extractUnsigned = (⟨ws ++ chars ++ rest, false, false⟩, count))
    (hws : ∀ w ∈ ws, isspace w = true)
    (hchars : ∀ c ∈ chars, c = '0' ∨ c = '1') (hone : '1' ∈ chars)
    (hrest : ∀ c, rest.head? = some c → c ≠ '0' ∧ c ≠ '1') :
    ∃ info, FrameBarcodeInfo.extract is fresh = some (⟨rest, false, rest.isEmpty⟩, info)
      ∧ info.is_on_frame_ = (chars.map (fun c => c == '1')).reverse
      ∧ info.GetFrame info.GetLeftMost = true
      ∧ info.GetFrame info.GetRightMost = true
      ∧ (∀ i, info.GetFrame i = true → info.GetLeftMost ≤ i ∧ i ≤ info.GetRightMost) := by
  have hp : ∀ c ∈ chars, (c == '0' || c == '1') = true := by
    intro c hc
    rcases hchars c hc with h | h <;> (rw [h]; decide)
  have hprest : ∀ c, rest.head? = some c → (c == '0' || c == '1') = false := by
    intro c hc
    have := hrest c hc
    simp [this.1, this.2]
  obtain ⟨d, ds, hds⟩ := List.exists_cons_of_ne_nil (List.ne_nil_of_mem hone)
  have hdsp : isspace d = false := by
    rcases hchars d (by rw [hds]; exact List.mem_cons_self _ _) with h | h <;> (rw [h]; decide)
  have hskip : (ws ++ chars ++ rest).dropWhile isspace = chars ++ rest := by
    rw [List.append_assoc]
    apply dropWhile_isspace_skip ws _ hws
    intro x hx
    rw [hds] at hx
    simp only [List.cons_append, List.head?_cons, Option.some.injEq] at hx
    rw [← hx]; exact hdsp
  have hbodyne : (chars ++ rest).isEmpty = false := by
    rw [hds]; rfl
  have hsentry : IStream.sentry ⟨ws ++ chars ++ rest, false, false⟩
      = (⟨chars ++ rest, false, false⟩, true) := by
    simp only [IStream.sentry, Bool.or_self, Bool.false_eq_true, if_false, hskip, hbodyne]
  have htw := takeWhile_append_head (p := fun c => c == '0' || c == '1') chars rest hp hprest
  have hce : chars.isEmpty = false := by
    rw [hds]; rfl
  have hbits : IStream.extractBitset ⟨ws ++ chars ++ rest, false, false⟩ fresh.is_on_frame_
      = (⟨rest, false, rest.isEmpty⟩, (chars.map (fun c => c == '1')).reverse) := by
    unfold IStream.extractBitset
    rw [hsentry]
    simp only [htw.1, htw.2, hce]
  have hmem : true ∈ (chars.map (fun c => c == '1')).reverse := by
    rw [List.mem_reverse, List.mem_map]
    exact ⟨'1', hone, by decide⟩
  have hne : ((chars.map (fun c => c == '1')).reverse).isEmpty = false := by
    cases h : (chars.map (fun c => c == '1')).reverse with
    | nil => rw [h] at hmem; cases hmem
    | cons _ _ => rfl
  have hfirst := indexOf_true_spec _ hmem
  have hright := findRightmost_spec ((chars.map (fun c => c == '1')).reverse)
    (((chars.map (fun c => c == '1')).reverse).length - 1)
  have hff : find_first ((chars.map (fun c => c == '1')).reverse)
      = ((chars.map (fun c => c == '1')).reverse).indexOf true := by
    unfold find_first
    rw [if_pos hmem]
  refine ⟨{ count_ := count.getD fresh.count_
            is_on_frame_ := (chars.map (fun c => c == '1')).reverse
            leftmost_index_ := find_first ((chars.map (fun c => c == '1')).reverse)
            rightmost_index_ := findRightmost ((chars.map (fun c => c == '1')).reverse)
              (((chars.map (fun c => c == '1')).reverse).length - 1) }, ?_, rfl, ?_, ?_, ?_⟩
  · unfold FrameBarcodeInfo.extract
    rw [hcount]
    simp only
    rw [hbits]
    simp only [hne, Bool.false_eq_true, if_false]
  · simp only [FrameBarcodeInfo.GetFrame, FrameBarcodeInfo.GetLeftMost, hff]
    exact hfirst.1
  · simp only [FrameBarcodeInfo.GetFrame, FrameBarcodeInfo.GetRightMost]
    by_cases h0 : findRightmost ((chars.map (fun c => c == '1')).reverse)
        (((chars.map (fun c => c == '1')).reverse).length - 1) = 0
    · have hidx := hfirst.1
      have hlt : ((chars.map (fun c => c == '1')).reverse).indexOf true
          < ((chars.map (fun c => c == '1')).reverse).length := List.indexOf_lt_length.2 hmem
      have hle := hright.2.2 _ (by omega) hidx
      rw [h0] at hle ⊢
      have hz : ((chars.map (fun c => c == '1')).reverse).indexOf true = 0 := by omega
      rw [hz] at hidx
      exact hidx
    · exact hright.2.1 h0
  · intro i hi
    simp only [FrameBarcodeInfo.GetFrame, FrameBarcodeInfo.GetLeftMost,
      FrameBarcodeInfo.GetRightMost, hff] at hi ⊢
    refine ⟨hfirst.2 i hi, ?_⟩
    apply hright.2.2 i _ hi
    have hlt : i < ((chars.map (fun c => c == '1')).reverse).length := by
      by_contra hcon
      rw [List.getD_eq_getElem?_getD, List.getElem?_eq_none (by omega)] at hi
      simp at hi
    omega

/-- Witness of C28: the text `3 0001`, in which bit 0 is the only set bit, gives
leftmost 0 and rightmost 0; the text `3 00110` gives leftmost 1 and rightmost 2. -/
theorem frame_extract_extremes_witness :
    FrameBarcodeInfo.extract (IStream.ofText "3 0001".toList) (FrameBarcodeInfo.new 0)
        = some (⟨[], false, true⟩, ⟨3, [true, false, false, false], 0, 0⟩)
    ∧ FrameBarcodeInfo.extract (IStream.ofText "3 00110\n".toList) (FrameBarcodeInfo.new 0)
        = some (⟨['\n'], false, false⟩, ⟨3, [false, true, true, false, false], 1, 2⟩)
    ∧ ∃ info, FrameBarcodeInfo.extract (IStream.ofText "3 0001".toList) (FrameBarcodeInfo.new 0)
          = some (⟨[], false, ([] : List Char).isEmpty⟩, info)
        ∧ info.is_on_frame_ = ("0001".toList.map (fun c => c == '1')).reverse
        ∧ info.GetFrame info.GetLeftMost = true
        ∧ info.GetFrame info.GetRightMost = true
        ∧ (∀ i, info.GetFrame i = true → info.GetLeftMost ≤ i ∧ i ≤ info.GetRightMost) :=
  ⟨by decide, by decide,
   frame_extract_extremes (IStream.ofText "3 0001".toList) (FrameBarcodeInfo.new 0) (some 3)
     [' '] "0001".toList [] (by decide) (by decide) (by decide) (by decide) (by simp)⟩

end barcode_index

/-! # Quality trimming of the homopolymer k-mer generator

Shallow embedding of `ValidHKMerGenerator::TrimBadQuality` of
`projects/ionhammer/valid_hkmer_generator.hpp`. -/

/-- The fields of the class `ValidHKMerGenerator` that `TrimBadQuality`,
`trimmed_left` and `trimmed_right` use.  The pointer `qual_` is `none` when null
and otherwise the quality string, each character as the `unsigned` value that
`GetQual` returns for it. -/
structure ValidHKMerGenerator where
  qual_ : Option (List Nat)
  pos_ : Nat
  beg_ : Nat
  end_ : Nat
  len_ : Nat
  bad_quality_threshold_ : Nat

namespace ValidHKMerGenerator

/-- Method `GetQual`. -/
def GetQual (x : ValidHKMerGenerator) (pos : Nat) : Nat :=
  if pos ≥ x.len_ then 1
  else
    match x.qual_ with
    | none => 0
    | some q => q.getD pos 0

/-- The first loop of `TrimBadQuality`, `for (; pos_ < len_; ++pos_)`, from the
value `pos` of `pos_` on; the result is the value of `pos_` after the loop.  The
first argument bounds the number of iterations. -/
def trimLeftLoop (x : ValidHKMerGenerator) : Nat → Nat → Nat
  | 0, pos => pos
  | fuel + 1, pos =>
    if pos < x.len_ then
      if x.GetQual pos ≥ x.bad_quality_threshold_ then pos
      else trimLeftLoop x fuel (pos + 1)
    else pos

/-- The second loop of `TrimBadQuality`, `for (; end_ > pos_; --end_)`, from the
value of `end_` given as last argument on; the result is the value of `end_`
after the loop. -/
def trimRightLoop (x : ValidHKMerGenerator) (pos : Nat) : Nat → Nat
  | 0 => 0
  | e + 1 =>
    if e + 1 > pos then
      if x.GetQual e ≥ x.bad_quality_threshold_ then e + 1
      else trimRightLoop x pos e
    else e + 1

/-- Method `TrimBadQuality`; the first loop runs at most `len_` times. -/
def TrimBadQuality (x : ValidHKMerGenerator) : ValidHKMerGenerator :=
  { x with
    pos_ := if x.qual_.isSome then trimLeftLoop x x.len_ 0 else 0
    beg_ := if x.qual_.isSome then trimLeftLoop x x.len_ 0 else 0
    end_ :=
      if x.qual_.isSome then
        trimRightLoop x (if x.qual_.isSome then trimLeftLoop x x.len_ 0 else 0) x.len_
      else x.len_ }

/-- Method `trimmed_left`. -/
def trimmed_left (x : ValidHKMerGenerator) : Nat := x.beg_

/-- Method `trimmed_right`: `len_ - end_` in 64-bit unsigned arithmetic. -/
def trimmed_right (x : ValidHKMerGenerator) : Nat :=
  (x.len_ + 2 ^ 64 - x.end_ % 2 ^ 64) % 2 ^ 64

end ValidHKMerGenerator

theorem trimLeftLoop_spec (x : ValidHKMerGenerator) (fuel pos : Nat)
    (h1 : pos ≤ x.len_) (h2 : x.len_ ≤ pos + fuel) :
    pos ≤ x.trimLeftLoop fuel pos
    ∧ x.trimLeftLoop fuel pos ≤ x.len_
    ∧ (∀ i, pos ≤ i → i < x.trimLeftLoop fuel pos → x.GetQual i < x.bad_quality_threshold_)
    ∧ (x.trimLeftLoop fuel pos < x.len_ →
        x.bad_quality_threshold_ ≤ x.GetQual (x.trimLeftLoop fuel pos)) := by
  induction fuel generalizing pos with
  | zero =>
    have : pos = x.len_ := by omega
    simp only [ValidHKMerGenerator.trimLeftLoop]
    refine ⟨Nat.le_refl _, h1, fun i hi hi2 => by omega, fun h => by omega⟩
  | succ fuel ih =>
    simp only [ValidHKMerGenerator.trimLeftLoop]
    by_cases hlt : pos < x.len_
    · by_cases hq : x.GetQual pos ≥ x.bad_quality_threshold_
      · simp only [if_pos hlt, if_pos hq]
        exact ⟨Nat.le_refl _, h1, fun i hi hi2 => by omega, fun _ => hq⟩
      · simp only [if_pos hlt, if_neg hq]
        obtain ⟨i1, i2, i3, i4⟩ := ih (pos + 1) (by omega) (by omega)
        refine ⟨by omega, i2, ?_, i4⟩
        intro i hi hi2
        by_cases hip : i = pos
        · rw [hip]; omega
        · exact i3 i (by omega) hi2
    · simp only [if_neg hlt]
      exact ⟨Nat.le_refl _, h1, fun i hi hi2 => by omega, fun h => absurd h hlt⟩

theorem trimRightLoop_spec (x : ValidHKMerGenerator) (pos e : Nat) :
    (pos ≤ e → pos ≤ x.trimRightLoop pos e)
    ∧ x.trimRightLoop pos e ≤ e
    ∧ (∀ i, x.trimRightLoop pos e ≤ i → i < e → x.GetQual i < x.bad_quality_threshold_)
    ∧ (pos < x.trimRightLoop pos e →
        x.bad_quality_threshold_ ≤ x.GetQual (x.trimRightLoop pos e - 1)) := by
  induction e with
  | zero =>
    simp only [ValidHKMerGenerator.trimRightLoop]
    exact ⟨fun h => h, Nat.le_refl _, fun i _ hi => by omega, fun h => by omega⟩
  | succ e ih =>
    simp only [ValidHKMerGenerator.trimRightLoop]
    by_cases hgt : e + 1 > pos
    · by_cases hq : x.GetQual e ≥ x.bad_quality_threshold_
      · simp only [if_pos hgt, if_pos hq]
        exact ⟨fun h => h, Nat.le_refl _, fun i hi hi2 => by omega, fun _ => hq⟩
      · simp only [if_pos hgt, if_neg hq]
        obtain ⟨i1, i2, i3, i4⟩ := ih
        refine ⟨fun _ => i1 (by omega), by omega, ?_, i4⟩
        intro i hi hi2
        by_cases hie : i = e
        · rw [hie]; omega
        · exact i3 i hi (by omega)
    · simp only [if_neg hgt]
      exact ⟨fun h => h, Nat.le_refl _, fun i hi hi2 => by omega, fun h => by omega⟩

/-- C29: for a quality string of length `len` and a threshold `t`, after
`TrimBadQuality`: `beg <= end <= len`; every position below `beg` and every
position from `end` up to `len` has quality below `t`; when `beg < end` the
qualities at `beg` and at `end - 1` are at least `t`; `trimmed_left()` is `beg` and
`trimmed_right()` is `len - end`. -/
theorem trimBadQuality_spec (x : ValidHKMerGenerator) (q : List Nat)
    (hq : x.qual_ = some q) (_hlen : q.length = x.len_) (hfit : x.len_ < 2 ^ 64) :
    x.TrimBadQuality.beg_ ≤ x.TrimBadQuality.end_
    ∧ x.TrimBadQuality.end_ ≤ x.len_
    ∧ (∀ i, i < x.TrimBadQuality.beg_ → x.GetQual i < x.bad_quality_threshold_)
    ∧ (∀ i, x.TrimBadQuality.end_ ≤ i → i < x.len_ → x.GetQual i < x.bad_quality_threshold_)
    ∧ (x.TrimBadQuality.beg_ < x.TrimBadQuality.end_ →
        x.bad_quality_threshold_ ≤ x.GetQual x.TrimBadQuality.beg_
        ∧ x.bad_quality_threshold_ ≤ x.GetQual (x.TrimBadQuality.end_ - 1))
    ∧ x.TrimBadQuality.trimmed_left = x.TrimBadQuality.beg_
    ∧ x.TrimBadQuality.trimmed_right = x.len_ - x.TrimBadQuality.end_ := by
  have hsome : x.qual_.isSome = true := by rw [hq]; rfl
  obtain ⟨l1, l2, l3, l4⟩ := trimLeftLoop_spec x x.len_ 0 (Nat.zero_le _) (by omega)
  obtain ⟨r1, r2, r3, r4⟩ := trimRightLoop_spec x (x.trimLeftLoop x.len_ 0) x.len_
  simp only [ValidHKMerGenerator.TrimBadQuality, hsome, if_true,
    ValidHKMerGenerator.trimmed_left, ValidHKMerGenerator.trimmed_right]
  refine ⟨r1 l2, r2, fun i hi => l3 i (Nat.zero_le _) hi, r3, ?_, trivial, ?_⟩
  · intro hlt
    exact ⟨l4 (by omega), r4 hlt⟩
  · have h1 : x.trimRightLoop (x.trimLeftLoop x.len_ 0) x.len_ % 2 ^ 64
        = x.trimRightLoop (x.trimLeftLoop x.len_ 0) x.len_ := Nat.mod_eq_of_lt (by omega)
    rw [h1]
    have h2 : x.len_ + 2 ^ 64 - x.trimRightLoop (x.trimLeftLoop x.len_ 0) x.len_
        = (x.len_ - x.trimRightLoop (x.trimLeftLoop x.len_ 0) x.len_) + 2 ^ 64 := by omega
    rw [h2, Nat.add_mod_right]
    exact Nat.mod_eq_of_lt (by omega)

/-- Witness of C29: the qualities 2, 3, 9, 1, 8, 4 with threshold 5 give
`beg = 2` and `end = 5`: two nucleotides are cut on the left and one on the
right. -/
theorem trimBadQuality_spec_witness :
    (ValidHKMerGenerator.mk (some [2, 3, 9, 1, 8, 4]) 0 0 0 6 5).TrimBadQuality.beg_ = 2
    ∧ (ValidHKMerGenerator.mk (some [2, 3, 9, 1, 8, 4]) 0 0 0 6 5).TrimBadQuality.end_ = 5
    ∧ (ValidHKMerGenerator.mk (some [2, 3, 9, 1, 8, 4]) 0 0 0 6 5).TrimBadQuality.trimmed_right
        = 6 - (ValidHKMerGenerator.mk (some [2, 3, 9, 1, 8, 4]) 0 0 0 6 5).TrimBadQuality.end_ :=
  ⟨by decide, by decide,
   (trimBadQuality_spec (ValidHKMerGenerator.mk (some [2, 3, 9, 1, 8, 4]) 0 0 0 6 5)
      [2, 3, 9, 1, 8, 4] rfl (by decide) (by decide)).2.2.2.2.2.2⟩


/-! # Merging paths along univocal scaffold edges

Shallow embedding of `PathScaffolder::MergeUnivocalEdges` and
`PathScaffolder::ExtendPathAlongConnections` of
`common/modules/path_extend/read_cloud_path_extend/path_scaffolder.cpp`.

The hash containers `std::unordered_map` and `std::unordered_set` are lists of
their elements; the order in which a range-based `for` visits them, which C++
leaves open, is a parameter (`IterationOrder`).  A failed `VERIFY` ends the run
(`MergeOutcome.failed`) with the paths as they are at that moment. -/

namespace path_extend

open barcode_index

/-- Modelled from the spec: the identity of a `ScaffoldVertex`, under which the
hash containers compare and store scaffold vertices. -/
abbrev ScaffoldVertexId := Nat

/-- Modelled from the spec: a scaffold edge with `getStart()`, `getEnd()` and
`getLength()`. -/
structure ScaffoldEdge where
  start : ScaffoldVertexId
  finish : ScaffoldVertexId
  length : Nat
deriving DecidableEq, Repr

/-- Modelled from the spec: what a path is made of, edges and the gaps with which
`PushBack` joins paths. -/
inductive PathItem where
  | edge (e : EdgeId)
  | gap (g : Int)
deriving DecidableEq, Repr

/-- Modelled from the spec: `BidirectionalPath`, with `PushBack(other, gap)`
appending the gap and the other path, `Clear()` emptying the path, `Empty()`
and `Length()`; `PushBack` and `Clear` change only the path they are called on. -/
abbrev BidirectionalPath := List PathItem

namespace BidirectionalPath

/-- Method `PushBack(path, gap)`. -/
def PushBack (p other : BidirectionalPath) (gap : Int) : BidirectionalPath :=
  p ++ PathItem.gap gap :: other

/-- Method `Clear()`. -/
def Clear (_p : BidirectionalPath) : BidirectionalPath := []

/-- Method `Empty()`. -/
def Empty (p : BidirectionalPath) : Bool := p.isEmpty

/-- Method `Length()`: the lengths of the edges plus the gaps, so that
`PushBack(other, gap)` adds `Length(other) + gap` and `Clear()` gives 0. -/
def Length (g : Graph) (p : BidirectionalPath) : Int :=
  (p.map (fun it =>
    match it with
    | PathItem.edge e => (g.length e : Int)
    | PathItem.gap d => d)).sum

end BidirectionalPath

/-- Modelled from the spec: `PathGetter::GetPathFromScaffoldVertex`, the path that
a scaffold vertex refers to. -/
abbrev PathStore := ScaffoldVertexId → BidirectionalPath

/-- The store after the path of vertex `v` has become `p`. -/
def PathStore.set (paths : PathStore) (v : ScaffoldVertexId) (p : BidirectionalPath) :
    PathStore :=
  fun w => if w = v then p else paths w

/-- The conversion `static_cast<int>(n)` of a `size_t` to a 32-bit `int`. -/
def toInt32 (n : Nat) : Int :=
  if n % 2 ^ 32 < 2 ^ 31 then ((n % 2 ^ 32 : Nat) : Int) else ((n % 2 ^ 32 : Nat) : Int) - 2 ^ 32

/-- The class `PathScaffolder`, of which the merge uses the graph `gp_.g`:
the conjugate of a scaffold vertex (modelled from the spec:
`ScaffoldVertex::getConjugateFromGraph`) and the edge lengths. -/
structure PathScaffolder where
  g : Graph
  getConjugateFromGraph : ScaffoldVertexId → ScaffoldVertexId

/-- The order in which a range-based `for` visits the elements of the hash
containers of `MergeUnivocalEdges`: for `merge_connections` and for `starts`, a
rearrangement of the elements. -/
structure IterationOrder where
  connections : List (ScaffoldVertexId × ScaffoldVertexId)
    → List (ScaffoldVertexId × ScaffoldVertexId)
  connections_perm : ∀ l, (connections l).Perm l
  starts : List ScaffoldVertexId → List ScaffoldVertexId
  starts_perm : ∀ l, (starts l).Perm l

/-- The iteration order that visits the elements in the order of insertion. -/
def IterationOrder.insertion : IterationOrder :=
  ⟨fun l => l, fun l => List.Perm.refl l, fun l => l, fun l => List.Perm.refl l⟩

/-- The iteration order that visits the elements in the reverse order of
insertion. -/
def IterationOrder.reversed : IterationOrder :=
  ⟨fun l => l.reverse, fun l => List.reverse_perm l,
   fun l => l.reverse, fun l => List.reverse_perm l⟩

/-- The two `VERIFY` checks of `MergeUnivocalEdges`, named as in the spec: the
check of the first loop and the checks of the second loop. -/
inductive MergeError where
  | AmbiguousMerge
  | BrokenConjugateSymmetry
deriving DecidableEq, Repr

/-- How a run of `MergeUnivocalEdges` ends: it returns, leaving the paths given
with `done`; a `VERIFY` fails, the paths at that moment being those given with
`failed`; or a loop of the model reaches its iteration bound or a lookup with
`at` throws. -/
inductive MergeOutcome where
  | done (paths : PathStore)
  | failed (kind : MergeError) (paths : PathStore)
  | notFinished

/-- The first loop of `MergeUnivocalEdges`: `merge_connections` after the edges of
the list, and `none` when `VERIFY(merge_connections.find(start) == end())` fails. -/
def buildConnections :
    List ScaffoldEdge → List (ScaffoldVertexId × ScaffoldVertexId)
      → Option (List (ScaffoldVertexId × ScaffoldVertexId))
  | [], merge_connections => some merge_connections
  | edge :: rest, merge_connections =>
    if (mapFind merge_connections edge.start).isSome then none
    else buildConnections rest (merge_connections ++ [(edge.start, edge.finish)])

/-- The second loop of `MergeUnivocalEdges` over the connections in iteration
order: `false` when one of the two `VERIFY` checks fails. -/
def checkSymmetry (x : PathScaffolder)
    (merge_connections : List (ScaffoldVertexId × ScaffoldVertexId)) :
    List (ScaffoldVertexId × ScaffoldVertexId) → Bool
  | [] => true
  | connection :: rest =>
    match mapFind merge_connections (x.getConjugateFromGraph connection.2) with
    | none => false
    | some found =>
      if found = x.getConjugateFromGraph connection.1 then
        checkSymmetry x merge_connections rest
      else false

/-- The statement `set.insert(v)` on a `std::unordered_set`. -/
def setInsert (v : ScaffoldVertexId) (set : List ScaffoldVertexId) : List ScaffoldVertexId :=
  if v ∈ set then set else set ++ [v]

/-- The `while (prev_found)` loop of the third loop of `MergeUnivocalEdges`, entered
with `current` and its conjugate already in `used`; the result is the final
`current`, the final `used` and `prev_used`, and `none` when the iteration bound
(first argument) is reached. -/
def backwardWalk (x : PathScaffolder)
    (merge_connections : List (ScaffoldVertexId × ScaffoldVertexId)) :
    Nat → ScaffoldVertexId → List ScaffoldVertexId
      → Option (ScaffoldVertexId × List ScaffoldVertexId × Bool)
  | 0, _, _ => none
  | fuel + 1, current, used =>
    match mapFind merge_connections (x.getConjugateFromGraph current) with
    | none => some (current, used, false)
    | some prev_conjugate =>
      if prev_conjugate ∈ used then some (current, used, true)
      else
        backwardWalk x merge_connections fuel (x.getConjugateFromGraph prev_conjugate)
          (setInsert (x.getConjugateFromGraph (x.getConjugateFromGraph prev_conjugate))
            (setInsert (x.getConjugateFromGraph prev_conjugate) used))

/-- The third loop of `MergeUnivocalEdges` over the connections in iteration
order, with the current `starts` and `used`. -/
def findStartsLoop (x : PathScaffolder)
    (merge_connections : List (ScaffoldVertexId × ScaffoldVertexId)) (fuel : Nat) :
    List (ScaffoldVertexId × ScaffoldVertexId) → List ScaffoldVertexId → List ScaffoldVertexId
      → Option (List ScaffoldVertexId × List ScaffoldVertexId)
  | [], starts, used => some (starts, used)
  | connection :: rest, starts, used =>
    if connection.1 ∈ used then findStartsLoop x merge_connections fuel rest starts used
    else
      match backwardWalk x merge_connections fuel connection.1
          (setInsert (x.getConjugateFromGraph connection.1) (setInsert connection.1 used)) with
      | none => none
      | some (current, used2, prev_used) =>
        findStartsLoop x merge_connections fuel rest
          (if prev_used then starts else setInsert current starts) used2

/-- The fourth loop of `MergeUnivocalEdges`: `start_to_distance` after
`insert({edge.getStart(), edge.getLength()})` for the edges of the list. -/
def buildDistances :
    List ScaffoldEdge → List (ScaffoldVertexId × Nat) → List (ScaffoldVertexId × Nat)
  | [], start_to_distance => start_to_distance
  | edge :: rest, start_to_distance =>
    if (mapFind start_to_distance edge.start).isSome then buildDistances rest start_to_distance
    else buildDistances rest (start_to_distance ++ [(edge.start, edge.length)])

/-- The `while (next_found)` loop of `ExtendPathAlongConnections`; `none` when the
iteration bound (first argument) is reached or `start_to_distance.at` throws. -/
def extendLoop (merge_connections : List (ScaffoldVertexId × ScaffoldVertexId))
    (start_to_distance : List (ScaffoldVertexId × Nat)) (start : ScaffoldVertexId) :
    Nat → ScaffoldVertexId → PathStore → Option PathStore
  | 0, _, _ => none
  | fuel + 1, current, paths =>
    match mapFind merge_connections current with
    | none => some paths
    | some next =>
      match mapFind start_to_distance current with
      | none => none
      | some distance =>
        extendLoop merge_connections start_to_distance start fuel next
          (((paths.set start ((paths start).PushBack (paths next) (toInt32 distance))).set next
            (BidirectionalPath.Clear (paths next))))

/-- Method `ExtendPathAlongConnections`. -/
def ExtendPathAlongConnections
    (merge_connections : List (ScaffoldVertexId × ScaffoldVertexId))
    (start_to_distance : List (ScaffoldVertexId × Nat)) (start : ScaffoldVertexId)
    (paths : PathStore) : Option PathStore :=
  extendLoop merge_connections start_to_distance start (merge_connections.length + 1) start paths

/-- The last loop of `MergeUnivocalEdges` over the starts in iteration order. -/
def extendAll (merge_connections : List (ScaffoldVertexId × ScaffoldVertexId))
    (start_to_distance : List (ScaffoldVertexId × Nat)) :
    List ScaffoldVertexId → PathStore → Option PathStore
  | [], paths => some paths
  | start :: rest, paths =>
    if (paths start).Empty then extendAll merge_connections start_to_distance rest paths
    else
      match ExtendPathAlongConnections merge_connections start_to_distance start paths with
      | none => none
      | some paths2 => extendAll merge_connections start_to_distance rest paths2

/-- The set `starts` that `MergeUnivocalEdges` computes, when the first three
loops get that far. -/
def computeStarts (x : PathScaffolder) (ord : IterationOrder)
    (scaffold_edges : List ScaffoldEdge) : Option (List ScaffoldVertexId) :=
  match buildConnections scaffold_edges [] with
  | none => none
  | some merge_connections =>
    if checkSymmetry x merge_connections (ord.connections merge_connections) then
      (findStartsLoop x merge_connections (merge_connections.length + 1)
        (ord.connections merge_connections) [] []).map Prod.fst
    else none

/-- Method `MergeUnivocalEdges`. -/
def MergeUnivocalEdges (x : PathScaffolder) (ord : IterationOrder)
    (scaffold_edges : List ScaffoldEdge) (paths : PathStore) : MergeOutcome :=
  match buildConnections scaffold_edges [] with
  | none => MergeOutcome.failed MergeError.AmbiguousMerge paths
  | some merge_connections =>
    if checkSymmetry x merge_connections (ord.connections merge_connections) then
      match findStartsLoop x merge_connections (merge_connections.length + 1)
          (ord.connections merge_connections) [] [] with
      | none => MergeOutcome.notFinished
      | some (starts, _) =>
        match extendAll merge_connections (buildDistances scaffold_edges [])
            (ord.starts starts) paths with
        | none => MergeOutcome.notFinished
        | some paths2 => MergeOutcome.done paths2
    else MergeOutcome.failed MergeError.BrokenConjugateSymmetry paths

/-- The paths of an outcome at the vertices of a list, when the run returned. -/
def MergeOutcome.pathsAt (o : MergeOutcome) (vs : List ScaffoldVertexId) :
    Option (List BidirectionalPath) :=
  match o with
  | MergeOutcome.done paths => some (vs.map paths)
  | _ => none

/-- The conjugation of the merge scenario: it exchanges `v` and `v + 10` for
`v % 20 < 10`. -/
def exampleConjugate (v : Nat) : Nat := if v % 20 < 10 then v + 10 else v - 10

/-- The scaffolder of the merge scenario: vertices A = 0, B = 1, C = 2 with
conjugates 10, 11, 12. -/
def exampleScaffolder : PathScaffolder :=
  { g := ⟨fun e => e, fun _ => 100⟩
    getConjugateFromGraph := exampleConjugate }

/-- The edges of the merge scenario: A -> B (10), B -> C (20),
conj(C) -> conj(B) (10), conj(B) -> conj(A) (20). -/
def exampleScaffoldEdges : List ScaffoldEdge :=
  [⟨0, 1, 10⟩, ⟨1, 2, 20⟩, ⟨12, 11, 10⟩, ⟨11, 10, 20⟩]

/-- The paths of the merge scenario: the path of vertex `v` is the one edge `v`. -/
def examplePaths : PathStore := fun v => [PathItem.edge v]

/-- The paths of the merge scenario, but with the paths of A and conj(A) empty. -/
def exampleEmptyStartPaths : PathStore :=
  fun v => if v = 0 ∨ v = 10 then [] else [PathItem.edge v]

/-- The vertex reached from `v` by following `n` connections of the merge map. -/
def followConnections (merge_connections : List (ScaffoldVertexId × ScaffoldVertexId)) :
    Nat → ScaffoldVertexId → Option ScaffoldVertexId
  | 0, v => some v
  | n + 1, v => (followConnections merge_connections n v).bind (mapFind merge_connections)

/-- The values that `current` takes in the loop of `ExtendPathAlongConnections`
while a next vertex is found, from `v` on and for at most `n` iterations. -/
def chainFrom (merge_connections : List (ScaffoldVertexId × ScaffoldVertexId)) :
    Nat → ScaffoldVertexId → List ScaffoldVertexId
  | 0, _ => []
  | n + 1, v =>
    match mapFind merge_connections v with
    | none => []
    | some w => v :: chainFrom merge_connections n w

/-- The lookup `merge_connections.at(v)`, for a vertex of the domain. -/
def nextAt (merge_connections : List (ScaffoldVertexId × ScaffoldVertexId))
    (v : ScaffoldVertexId) : ScaffoldVertexId :=
  (mapFind merge_connections v).getD 0

/-- The gap `static_cast<int>(start_to_distance.at(v))`, for a vertex of the
domain. -/
def gapAt (start_to_distance : List (ScaffoldVertexId × Nat)) (v : ScaffoldVertexId) : Int :=
  toInt32 ((mapFind start_to_distance v).getD 0)

/-- A chain `v -> v1 -> ... -> vk` of the edges of a list, given by its edges, that
ends at a vertex at which no edge of the list starts. -/
def IsMaximalChain (scaffold_edges : List ScaffoldEdge) :
    ScaffoldVertexId → List ScaffoldEdge → Prop
  | v, [] => ∀ e ∈ scaffold_edges, e.start ≠ v
  | v, e :: rest => e ∈ scaffold_edges ∧ e.start = v ∧ IsMaximalChain scaffold_edges e.finish rest

/-- The sum of the lengths of the paths of the vertices of a list. -/
def totalLength (g : Graph) (paths : PathStore) (vs : List ScaffoldVertexId) : Int :=
  (vs.map (fun v => BidirectionalPath.Length g (paths v))).sum

/-- The sum of the path lengths of an outcome, when the run returned. -/
def MergeOutcome.totalLength (o : MergeOutcome) (g : Graph) (vs : List ScaffoldVertexId) :
    Option Int :=
  match o with
  | MergeOutcome.done paths => some (path_extend.totalLength g paths vs)
  | _ => none

/-- The kind of the failed `VERIFY` of an outcome, if the run failed. -/
def MergeOutcome.failure (o : MergeOutcome) : Option MergeError :=
  match o with
  | MergeOutcome.failed kind _ => some kind
  | _ => none

theorem mapFind_append {V : Type} (a b : List (Nat × V)) (k : Nat) :
    mapFind (a ++ b) k = (mapFind a k).orElse (fun _ => mapFind b k) := by
  induction a with
  | nil => rfl
  | cons hd tl ih =>
    obtain ⟨k0, w⟩ := hd
    by_cases h0 : k0 = k
    · simp [mapFind, h0]
    · simp [mapFind, h0, ih]

theorem buildConnections_some (edges : List ScaffoldEdge)
    (acc m : List (ScaffoldVertexId × ScaffoldVertexId))
    (h : buildConnections edges acc = some m) :
    m = acc ++ edges.map (fun e => (e.start, e.finish))
      ∧ (edges.map (fun e => e.start)).Nodup
      ∧ ∀ e ∈ edges, mapFind acc e.start = none := by
  induction edges generalizing acc with
  | nil =>
    simp only [buildConnections, Option.some.injEq] at h
    simp [h]
  | cons e rest ih =>
    unfold buildConnections at h
    by_cases hf : (mapFind acc e.start).isSome = true
    · simp [hf] at h
    · rw [if_neg hf] at h
      have hnone : mapFind acc e.start = none := by
        cases hv : mapFind acc e.start with
        | none => rfl
        | some v => simp [hv] at hf
      obtain ⟨hm, hnd, hall⟩ := ih _ h
      have hrest : ∀ e2 ∈ rest, mapFind acc e2.start = none ∧ e2.start ≠ e.start := by
        intro e2 he2
        have h2 := hall e2 he2
        rw [mapFind_append] at h2
        cases hv : mapFind acc e2.start with
        | some v => simp [hv] at h2
        | none =>
          refine ⟨rfl, ?_⟩
          intro heq
          simp [hv, mapFind, heq] at h2
      refine ⟨?_, ?_, ?_⟩
      · rw [hm]; simp
      · simp only [List.map_cons, List.nodup_cons, List.mem_map, not_exists, not_and]
        exact ⟨fun e2 he2 heq => (hrest e2 he2).2 heq, hnd⟩
      · intro e2 he2
        rcases List.mem_cons.1 he2 with h1 | h1
        · rw [h1]; exact hnone
        · exact (hrest e2 h1).1

theorem buildConnections_of_nodup (edges : List ScaffoldEdge)
    (acc : List (ScaffoldVertexId × ScaffoldVertexId))
    (hnd : (edges.map (fun e => e.start)).Nodup)
    (hall : ∀ e ∈ edges, mapFind acc e.start = none) :
    buildConnections edges acc = some (acc ++ edges.map (fun e => (e.start, e.finish))) := by
  induction edges generalizing acc with
  | nil => simp [buildConnections]
  | cons e rest ih =>
    simp only [List.map_cons, List.nodup_cons, List.mem_map, not_exists, not_and] at hnd
    unfold buildConnections
    have hnone := hall e (List.mem_cons_self _ _)
    rw [hnone]
    simp only [Option.isSome_none, Bool.false_eq_true, if_false]
    rw [ih _ hnd.2]
    · simp
    · intro e2 he2
      rw [mapFind_append, hall e2 (List.mem_cons_of_mem _ he2)]
      have hne : ¬ e.start = e2.start := fun heq => hnd.1 e2 he2 heq.symm
      simp [mapFind, hne]

theorem buildConnections_eq_none_iff (edges : List ScaffoldEdge) :
    buildConnections edges [] = none ↔ ¬ (edges.map (fun e => e.start)).Nodup := by
  constructor
  · intro h hnd
    rw [buildConnections_of_nodup edges [] hnd (fun _ _ => rfl)] at h
    cases h
  · intro hnd
    cases hb : buildConnections edges [] with
    | none => rfl
    | some m => exact absurd (buildConnections_some edges [] m hb).2.1 hnd

theorem buildConnections_eq_some_iff (edges : List ScaffoldEdge)
    (m : List (ScaffoldVertexId × ScaffoldVertexId)) :
    buildConnections edges [] = some m
      ↔ m = edges.map (fun e => (e.start, e.finish))
        ∧ (edges.map (fun e => e.start)).Nodup := by
  constructor
  · intro h
    have h2 := buildConnections_some edges [] m h
    exact ⟨by simpa using h2.1, h2.2.1⟩
  · rintro ⟨hm, hnd⟩
    rw [buildConnections_of_nodup edges [] hnd (fun _ _ => rfl), hm]
    simp

theorem not_nodup_starts_iff (edges : List ScaffoldEdge) :
    ¬ (edges.map (fun e => e.start)).Nodup
      ↔ ∃ i j : Nat, i < j ∧ ∃ a b : ScaffoldEdge,
          edges[i]? = some a ∧ edges[j]? = some b ∧ a.start = b.start := by
  rw [List.nodup_iff_getElem?_ne_getElem?]
  simp only [List.length_map, List.getElem?_map, not_forall]
  constructor
  · rintro ⟨i, j, hij, hj, hne⟩
    have hi : i < edges.length := Nat.lt_trans hij hj
    have h := not_not.1 hne
    rw [List.getElem?_eq_getElem hi, List.getElem?_eq_getElem hj] at h
    simp only [Option.map_some', Option.some.injEq] at h
    exact ⟨i, j, hij, edges[i], edges[j], List.getElem?_eq_getElem hi,
      List.getElem?_eq_getElem hj, h⟩
  · rintro ⟨i, j, hij, a, b, ha, hb, hab⟩
    have hj : j < edges.length := by
      by_contra hcon
      rw [List.getElem?_eq_none (Nat.le_of_not_lt hcon)] at hb
      cases hb
    refine ⟨i, j, hij, hj, ?_⟩
    rw [ha, hb]
    simp [hab]

theorem checkSymmetry_eq_true_iff (x : PathScaffolder)
    (m l : List (ScaffoldVertexId × ScaffoldVertexId)) :
    checkSymmetry x m l = true
      ↔ ∀ c ∈ l, mapFind m (x.getConjugateFromGraph c.2)
          = some (x.getConjugateFromGraph c.1) := by
  induction l with
  | nil => simp [checkSymmetry]
  | cons c rest ih =>
    unfold checkSymmetry
    cases hv : mapFind m (x.getConjugateFromGraph c.2) with
    | none => simp [hv]
    | some found =>
      by_cases hf : found = x.getConjugateFromGraph c.1
      · simp [hv, hf, ih]
      · simp [hv, hf]

theorem checkSymmetry_perm (x : PathScaffolder)
    (m l1 l2 : List (ScaffoldVertexId × ScaffoldVertexId)) (hp : l1.Perm l2) :
    checkSymmetry x m l1 = checkSymmetry x m l2 := by
  have h : checkSymmetry x m l1 = true ↔ checkSymmetry x m l2 = true := by
    rw [checkSymmetry_eq_true_iff, checkSymmetry_eq_true_iff]
    exact ⟨fun h c hc => h c (hp.mem_iff.2 hc), fun h c hc => h c (hp.mem_iff.1 hc)⟩
  cases h1 : checkSymmetry x m l1 <;> cases h2 : checkSymmetry x m l2 <;> simp_all

/-- C22: `MergeUnivocalEdges` fails at the `VERIFY` of its first loop
(AmbiguousMerge) if and only if two edges of the input list, at positions
`i < j`, have the same start vertex; and the paths at that failure are the paths
as given. -/
theorem merge_ambiguous_iff (x : PathScaffolder) (ord : IterationOrder)
    (scaffold_edges : List ScaffoldEdge) (paths : PathStore) :
    ((∃ p, MergeUnivocalEdges x ord scaffold_edges paths
          = MergeOutcome.failed MergeError.AmbiguousMerge p)
      ↔ ∃ i j : Nat, i < j ∧ ∃ a b : ScaffoldEdge,
          scaffold_edges[i]? = some a ∧ scaffold_edges[j]? = some b ∧ a.start = b.start)
    ∧ ∀ p, MergeUnivocalEdges x ord scaffold_edges paths
          = MergeOutcome.failed MergeError.AmbiguousMerge p → p = paths := by
  have key : ∀ p, MergeUnivocalEdges x ord scaffold_edges paths
      = MergeOutcome.failed MergeError.AmbiguousMerge p
        → buildConnections scaffold_edges [] = none ∧ p = paths := by
    intro p hp
    unfold MergeUnivocalEdges at hp
    cases hb : buildConnections scaffold_edges [] with
    | none =>
      rw [hb] at hp
      simp only [MergeOutcome.failed.injEq, true_and] at hp
      exact ⟨rfl, hp.symm⟩
    | some m =>
      rw [hb] at hp
      exfalso
      revert hp
      simp only
      split
      · split
        · intro h; cases h
        · split
          · intro h; cases h
          · intro h; cases h
      · intro h
        cases h
  refine ⟨⟨?_, ?_⟩, fun p hp => (key p hp).2⟩
  · rintro ⟨p, hp⟩
    exact (not_nodup_starts_iff _).1 ((buildConnections_eq_none_iff _).1 (key p hp).1)
  · intro h
    have hb := (buildConnections_eq_none_iff _).2 ((not_nodup_starts_iff _).2 h)
    exact ⟨paths, by unfold MergeUnivocalEdges; rw [hb]⟩

/-- C21 (as amended): for every list of scaffold edges in which some scaffold
edge `s -> t` is present while `conj(t) -> conj(s)` is not, `MergeUnivocalEdges`
fails with the paths as given; the failed `VERIFY` is one of the second loop
(BrokenConjugateSymmetry) when no two edges of the list have the same start
vertex, and the one of the first loop (AmbiguousMerge) otherwise. -/
theorem merge_broken_symmetry (x : PathScaffolder) (ord : IterationOrder)
    (scaffold_edges : List ScaffoldEdge) (paths : PathStore) (e : ScaffoldEdge)
    (he : e ∈ scaffold_edges)
    (hmissing : ∀ e2 ∈ scaffold_edges,
      ¬ (e2.start = x.getConjugateFromGraph e.finish
          ∧ e2.finish = x.getConjugateFromGraph e.start)) :
    (∃ kind, MergeUnivocalEdges x ord scaffold_edges paths = MergeOutcome.failed kind paths)
    ∧ (scaffold_edges.Pairwise (fun a b => a.start ≠ b.start) →
        MergeUnivocalEdges x ord scaffold_edges paths
          = MergeOutcome.failed MergeError.BrokenConjugateSymmetry paths)
    ∧ (¬ scaffold_edges.Pairwise (fun a b => a.start ≠ b.start) →
        MergeUnivocalEdges x ord scaffold_edges paths
          = MergeOutcome.failed MergeError.AmbiguousMerge paths) := by
  have hpair : (scaffold_edges.map (fun e => e.start)).Nodup
      ↔ scaffold_edges.Pairwise (fun a b => a.start ≠ b.start) := by
    unfold List.Nodup
    rw [List.pairwise_map]
  have hB : scaffold_edges.Pairwise (fun a b => a.start ≠ b.start) →
      MergeUnivocalEdges x ord scaffold_edges paths
        = MergeOutcome.failed MergeError.BrokenConjugateSymmetry paths := by
    intro hstarts
    have hnd := hpair.2 hstarts
    have hb := (buildConnections_eq_some_iff scaffold_edges _).2 ⟨rfl, hnd⟩
    have hc : checkSymmetry x (scaffold_edges.map (fun e => (e.start, e.finish)))
        (ord.connections (scaffold_edges.map (fun e => (e.start, e.finish)))) = false := by
      cases hcs : checkSymmetry x (scaffold_edges.map (fun e => (e.start, e.finish)))
        (ord.connections (scaffold_edges.map (fun e => (e.start, e.finish)))) with
      | false => rfl
      | true =>
        exfalso
        have h1 := (checkSymmetry_eq_true_iff x _ _).1 hcs (e.start, e.finish)
          ((ord.connections_perm _).mem_iff.2 (List.mem_map.2 ⟨e, he, rfl⟩))
        have h2 := mapFind_eq_some_mem _ _ _ h1
        obtain ⟨e2, he2, heq⟩ := List.mem_map.1 h2
        simp only [Prod.mk.injEq] at heq
        exact hmissing e2 he2 heq
    unfold MergeUnivocalEdges
    rw [hb]
    simp only [hc, Bool.false_eq_true, if_false]
  have hA : ¬ scaffold_edges.Pairwise (fun a b => a.start ≠ b.start) →
      MergeUnivocalEdges x ord scaffold_edges paths
        = MergeOutcome.failed MergeError.AmbiguousMerge paths := by
    intro hstarts
    have hb := (buildConnections_eq_none_iff scaffold_edges).2 (fun h => hstarts (hpair.1 h))
    unfold MergeUnivocalEdges
    rw [hb]
  refine ⟨?_, hB, hA⟩
  by_cases hstarts : scaffold_edges.Pairwise (fun a b => a.start ≠ b.start)
  · exact ⟨_, hB hstarts⟩
  · exact ⟨_, hA hstarts⟩

/-- Witness for C21 (as amended): the single edge A -> B, without
conj(B) -> conj(A), makes the merge fail at the second loop. -/
theorem merge_broken_symmetry_witness :
    MergeUnivocalEdges exampleScaffolder IterationOrder.insertion [⟨0, 1, 10⟩] examplePaths
      = MergeOutcome.failed MergeError.BrokenConjugateSymmetry examplePaths :=
  (merge_broken_symmetry exampleScaffolder IterationOrder.insertion [⟨0, 1, 10⟩] examplePaths
    ⟨0, 1, 10⟩ (by simp) (by simp [exampleScaffolder, exampleConjugate])).2.1 (by simp)

/-- Counterexample to C21 as stated: in the list A -> B, A -> C the edge A -> B is
present while conj(B) -> conj(A) is not, and the merge fails at the `VERIFY` of the
first loop (AmbiguousMerge), not at the second (BrokenConjugateSymmetry). -/
theorem merge_broken_symmetry_preceded_by_ambiguity :
    (⟨0, 1, 10⟩ : ScaffoldEdge) ∈ [(⟨0, 1, 10⟩ : ScaffoldEdge), ⟨0, 2, 20⟩]
    ∧ (∀ e2 ∈ [(⟨0, 1, 10⟩ : ScaffoldEdge), ⟨0, 2, 20⟩],
        ¬ (e2.start = exampleScaffolder.getConjugateFromGraph 1
            ∧ e2.finish = exampleScaffolder.getConjugateFromGraph 0))
    ∧ MergeUnivocalEdges exampleScaffolder IterationOrder.insertion
        [⟨0, 1, 10⟩, ⟨0, 2, 20⟩] examplePaths
        = MergeOutcome.failed MergeError.AmbiguousMerge examplePaths
    ∧ (MergeUnivocalEdges exampleScaffolder IterationOrder.insertion
        [⟨0, 1, 10⟩, ⟨0, 2, 20⟩] examplePaths).failure
        ≠ some MergeError.BrokenConjugateSymmetry := by
  refine ⟨by simp, by simp [exampleScaffolder, exampleConjugate], rfl, by decide⟩

theorem mem_setInsert (a v : ScaffoldVertexId) (l : List ScaffoldVertexId) :
    a ∈ setInsert v l ↔ a = v ∨ a ∈ l := by
  unfold setInsert
  by_cases h : v ∈ l
  · rw [if_pos h]
    constructor
    · exact fun ha => Or.inr ha
    · rintro (ha | ha)
      · rw [ha]; exact h
      · exact ha
  · rw [if_neg h]
    simp [List.mem_append, or_comm]

theorem nodup_setInsert (v : ScaffoldVertexId) (l : List ScaffoldVertexId) (hl : l.Nodup) :
    (setInsert v l).Nodup := by
  unfold setInsert
  by_cases h : v ∈ l
  · rw [if_pos h]; exact hl
  · rw [if_neg h]
    rw [List.nodup_append]
    refine ⟨hl, List.nodup_singleton v, ?_⟩
    intro a ha hb
    rw [List.mem_singleton] at hb
    exact h (hb ▸ ha)

theorem symmetric_pred (conj : ScaffoldVertexId → ScaffoldVertexId)
    (m : List (ScaffoldVertexId × ScaffoldVertexId))
    (hsym : ∀ c ∈ m, mapFind m (conj c.2) = some (conj c.1))
    (a b : ScaffoldVertexId) (h : mapFind m a = some b) :
    mapFind m (conj b) = some (conj a) :=
  hsym (a, b) (mapFind_eq_some_mem _ _ _ h)

theorem symmetric_inj (conj : ScaffoldVertexId → ScaffoldVertexId)
    (m : List (ScaffoldVertexId × ScaffoldVertexId))
    (hconj : ∀ v, conj (conj v) = v)
    (hsym : ∀ c ∈ m, mapFind m (conj c.2) = some (conj c.1))
    (a b c : ScaffoldVertexId) (ha : mapFind m a = some c) (hb : mapFind m b = some c) :
    a = b := by
  have h1 := symmetric_pred conj m hsym a c ha
  have h2 := symmetric_pred conj m hsym b c hb
  rw [h1] at h2
  have h3 : conj a = conj b := Option.some.inj h2
  rw [← hconj a, h3, hconj b]

theorem no_pred_iff (conj : ScaffoldVertexId → ScaffoldVertexId)
    (m : List (ScaffoldVertexId × ScaffoldVertexId))
    (hconj : ∀ v, conj (conj v) = v)
    (hsym : ∀ c ∈ m, mapFind m (conj c.2) = some (conj c.1))
    (s : ScaffoldVertexId) :
    mapFind m (conj s) = none ↔ ∀ c ∈ m, c.2 ≠ s := by
  constructor
  · intro h c hc hcs
    have h2 := hsym c hc
    rw [hcs, h] at h2
    cases h2
  · intro h
    cases hv : mapFind m (conj s) with
    | none => rfl
    | some t =>
      exfalso
      have h2 := symmetric_pred conj m hsym _ _ hv
      rw [hconj] at h2
      exact h _ (mapFind_eq_some_mem _ _ _ h2) rfl

theorem countP_lt_of_imp {α : Type} (l : List α) (p q : α → Bool)
    (himp : ∀ a ∈ l, q a = true → p a = true) (a : α) (ha : a ∈ l) (hp : p a = true)
    (hq : q a = false) : l.countP q < l.countP p := by
  induction l with
  | nil => cases ha
  | cons b t ih =>
    have hmono : t.countP q ≤ t.countP p :=
      List.countP_mono_left (fun c hc => himp c (List.mem_cons_of_mem _ hc))
    rcases List.mem_cons.1 ha with h1 | h1
    · subst h1
      rw [List.countP_cons_of_pos _ _ hp, List.countP_cons_of_neg]
      · omega
      · simp [hq]
    · have h2 := ih (fun c hc => himp c (List.mem_cons_of_mem _ hc)) h1
      by_cases hqb : q b = true
      · rw [List.countP_cons_of_pos _ _ hqb,
          List.countP_cons_of_pos _ _ (himp b (List.mem_cons_self _ _) hqb)]
        omega
      · rw [List.countP_cons_of_neg _ _ hqb]
        by_cases hpb : p b = true
        · rw [List.countP_cons_of_pos _ _ hpb]; omega
        · rw [List.countP_cons_of_neg _ _ hpb]; exact h2

theorem backwardWalk_spec (x : PathScaffolder)
    (m : List (ScaffoldVertexId × ScaffoldVertexId))
    (hconj : ∀ v, x.getConjugateFromGraph (x.getConjugateFromGraph v) = v)
    (hsym : ∀ c ∈ m, mapFind m (x.getConjugateFromGraph c.2)
      = some (x.getConjugateFromGraph c.1)) :
    ∀ (fuel : Nat) (current : ScaffoldVertexId) (used : List ScaffoldVertexId),
      m.countP (fun c => decide (c.2 ∉ used)) < fuel →
      (mapFind m current).isSome = true →
      ∃ cur2 used2 pu, backwardWalk x m fuel current used = some (cur2, used2, pu)
        ∧ (∀ s ∈ used, s ∈ used2)
        ∧ (mapFind m cur2).isSome = true
        ∧ (pu = false → mapFind m (x.getConjugateFromGraph cur2) = none)
        ∧ (∀ s ∈ used2, mapFind m (x.getConjugateFromGraph s) = none →
            (s ∈ used ∧ s ≠ current) ∨ (s = cur2 ∧ pu = false)) := by
  intro fuel
  induction fuel with
  | zero => intro current used h; omega
  | succ n ih =>
    intro current used hfuel hdom
    unfold backwardWalk
    cases hv : mapFind m (x.getConjugateFromGraph current) with
    | none =>
      refine ⟨current, used, false, rfl, fun s hs => hs, hdom, fun _ => hv, ?_⟩
      intro s hs _
      by_cases hsc : s = current
      · exact Or.inr ⟨hsc, rfl⟩
      · exact Or.inl ⟨hs, hsc⟩
    | some pc =>
      have hnot : ∀ s, mapFind m (x.getConjugateFromGraph s) = none → s ≠ current := by
        intro s hs hsc
        rw [hsc, hv] at hs
        cases hs
      by_cases hpc : pc ∈ used
      · simp only [hpc, if_true]
        refine ⟨current, used, true, rfl, fun s hs => hs, hdom, ?_, ?_⟩
        · intro h; cases h
        · intro s hs hnone
          exact Or.inl ⟨hs, hnot s hnone⟩
      · simp only [hpc, if_false]
        have hcur2 : mapFind m (x.getConjugateFromGraph pc)
            = some (x.getConjugateFromGraph (x.getConjugateFromGraph current)) :=
          symmetric_pred _ m hsym _ _ hv
        have hdom2 : (mapFind m (x.getConjugateFromGraph pc)).isSome = true := by
          rw [hcur2]; rfl
        have hmeasure : m.countP (fun c => decide (c.2 ∉
            setInsert (x.getConjugateFromGraph (x.getConjugateFromGraph pc))
              (setInsert (x.getConjugateFromGraph pc) used))) < n := by
          have hlt := countP_lt_of_imp m (fun c => decide (c.2 ∉ used))
            (fun c => decide (c.2 ∉
              setInsert (x.getConjugateFromGraph (x.getConjugateFromGraph pc))
                (setInsert (x.getConjugateFromGraph pc) used)))
            (by
              intro c _ hc
              simp only [decide_eq_true_eq] at hc ⊢
              intro hcu
              exact hc ((mem_setInsert _ _ _).2 (Or.inr ((mem_setInsert _ _ _).2 (Or.inr hcu)))))
            (x.getConjugateFromGraph current, pc) (mapFind_eq_some_mem _ _ _ hv)
            (by simpa using hpc)
            (by
              simp only [decide_eq_false_iff_not, not_not]
              exact (mem_setInsert _ _ _).2 (Or.inl (hconj pc).symm))
          omega
        obtain ⟨cur2, used2, pu, hrun, hsub, hd, hpu, hst⟩ :=
          ih (x.getConjugateFromGraph pc) _ hmeasure hdom2
        refine ⟨cur2, used2, pu, hrun, ?_, hd, hpu, ?_⟩
        · intro s hs
          exact hsub s ((mem_setInsert _ _ _).2 (Or.inr ((mem_setInsert _ _ _).2 (Or.inr hs))))
        · intro s hs hnone
          rcases hst s hs hnone with ⟨hmem, hne⟩ | hfin
          · rcases (mem_setInsert _ _ _).1 hmem with h1 | h1
            · exfalso
              rw [h1, hconj, hcur2] at hnone
              cases hnone
            · rcases (mem_setInsert _ _ _).1 h1 with h2 | h2
              · exact absurd h2 hne
              · exact Or.inl ⟨h2, hnot s hnone⟩
          · exact Or.inr hfin

theorem findStartsLoop_spec (x : PathScaffolder)
    (m : List (ScaffoldVertexId × ScaffoldVertexId))
    (hconj : ∀ v, x.getConjugateFromGraph (x.getConjugateFromGraph v) = v)
    (hsym : ∀ c ∈ m, mapFind m (x.getConjugateFromGraph c.2)
      = some (x.getConjugateFromGraph c.1)) :
    ∀ (l : List (ScaffoldVertexId × ScaffoldVertexId)) (starts used : List ScaffoldVertexId),
      (∀ c ∈ l, (mapFind m c.1).isSome = true) →
      (∀ s ∈ starts, (mapFind m s).isSome = true
        ∧ mapFind m (x.getConjugateFromGraph s) = none) →
      (∀ s ∈ used, mapFind m (x.getConjugateFromGraph s) = none → s ∈ starts) →
      starts.Nodup →
      ∃ starts2 used2,
        findStartsLoop x m (m.length + 1) l starts used = some (starts2, used2)
        ∧ (∀ s ∈ starts2, (mapFind m s).isSome = true
            ∧ mapFind m (x.getConjugateFromGraph s) = none)
        ∧ (∀ s ∈ used2, mapFind m (x.getConjugateFromGraph s) = none → s ∈ starts2)
        ∧ starts2.Nodup
        ∧ (∀ s ∈ used, s ∈ used2)
        ∧ (∀ c ∈ l, c.1 ∈ used2) := by
  intro l
  induction l with
  | nil =>
    intro starts used _ h1 h2 h3
    exact ⟨starts, used, rfl, h1, h2, h3, fun s hs => hs, fun c hc => by cases hc⟩
  | cons c rest ih =>
    intro starts used hdom h1 h2 h3
    have hdomrest : ∀ c2 ∈ rest, (mapFind m c2.1).isSome = true :=
      fun c2 hc2 => hdom c2 (List.mem_cons_of_mem _ hc2)
    unfold findStartsLoop
    by_cases hcu : c.1 ∈ used
    · rw [if_pos hcu]
      obtain ⟨starts2, used2, hrun, g1, g2, g3, g4, g5⟩ := ih starts used hdomrest h1 h2 h3
      refine ⟨starts2, used2, hrun, g1, g2, g3, g4, ?_⟩
      intro c2 hc2
      rcases List.mem_cons.1 hc2 with h | h
      · rw [h]; exact g4 _ hcu
      · exact g5 c2 h
    · rw [if_neg hcu]
      have hcdom := hdom c (List.mem_cons_self _ _)
      have hfuel : m.countP (fun c2 => decide (c2.2 ∉
          setInsert (x.getConjugateFromGraph c.1) (setInsert c.1 used))) < m.length + 1 :=
        Nat.lt_succ_of_le (List.countP_le_length _)
      obtain ⟨cur2, usedw, pu, hrun, hsub, hd, hpu, hst⟩ :=
        backwardWalk_spec x m hconj hsym (m.length + 1) c.1 _ hfuel hcdom
      rw [hrun]
      simp only
      have hused0 : ∀ s ∈ used, s ∈ usedw := fun s hs =>
        hsub s ((mem_setInsert _ _ _).2 (Or.inr ((mem_setInsert _ _ _).2 (Or.inr hs))))
      have hc0 : c.1 ∈ usedw :=
        hsub _ ((mem_setInsert _ _ _).2 (Or.inr ((mem_setInsert _ _ _).2 (Or.inl rfl))))
      have n1 : ∀ s ∈ (if pu = true then starts else setInsert cur2 starts),
          (mapFind m s).isSome = true ∧ mapFind m (x.getConjugateFromGraph s) = none := by
        intro s hs
        cases pu with
        | true => exact h1 s (by simpa using hs)
        | false =>
          simp only [Bool.false_eq_true, if_false] at hs
          rcases (mem_setInsert _ _ _).1 hs with h | h
          · rw [h]; exact ⟨hd, hpu rfl⟩
          · exact h1 s h
      have n2 : ∀ s ∈ usedw, mapFind m (x.getConjugateFromGraph s) = none →
          s ∈ (if pu = true then starts else setInsert cur2 starts) := by
        intro s hs hnone
        have hold : s ∈ starts → s ∈ (if pu = true then starts else setInsert cur2 starts) := by
          intro h
          cases pu with
          | true => simpa using h
          | false =>
            simp only [Bool.false_eq_true, if_false]
            exact (mem_setInsert _ _ _).2 (Or.inr h)
        rcases hst s hs hnone with ⟨hmem, hne⟩ | ⟨hfin, hpf⟩
        · rcases (mem_setInsert _ _ _).1 hmem with h | h
          · exfalso
            rw [h, hconj] at hnone
            rw [hnone] at hcdom
            cases hcdom
          · rcases (mem_setInsert _ _ _).1 h with h4 | h4
            · exact absurd h4 hne
            · exact hold (h2 s h4 hnone)
        · rw [hpf]
          simp only [Bool.false_eq_true, if_false]
          exact (mem_setInsert _ _ _).2 (Or.inl hfin)
      have n3 : (if pu = true then starts else setInsert cur2 starts).Nodup := by
        cases pu with
        | true => simpa using h3
        | false =>
          simp only [Bool.false_eq_true, if_false]
          exact nodup_setInsert _ _ h3
      obtain ⟨starts2, used2, hrun2, g1, g2, g3, g4, g5⟩ := ih _ usedw hdomrest n1 n2 n3
      refine ⟨starts2, used2, hrun2, g1, g2, g3, fun s hs => g4 s (hused0 s hs), ?_⟩
      intro c2 hc2
      rcases List.mem_cons.1 hc2 with h | h
      · rw [h]; exact g4 _ hc0
      · exact g5 c2 h

/-- What the first three loops of `MergeUnivocalEdges` give for an input that
passes the checks: the starts are the vertices of the domain of the merge map
whose conjugate is not in the domain. -/
theorem computeStarts_spec (x : PathScaffolder) (scaffold_edges : List ScaffoldEdge)
    (m : List (ScaffoldVertexId × ScaffoldVertexId)) (ord : IterationOrder)
    (hconj : ∀ v, x.getConjugateFromGraph (x.getConjugateFromGraph v) = v)
    (h1 : buildConnections scaffold_edges [] = some m)
    (hsym : ∀ c ∈ m, mapFind m (x.getConjugateFromGraph c.2)
      = some (x.getConjugateFromGraph c.1)) :
    ∃ starts used,
      findStartsLoop x m (m.length + 1) (ord.connections m) [] [] = some (starts, used)
      ∧ computeStarts x ord scaffold_edges = some starts
      ∧ starts.Nodup
      ∧ ∀ s, s ∈ starts ↔ ((mapFind m s).isSome = true
          ∧ mapFind m (x.getConjugateFromGraph s) = none) := by
  have hdom : ∀ c ∈ ord.connections m, (mapFind m c.1).isSome = true := by
    intro c hc
    rw [mapFind_isSome_iff]
    exact List.mem_map.2 ⟨c, (ord.connections_perm m).mem_iff.1 hc, rfl⟩
  obtain ⟨starts, used, hrun, g1, g2, g3, _, g5⟩ :=
    findStartsLoop_spec x m hconj hsym (ord.connections m) [] [] hdom
      (fun s hs => by cases hs) (fun s hs => by cases hs) List.nodup_nil
  refine ⟨starts, used, hrun, ?_, g3, ?_⟩
  · unfold computeStarts
    rw [h1]
    have hc : checkSymmetry x m (ord.connections m) = true :=
      (checkSymmetry_eq_true_iff x m _).2
        (fun c hc => hsym c ((ord.connections_perm m).mem_iff.1 hc))
    simp only [hc, if_true, hrun, Option.map_some']
  · intro s
    constructor
    · exact g1 s
    · rintro ⟨hs1, hs2⟩
      obtain ⟨c, hc, hcs⟩ := List.mem_map.1 ((mapFind_isSome_iff m s).1 hs1)
      have hcu := g5 c ((ord.connections_perm m).mem_iff.2 hc)
      rw [hcs] at hcu
      exact g2 s hcu hs2

/-- C25: for an input that passes the checks of the first two loops, with conj
an involution, under every iteration order the third loop of
`MergeUnivocalEdges` ends with the same set of starts (without repetition): the
vertices that are the start of an edge and the end of no edge, equivalently the
vertices of the domain of the merge map whose conjugate is not in the domain; and
no vertex that follows connections back to itself is a start. -/
theorem starts_spec (x : PathScaffolder) (scaffold_edges : List ScaffoldEdge)
    (m : List (ScaffoldVertexId × ScaffoldVertexId)) (ord0 : IterationOrder)
    (hconj : ∀ v, x.getConjugateFromGraph (x.getConjugateFromGraph v) = v)
    (h1 : buildConnections scaffold_edges [] = some m)
    (h2 : checkSymmetry x m (ord0.connections m) = true) :
    ∀ ord : IterationOrder, ∃ starts, computeStarts x ord scaffold_edges = some starts
      ∧ starts.Nodup
      ∧ (∀ s, s ∈ starts ↔ ((∃ e ∈ scaffold_edges, e.start = s)
          ∧ ∀ e ∈ scaffold_edges, e.finish ≠ s))
      ∧ (∀ s, s ∈ starts ↔ ((mapFind m s).isSome = true
          ∧ mapFind m (x.getConjugateFromGraph s) = none))
      ∧ (∀ s n, 0 < n → followConnections m n s = some s → s ∉ starts) := by
  intro ord
  have hsym : ∀ c ∈ m, mapFind m (x.getConjugateFromGraph c.2)
      = some (x.getConjugateFromGraph c.1) :=
    fun c hc => (checkSymmetry_eq_true_iff x m _).1 h2 c ((ord0.connections_perm m).mem_iff.2 hc)
  obtain ⟨starts, _, _, hrun, hnd, hchar⟩ :=
    computeStarts_spec x scaffold_edges m ord hconj h1 hsym
  have hm := ((buildConnections_eq_some_iff scaffold_edges m).1 h1).1
  have hedges : ∀ s, s ∈ starts ↔ ((∃ e ∈ scaffold_edges, e.start = s)
      ∧ ∀ e ∈ scaffold_edges, e.finish ≠ s) := by
    intro s
    rw [hchar s, mapFind_isSome_iff, no_pred_iff _ m hconj hsym s, hm]
    simp only [List.map_map, List.mem_map, Function.comp_apply, forall_exists_index, and_imp,
      ne_eq]
    constructor
    · rintro ⟨ha, hb⟩
      exact ⟨ha, fun e he => hb (e.start, e.finish) e he rfl⟩
    · rintro ⟨ha, hb⟩
      refine ⟨ha, ?_⟩
      intro c e he hce
      rw [← hce]
      exact hb e he
  refine ⟨starts, hrun, hnd, hedges, hchar, ?_⟩
  intro s n hn hcyc hs
  obtain ⟨k, rfl⟩ : ∃ k, n = k + 1 := ⟨n - 1, by omega⟩
  unfold followConnections at hcyc
  cases hp : followConnections m k s with
  | none => rw [hp] at hcyc; cases hcyc
  | some p =>
    rw [hp] at hcyc
    change mapFind m p = some s at hcyc
    have hnone := ((hchar s).1 hs).2
    rw [no_pred_iff _ m hconj hsym s] at hnone
    exact hnone _ (mapFind_eq_some_mem _ _ _ hcyc) rfl

theorem exampleScaffolder_involution (v : Nat) :
    exampleScaffolder.getConjugateFromGraph (exampleScaffolder.getConjugateFromGraph v) = v := by
  show exampleConjugate (exampleConjugate v) = v
  unfold exampleConjugate
  split_ifs <;> omega

/-- Witness for C25: the edges A -> B, B -> C, conj(C) -> conj(B),
conj(B) -> conj(A) pass the checks in insertion order; the starts under the
reversed iteration order. -/
theorem starts_spec_witness :
    ∃ starts,
      computeStarts exampleScaffolder IterationOrder.reversed exampleScaffoldEdges = some starts
      ∧ starts.Nodup
      ∧ (∀ s, s ∈ starts ↔ ((∃ e ∈ exampleScaffoldEdges, e.start = s)
          ∧ ∀ e ∈ exampleScaffoldEdges, e.finish ≠ s))
      ∧ (∀ s, s ∈ starts ↔ ((mapFind [(0, 1), (1, 2), (12, 11), (11, 10)] s).isSome = true
          ∧ mapFind [(0, 1), (1, 2), (12, 11), (11, 10)]
              (exampleScaffolder.getConjugateFromGraph s) = none))
      ∧ (∀ s n, 0 < n → followConnections [(0, 1), (1, 2), (12, 11), (11, 10)] n s = some s →
          s ∉ starts) :=
  starts_spec exampleScaffolder exampleScaffoldEdges [(0, 1), (1, 2), (12, 11), (11, 10)]
    IterationOrder.insertion
    exampleScaffolder_involution (by decide) (by decide) IterationOrder.reversed

theorem chainFrom_mem_dom (m : List (ScaffoldVertexId × ScaffoldVertexId)) :
    ∀ (n : Nat) (a u : ScaffoldVertexId), u ∈ chainFrom m n a →
      (mapFind m u).isSome = true := by
  intro n
  induction n with
  | zero => intro a u hu; simp [chainFrom] at hu
  | succ n ih =>
    intro a u hu
    unfold chainFrom at hu
    cases hv : mapFind m a with
    | none => rw [hv] at hu; simp at hu
    | some w =>
      rw [hv] at hu
      rcases List.mem_cons.1 hu with h | h
      · rw [h, hv]; rfl
      · exact ih w u h

theorem chainFrom_head_mem (m : List (ScaffoldVertexId × ScaffoldVertexId))
    (n : Nat) (a u : ScaffoldVertexId) (hu : u ∈ chainFrom m n a) : a ∈ chainFrom m n a := by
  cases n with
  | zero => simp [chainFrom] at hu
  | succ n =>
    unfold chainFrom at hu ⊢
    cases hv : mapFind m a with
    | none => rw [hv] at hu; simp at hu
    | some w => simp

theorem chainFrom_mem_pred (m : List (ScaffoldVertexId × ScaffoldVertexId)) :
    ∀ (n : Nat) (a u : ScaffoldVertexId), u ∈ chainFrom m n a →
      u = a ∨ ∃ p ∈ chainFrom m n a, mapFind m p = some u := by
  intro n
  induction n with
  | zero => intro a u hu; simp [chainFrom] at hu
  | succ n ih =>
    intro a u hu
    unfold chainFrom at hu ⊢
    cases hv : mapFind m a with
    | none => rw [hv] at hu; simp at hu
    | some w =>
      rw [hv] at hu
      simp only
      rcases List.mem_cons.1 hu with h | h
      · exact Or.inl h
      · right
        rcases ih w u h with h2 | ⟨p, hp, hpu⟩
        · exact ⟨a, List.mem_cons_self _ _, by rw [hv, h2]⟩
        · exact ⟨p, List.mem_cons_of_mem _ hp, hpu⟩

theorem chainFrom_nodup_or (m : List (ScaffoldVertexId × ScaffoldVertexId))
    (hinj : ∀ a b c, mapFind m a = some c → mapFind m b = some c → a = b) :
    ∀ (n : Nat) (v : ScaffoldVertexId),
      (chainFrom m n v).Nodup ∨ ∃ p ∈ chainFrom m n v, mapFind m p = some v := by
  intro n
  induction n with
  | zero => intro v; left; simp [chainFrom]
  | succ n ih =>
    intro v
    unfold chainFrom
    cases hv : mapFind m v with
    | none => left; simp
    | some w =>
      simp only
      have hrec : v ∈ chainFrom m n w →
          ∃ p ∈ v :: chainFrom m n w, mapFind m p = some v := by
        intro hmem
        rcases chainFrom_mem_pred m n w v hmem with h | ⟨p, hp, hpv⟩
        · exact ⟨v, List.mem_cons_self _ _, by rw [hv, h]⟩
        · exact ⟨p, List.mem_cons_of_mem _ hp, hpv⟩
      rcases ih w with hnd | ⟨p, hp, hpw⟩
      · by_cases hmem : v ∈ chainFrom m n w
        · exact Or.inr (hrec hmem)
        · exact Or.inl (List.nodup_cons.2 ⟨hmem, hnd⟩)
      · have hpv : p = v := hinj p v w hpw hv
        rw [hpv] at hp
        exact Or.inr (hrec hp)

theorem chainFrom_meet (m : List (ScaffoldVertexId × ScaffoldVertexId))
    (hinj : ∀ a b c, mapFind m a = some c → mapFind m b = some c → a = b) :
    ∀ (n : Nat) (a : ScaffoldVertexId) (k : Nat) (b u : ScaffoldVertexId),
      u ∈ chainFrom m n a → u ∈ chainFrom m k b →
      a ∈ chainFrom m k b ∨ b ∈ chainFrom m n a := by
  intro n
  induction n with
  | zero => intro a k b u hu; simp [chainFrom] at hu
  | succ n ih =>
    intro a k b u hu hub
    cases hv : mapFind m a with
    | none => simp [chainFrom, hv] at hu
    | some w =>
      have heq : chainFrom m (n + 1) a = a :: chainFrom m n w := by
        simp [chainFrom, hv]
      rw [heq] at hu ⊢
      rcases List.mem_cons.1 hu with h | h
      · left; rw [← h]; exact hub
      · rcases ih w k b u h hub with h2 | h2
        · rcases chainFrom_mem_pred m k b w h2 with h3 | ⟨p, hp, hpw⟩
          · right
            rw [← h3]
            exact List.mem_cons_of_mem _ (chainFrom_head_mem m n w u h)
          · left
            have hpa : p = a := hinj p a w hpw hv
            rw [← hpa]; exact hp
        · exact Or.inr (List.mem_cons_of_mem _ h2)

theorem chainFrom_nodup (m : List (ScaffoldVertexId × ScaffoldVertexId))
    (hinj : ∀ a b c, mapFind m a = some c → mapFind m b = some c → a = b)
    (n : Nat) (s : ScaffoldVertexId) (hnp : ∀ p, mapFind m p ≠ some s) :
    (chainFrom m n s).Nodup := by
  rcases chainFrom_nodup_or m hinj n s with h | ⟨p, _, hp⟩
  · exact h
  · exact absurd hp (hnp p)

theorem chainFrom_length_le (m : List (ScaffoldVertexId × ScaffoldVertexId))
    (hinj : ∀ a b c, mapFind m a = some c → mapFind m b = some c → a = b)
    (n : Nat) (s : ScaffoldVertexId) (hnp : ∀ p, mapFind m p ≠ some s) :
    (chainFrom m n s).length ≤ m.length := by
  have hsub : chainFrom m n s ⊆ m.map Prod.fst := by
    intro u hu
    exact (mapFind_isSome_iff m u).1 (chainFrom_mem_dom m n s u hu)
  have h := ((chainFrom_nodup m hinj n s hnp).subperm hsub).length_le
  simpa using h

theorem chainFrom_disjoint (m : List (ScaffoldVertexId × ScaffoldVertexId))
    (hinj : ∀ a b c, mapFind m a = some c → mapFind m b = some c → a = b)
    (n k : Nat) (s t : ScaffoldVertexId) (hs : ∀ p, mapFind m p ≠ some s)
    (ht : ∀ p, mapFind m p ≠ some t) (hne : s ≠ t) :
    ∀ u, u ∈ chainFrom m n s → u ∉ chainFrom m k t := by
  intro u hu hut
  rcases chainFrom_meet m hinj n s k t u hu hut with h | h
  · rcases chainFrom_mem_pred m k t s h with h2 | ⟨p, _, hp⟩
    · exact hne h2
    · exact hs p hp
  · rcases chainFrom_mem_pred m n s t h with h2 | ⟨p, _, hp⟩
    · exact hne h2.symm
    · exact ht p hp

theorem mem_nexts_iff (m : List (ScaffoldVertexId × ScaffoldVertexId))
    (n : Nat) (a w : ScaffoldVertexId) :
    w ∈ (chainFrom m n a).map (nextAt m) ↔ ∃ u ∈ chainFrom m n a, mapFind m u = some w := by
  rw [List.mem_map]
  constructor
  · rintro ⟨u, hu, huw⟩
    refine ⟨u, hu, ?_⟩
    have hd := chainFrom_mem_dom m n a u hu
    cases hv : mapFind m u with
    | none => rw [hv] at hd; cases hd
    | some w2 =>
      unfold nextAt at huw
      rw [hv] at huw
      simp only [Option.getD_some] at huw
      rw [huw]
  · rintro ⟨u, hu, huw⟩
    exact ⟨u, hu, by unfold nextAt; rw [huw]; rfl⟩

theorem nexts_nodup (m : List (ScaffoldVertexId × ScaffoldVertexId))
    (hinj : ∀ a b c, mapFind m a = some c → mapFind m b = some c → a = b)
    (n : Nat) (s : ScaffoldVertexId) (hnp : ∀ p, mapFind m p ≠ some s) :
    ((chainFrom m n s).map (nextAt m)).Nodup := by
  refine List.Nodup.map_on ?_ (chainFrom_nodup m hinj n s hnp)
  intro a ha b hb hab
  have hda := chainFrom_mem_dom m n s a ha
  have hdb := chainFrom_mem_dom m n s b hb
  unfold nextAt at hab
  cases hva : mapFind m a with
  | none => rw [hva] at hda; cases hda
  | some wa =>
    cases hvb : mapFind m b with
    | none => rw [hvb] at hdb; cases hdb
    | some wb =>
      rw [hva, hvb] at hab
      simp only [Option.getD_some] at hab
      rw [hab] at hva
      exact hinj a b wb hva hvb

theorem nexts_disjoint (m : List (ScaffoldVertexId × ScaffoldVertexId))
    (hinj : ∀ a b c, mapFind m a = some c → mapFind m b = some c → a = b)
    (n k : Nat) (s t : ScaffoldVertexId) (hs : ∀ p, mapFind m p ≠ some s)
    (ht : ∀ p, mapFind m p ≠ some t) (hne : s ≠ t) :
    ∀ w, w ∈ (chainFrom m n s).map (nextAt m) → w ∉ (chainFrom m k t).map (nextAt m) := by
  intro w hw hwt
  obtain ⟨u, hu, huw⟩ := (mem_nexts_iff m n s w).1 hw
  obtain ⟨u2, hu2, huw2⟩ := (mem_nexts_iff m k t w).1 hwt
  have h := hinj u u2 w huw huw2
  rw [← h] at hu2
  exact chainFrom_disjoint m hinj n k s t hs ht hne u hu hu2

theorem not_mem_nexts_of_no_pred (m : List (ScaffoldVertexId × ScaffoldVertexId))
    (n : Nat) (a s : ScaffoldVertexId) (hnp : ∀ p, mapFind m p ≠ some s) :
    s ∉ (chainFrom m n a).map (nextAt m) := by
  intro h
  obtain ⟨u, _, hu⟩ := (mem_nexts_iff m n a s).1 h
  exact hnp u hu

theorem flatMap_congr_mem {α β : Type} (l : List α) (f g : α → List β)
    (h : ∀ a ∈ l, f a = g a) : l.flatMap f = l.flatMap g := by
  induction l with
  | nil => rfl
  | cons a t ih =>
    rw [List.flatMap_cons, List.flatMap_cons, h a (List.mem_cons_self _ _),
      ih (fun b hb => h b (List.mem_cons_of_mem _ hb))]

theorem length_append (g : Graph) (a b : BidirectionalPath) :
    BidirectionalPath.Length g (a ++ b)
      = BidirectionalPath.Length g a + BidirectionalPath.Length g b := by
  unfold BidirectionalPath.Length
  rw [List.map_append, List.sum_append]

theorem length_gap_cons (g : Graph) (d : Int) (p : BidirectionalPath) :
    BidirectionalPath.Length g (PathItem.gap d :: p) = d + BidirectionalPath.Length g p := by
  unfold BidirectionalPath.Length
  rw [List.map_cons, List.sum_cons]

theorem totalLength_set_not_mem (g : Graph) (paths : PathStore) (v : ScaffoldVertexId)
    (p : BidirectionalPath) (vs : List ScaffoldVertexId) (hv : v ∉ vs) :
    totalLength g (paths.set v p) vs = totalLength g paths vs := by
  unfold totalLength
  refine congrArg List.sum (List.map_congr_left ?_)
  intro a ha
  have hne : a ≠ v := fun h => hv (h ▸ ha)
  simp [PathStore.set, hne]

theorem totalLength_set (g : Graph) (paths : PathStore) (v : ScaffoldVertexId)
    (p : BidirectionalPath) (vs : List ScaffoldVertexId) (hvs : vs.Nodup) (hv : v ∈ vs) :
    totalLength g (paths.set v p) vs + BidirectionalPath.Length g (paths v)
      = totalLength g paths vs + BidirectionalPath.Length g p := by
  induction vs with
  | nil => cases hv
  | cons a t ih =>
    rw [List.nodup_cons] at hvs
    have hcons : ∀ q : PathStore, totalLength g q (a :: t)
        = BidirectionalPath.Length g (q a) + totalLength g q t := by
      intro q
      unfold totalLength
      rw [List.map_cons, List.sum_cons]
    rw [hcons, hcons]
    by_cases hav : a = v
    · subst hav
      rw [totalLength_set_not_mem g paths a p t hvs.1]
      have h1 : (paths.set a p) a = p := by simp [PathStore.set]
      rw [h1]
      omega
    · have hvt : v ∈ t := by
        rcases List.mem_cons.1 hv with h | h
        · exact absurd h.symm hav
        · exact h
      have h1 : (paths.set v p) a = paths a := by simp [PathStore.set, hav]
      rw [h1]
      have h2 := ih hvs.2 hvt
      omega

theorem extendLoop_spec (m : List (ScaffoldVertexId × ScaffoldVertexId))
    (dist : List (ScaffoldVertexId × Nat)) (s : ScaffoldVertexId)
    (hdist : ∀ v, (mapFind m v).isSome = true → ∃ d, mapFind dist v = some d) :
    ∀ (n : Nat) (c : ScaffoldVertexId) (paths : PathStore),
      (chainFrom m n c).length < n →
      s ∉ (chainFrom m n c).map (nextAt m) →
      ((chainFrom m n c).map (nextAt m)).Nodup →
      ∃ paths2, extendLoop m dist s n c paths = some paths2
        ∧ paths2 s = paths s ++ (chainFrom m n c).flatMap
            (fun v => PathItem.gap (gapAt dist v) :: paths (nextAt m v))
        ∧ (∀ w ∈ (chainFrom m n c).map (nextAt m), paths2 w = [])
        ∧ (∀ u, u ≠ s → u ∉ (chainFrom m n c).map (nextAt m) → paths2 u = paths u)
        ∧ (∀ (g : Graph) (vs : List ScaffoldVertexId), vs.Nodup → s ∈ vs →
            (∀ w ∈ (chainFrom m n c).map (nextAt m), w ∈ vs) →
            totalLength g paths2 vs
              = totalLength g paths vs + ((chainFrom m n c).map (gapAt dist)).sum) := by
  intro n
  induction n with
  | zero => intro c paths h; simp at h
  | succ n ih =>
    intro c paths hlen hs hnd
    cases hv : mapFind m c with
    | none =>
      have heq : chainFrom m (n + 1) c = [] := by simp [chainFrom, hv]
      rw [heq]
      refine ⟨paths, by simp [extendLoop, hv], by simp, ?_, fun u _ _ => rfl, ?_⟩
      · intro w hw; simp at hw
      · intro g vs _ _ _; simp
    | some w =>
      have heq : chainFrom m (n + 1) c = c :: chainFrom m n w := by simp [chainFrom, hv]
      obtain ⟨d, hd⟩ := hdist c (by rw [hv]; rfl)
      have hnext : nextAt m c = w := by unfold nextAt; rw [hv]; rfl
      have hgap : gapAt dist c = toInt32 d := by unfold gapAt; rw [hd]; rfl
      rw [heq] at hlen hs hnd ⊢
      rw [List.map_cons, hnext] at hs hnd
      rw [List.length_cons] at hlen
      rw [List.mem_cons, not_or] at hs
      rw [List.nodup_cons] at hnd
      have hsw : s ≠ w := hs.1
      have hrun : extendLoop m dist s (n + 1) c paths
          = extendLoop m dist s n w
            ((paths.set s ((paths s).PushBack (paths w) (toInt32 d))).set w
              (BidirectionalPath.Clear (paths w))) := by
        simp [extendLoop, hv, hd]
      obtain ⟨paths2, hrun2, f1, f2, f3, f4⟩ := ih w _ (by omega) hs.2 hnd.2
      have hp_s : ((paths.set s ((paths s).PushBack (paths w) (toInt32 d))).set w
          (BidirectionalPath.Clear (paths w))) s
            = paths s ++ PathItem.gap (toInt32 d) :: paths w := by
        simp [PathStore.set, hsw, BidirectionalPath.PushBack]
      have hp_w : ((paths.set s ((paths s).PushBack (paths w) (toInt32 d))).set w
          (BidirectionalPath.Clear (paths w))) w = [] := by
        simp [PathStore.set, BidirectionalPath.Clear]
      have hp_u : ∀ u, u ≠ s → u ≠ w →
          ((paths.set s ((paths s).PushBack (paths w) (toInt32 d))).set w
            (BidirectionalPath.Clear (paths w))) u = paths u := by
        intro u h1 h2
        simp [PathStore.set, h1, h2]
      refine ⟨paths2, by rw [hrun]; exact hrun2, ?_, ?_, ?_, ?_⟩
      · rw [f1, hp_s, List.flatMap_cons, hnext, hgap, List.append_assoc]
        refine congrArg (fun t => paths s ++ ((PathItem.gap (toInt32 d) :: paths w) ++ t)) ?_
        refine flatMap_congr_mem _ _ _ ?_
        intro v hv2
        have hmem : nextAt m v ∈ (chainFrom m n w).map (nextAt m) :=
          List.mem_map.2 ⟨v, hv2, rfl⟩
        rw [hp_u (nextAt m v) (fun h => hs.2 (h ▸ hmem)) (fun h => hnd.1 (h ▸ hmem))]
      · intro w0 hw0
        rw [List.map_cons, hnext] at hw0
        rcases List.mem_cons.1 hw0 with h | h
        · rw [h, f3 w (Ne.symm hsw) hnd.1, hp_w]
        · exact f2 w0 h
      · intro u hus hu
        rw [List.map_cons, hnext, List.mem_cons, not_or] at hu
        rw [f3 u hus hu.2, hp_u u hus hu.1]
      · intro g vs hvs hsvs hsub
        rw [List.map_cons, hnext] at hsub
        have hw_vs : w ∈ vs := hsub w (List.mem_cons_self _ _)
        rw [f4 g vs hvs hsvs (fun w0 hw0 => hsub w0 (List.mem_cons_of_mem _ hw0))]
        rw [List.map_cons, List.sum_cons, hgap]
        have t1 := totalLength_set g (paths.set s ((paths s).PushBack (paths w) (toInt32 d))) w
          (BidirectionalPath.Clear (paths w)) vs hvs hw_vs
        have t2 := totalLength_set g paths s ((paths s).PushBack (paths w) (toInt32 d)) vs
          hvs hsvs
        have e1 : (paths.set s ((paths s).PushBack (paths w) (toInt32 d))) w = paths w := by
          simp [PathStore.set, Ne.symm hsw]
        have e2 : BidirectionalPath.Length g (BidirectionalPath.Clear (paths w)) = 0 := by
          simp [BidirectionalPath.Clear, BidirectionalPath.Length]
        have e3 : BidirectionalPath.Length g ((paths s).PushBack (paths w) (toInt32 d))
            = BidirectionalPath.Length g (paths s) + (toInt32 d
              + BidirectionalPath.Length g (paths w)) := by
          unfold BidirectionalPath.PushBack
          rw [length_append, length_gap_cons]
        rw [e1, e2] at t1
        rw [e3] at t2
        omega

theorem extendPath_spec (m : List (ScaffoldVertexId × ScaffoldVertexId))
    (dist : List (ScaffoldVertexId × Nat))
    (hinj : ∀ a b c, mapFind m a = some c → mapFind m b = some c → a = b)
    (hdist : ∀ v, (mapFind m v).isSome = true → ∃ d, mapFind dist v = some d)
    (s : ScaffoldVertexId) (hnp : ∀ p, mapFind m p ≠ some s) (paths : PathStore) :
    ∃ paths2, ExtendPathAlongConnections m dist s paths = some paths2
      ∧ paths2 s = paths s ++ (chainFrom m (m.length + 1) s).flatMap
          (fun v => PathItem.gap (gapAt dist v) :: paths (nextAt m v))
      ∧ (∀ w ∈ (chainFrom m (m.length + 1) s).map (nextAt m), paths2 w = [])
      ∧ (∀ u, u ≠ s → u ∉ (chainFrom m (m.length + 1) s).map (nextAt m) → paths2 u = paths u)
      ∧ (∀ (g : Graph) (vs : List ScaffoldVertexId), vs.Nodup → s ∈ vs →
          (∀ w ∈ (chainFrom m (m.length + 1) s).map (nextAt m), w ∈ vs) →
          totalLength g paths2 vs = totalLength g paths vs
            + ((chainFrom m (m.length + 1) s).map (gapAt dist)).sum) :=
  extendLoop_spec m dist s hdist (m.length + 1) s paths
    (Nat.lt_succ_of_le (chainFrom_length_le m hinj _ s hnp))
    (not_mem_nexts_of_no_pred m _ s s hnp)
    (nexts_nodup m hinj _ s hnp)

theorem extendAll_frame (m : List (ScaffoldVertexId × ScaffoldVertexId))
    (dist : List (ScaffoldVertexId × Nat))
    (hinj : ∀ a b c, mapFind m a = some c → mapFind m b = some c → a = b)
    (hdist : ∀ v, (mapFind m v).isSome = true → ∃ d, mapFind dist v = some d) :
    ∀ (todo : List ScaffoldVertexId) (paths : PathStore),
      (∀ s ∈ todo, ∀ p, mapFind m p ≠ some s) →
      ∃ paths2, extendAll m dist todo paths = some paths2
        ∧ ∀ u, (∀ s ∈ todo, u ≠ s ∧ u ∉ (chainFrom m (m.length + 1) s).map (nextAt m)) →
            paths2 u = paths u := by
  intro todo
  induction todo with
  | nil => intro paths _; exact ⟨paths, rfl, fun _ _ => rfl⟩
  | cons s rest ih =>
    intro paths hnp
    have hnprest : ∀ t ∈ rest, ∀ p, mapFind m p ≠ some t :=
      fun t ht => hnp t (List.mem_cons_of_mem _ ht)
    unfold extendAll
    by_cases hE : (paths s).Empty = true
    · rw [if_pos hE]
      obtain ⟨paths2, hrun, hfr⟩ := ih paths hnprest
      exact ⟨paths2, hrun, fun u hu => hfr u (fun t ht => hu t (List.mem_cons_of_mem _ ht))⟩
    · rw [if_neg hE]
      obtain ⟨p1, hp1, _, _, f3, _⟩ :=
        extendPath_spec m dist hinj hdist s (hnp s (List.mem_cons_self _ _)) paths
      rw [hp1]
      obtain ⟨paths2, hrun, hfr⟩ := ih p1 hnprest
      refine ⟨paths2, hrun, ?_⟩
      intro u hu
      rw [hfr u (fun t ht => hu t (List.mem_cons_of_mem _ ht))]
      exact f3 u (hu s (List.mem_cons_self _ _)).1 (hu s (List.mem_cons_self _ _)).2

theorem extendAll_target (m : List (ScaffoldVertexId × ScaffoldVertexId))
    (dist : List (ScaffoldVertexId × Nat))
    (hinj : ∀ a b c, mapFind m a = some c → mapFind m b = some c → a = b)
    (hdist : ∀ v, (mapFind m v).isSome = true → ∃ d, mapFind dist v = some d)
    (v0 : ScaffoldVertexId) :
    ∀ (todo : List ScaffoldVertexId) (paths : PathStore),
      (∀ s ∈ todo, ∀ p, mapFind m p ≠ some s) → todo.Nodup → v0 ∈ todo → paths v0 ≠ [] →
      ∃ paths2, extendAll m dist todo paths = some paths2
        ∧ paths2 v0 = paths v0 ++ (chainFrom m (m.length + 1) v0).flatMap
            (fun v => PathItem.gap (gapAt dist v) :: paths (nextAt m v))
        ∧ ∀ w ∈ (chainFrom m (m.length + 1) v0).map (nextAt m), paths2 w = [] := by
  intro todo
  induction todo with
  | nil => intro paths _ _ h; cases h
  | cons s rest ih =>
    intro paths hnp hnd hv0 hne
    have hnprest : ∀ t ∈ rest, ∀ p, mapFind m p ≠ some t :=
      fun t ht => hnp t (List.mem_cons_of_mem _ ht)
    rw [List.nodup_cons] at hnd
    have hnp0 : ∀ p, mapFind m p ≠ some v0 := hnp v0 hv0
    have hnext_ne : ∀ w ∈ (chainFrom m (m.length + 1) v0).map (nextAt m),
        ∀ t, (∀ p, mapFind m p ≠ some t) → w ≠ t := by
      intro w hw t ht hwt
      obtain ⟨u, _, hu⟩ := (mem_nexts_iff m _ v0 w).1 hw
      exact ht u (hwt ▸ hu)
    unfold extendAll
    by_cases hsv : s = v0
    · subst hsv
      have hE : ¬ (paths s).Empty = true := by
        intro h
        exact hne (List.isEmpty_iff.1 h)
      rw [if_neg hE]
      obtain ⟨p1, hp1, f1, f2, _, _⟩ := extendPath_spec m dist hinj hdist s hnp0 paths
      rw [hp1]
      obtain ⟨paths2, hrun, hfr⟩ := extendAll_frame m dist hinj hdist rest p1 hnprest
      refine ⟨paths2, hrun, ?_, ?_⟩
      · rw [hfr s, f1]
        intro t ht
        exact ⟨fun h => hnd.1 (h ▸ ht), not_mem_nexts_of_no_pred m _ t s hnp0⟩
      · intro w hw
        rw [hfr w, f2 w hw]
        intro t ht
        have hts : s ≠ t := fun h => hnd.1 (h ▸ ht)
        exact ⟨hnext_ne w hw t (hnprest t ht),
          nexts_disjoint m hinj _ _ s t hnp0 (hnprest t ht) hts w hw⟩
    · have hv0rest : v0 ∈ rest := by
        rcases List.mem_cons.1 hv0 with h | h
        · exact absurd h.symm hsv
        · exact h
      by_cases hE : (paths s).Empty = true
      · rw [if_pos hE]
        exact ih paths hnprest hnd.2 hv0rest hne
      · rw [if_neg hE]
        have hnps := hnp s (List.mem_cons_self _ _)
        obtain ⟨p1, hp1, _, _, f3, _⟩ := extendPath_spec m dist hinj hdist s hnps paths
        rw [hp1]
        have h0 : p1 v0 = paths v0 :=
          f3 v0 (Ne.symm hsv) (not_mem_nexts_of_no_pred m _ s v0 hnp0)
        have hw : ∀ w ∈ (chainFrom m (m.length + 1) v0).map (nextAt m), p1 w = paths w := by
          intro w hw
          refine f3 w (hnext_ne w hw s hnps) ?_
          intro hws
          exact nexts_disjoint m hinj _ _ v0 s hnp0 hnps (Ne.symm hsv) w hw hws
        obtain ⟨paths2, hrun, g1, g2⟩ := ih p1 hnprest hnd.2 hv0rest (by rw [h0]; exact hne)
        refine ⟨paths2, hrun, ?_, g2⟩
        rw [g1, h0]
        refine congrArg (fun t => paths v0 ++ t) (flatMap_congr_mem _ _ _ ?_)
        intro v hv
        rw [hw (nextAt m v) (List.mem_map.2 ⟨v, hv, rfl⟩)]

theorem extendAll_total (m : List (ScaffoldVertexId × ScaffoldVertexId))
    (dist : List (ScaffoldVertexId × Nat))
    (hinj : ∀ a b c, mapFind m a = some c → mapFind m b = some c → a = b)
    (hdist : ∀ v, (mapFind m v).isSome = true → ∃ d, mapFind dist v = some d)
    (g : Graph) (vs : List ScaffoldVertexId) (hvs : vs.Nodup) :
    ∀ (todo : List ScaffoldVertexId) (paths : PathStore),
      (∀ s ∈ todo, ∀ p, mapFind m p ≠ some s) →
      (∀ s ∈ todo, paths s ≠ []) →
      (∀ s ∈ todo, s ∈ vs ∧ ∀ w ∈ (chainFrom m (m.length + 1) s).map (nextAt m), w ∈ vs) →
      ∃ paths2, extendAll m dist todo paths = some paths2
        ∧ totalLength g paths2 vs = totalLength g paths vs
          + ((todo.flatMap (chainFrom m (m.length + 1))).map (gapAt dist)).sum := by
  intro todo
  induction todo with
  | nil => intro paths _ _ _; exact ⟨paths, rfl, by simp⟩
  | cons s rest ih =>
    intro paths hnp hne hin
    have hnprest : ∀ t ∈ rest, ∀ p, mapFind m p ≠ some t :=
      fun t ht => hnp t (List.mem_cons_of_mem _ ht)
    have hnps := hnp s (List.mem_cons_self _ _)
    have hnes := hne s (List.mem_cons_self _ _)
    unfold extendAll
    have hE : ¬ (paths s).Empty = true := fun h => hnes (List.isEmpty_iff.1 h)
    rw [if_neg hE]
    obtain ⟨p1, hp1, f1, _, f3, f4⟩ := extendPath_spec m dist hinj hdist s hnps paths
    rw [hp1]
    have hne1 : ∀ t ∈ rest, p1 t ≠ [] := by
      intro t ht
      by_cases hts : t = s
      · rw [hts, f1]
        intro h
        exact hnes (List.append_eq_nil.1 h).1
      · rw [f3 t hts (not_mem_nexts_of_no_pred m _ s t (hnprest t ht))]
        exact hne t (List.mem_cons_of_mem _ ht)
    obtain ⟨paths2, hrun, htot⟩ :=
      ih p1 hnprest hne1 (fun t ht => hin t (List.mem_cons_of_mem _ ht))
    refine ⟨paths2, hrun, ?_⟩
    rw [htot, f4 g vs hvs (hin s (List.mem_cons_self _ _)).1 (hin s (List.mem_cons_self _ _)).2,
      List.flatMap_cons, List.map_append, List.sum_append]
    omega

theorem buildDistances_of_nodup (edges : List ScaffoldEdge)
    (acc : List (ScaffoldVertexId × Nat))
    (hnd : (edges.map (fun e => e.start)).Nodup)
    (hall : ∀ e ∈ edges, mapFind acc e.start = none) :
    buildDistances edges acc = acc ++ edges.map (fun e => (e.start, e.length)) := by
  induction edges generalizing acc with
  | nil => simp [buildDistances]
  | cons e rest ih =>
    simp only [List.map_cons, List.nodup_cons, List.mem_map, not_exists, not_and] at hnd
    unfold buildDistances
    have hnone := hall e (List.mem_cons_self _ _)
    rw [hnone]
    simp only [Option.isSome_none, Bool.false_eq_true, if_false]
    rw [ih _ hnd.2]
    · simp
    · intro e2 he2
      rw [mapFind_append, hall e2 (List.mem_cons_of_mem _ he2)]
      have hne : ¬ e.start = e2.start := fun heq => hnd.1 e2 he2 heq.symm
      simp [mapFind, hne]

theorem merge_lookup (edges : List ScaffoldEdge)
    (hnd : (edges.map (fun e => e.start)).Nodup) (e : ScaffoldEdge) (he : e ∈ edges) :
    mapFind (edges.map (fun e => (e.start, e.finish))) e.start = some e.finish
      ∧ mapFind (buildDistances edges []) e.start = some e.length := by
  constructor
  · refine mapFind_of_mem_of_nodup _ _ _ ?_ (List.mem_map.2 ⟨e, he, rfl⟩)
    rw [List.map_map]
    exact hnd
  · rw [buildDistances_of_nodup edges [] hnd (fun _ _ => rfl), List.nil_append]
    refine mapFind_of_mem_of_nodup _ _ _ ?_ (List.mem_map.2 ⟨e, he, rfl⟩)
    rw [List.map_map]
    exact hnd

theorem merge_dom (edges : List ScaffoldEdge) (v : ScaffoldVertexId) :
    (mapFind (edges.map (fun e => (e.start, e.finish))) v).isSome = true
      ↔ ∃ e ∈ edges, e.start = v := by
  rw [mapFind_isSome_iff, List.map_map, List.mem_map]
  rfl

theorem maximal_mem (edges : List ScaffoldEdge) :
    ∀ (chain : List ScaffoldEdge) (v : ScaffoldVertexId), IsMaximalChain edges v chain →
      ∀ e ∈ chain, e ∈ edges := by
  intro chain
  induction chain with
  | nil => intro v _ e he; cases he
  | cons a rest ih =>
    intro v h e he
    obtain ⟨h1, _, h3⟩ := h
    rcases List.mem_cons.1 he with h4 | h4
    · rw [h4]; exact h1
    · exact ih a.finish h3 e h4

theorem chainFrom_of_maximal (edges : List ScaffoldEdge)
    (hnd : (edges.map (fun e => e.start)).Nodup) :
    ∀ (chain : List ScaffoldEdge) (v : ScaffoldVertexId) (n : Nat),
      IsMaximalChain edges v chain → chain.length < n →
      chainFrom (edges.map (fun e => (e.start, e.finish))) n v
        = chain.map (fun e => e.start) := by
  intro chain
  induction chain with
  | nil =>
    intro v n h hn
    obtain ⟨k, rfl⟩ : ∃ k, n = k + 1 := ⟨n - 1, by simp at hn; omega⟩
    have hnone : mapFind (edges.map (fun e => (e.start, e.finish))) v = none := by
      cases hv : mapFind (edges.map (fun e => (e.start, e.finish))) v with
      | none => rfl
      | some w =>
        exfalso
        obtain ⟨e, he, hev⟩ := (merge_dom edges v).1 (by rw [hv]; rfl)
        exact h e he hev
    simp [chainFrom, hnone]
  | cons a rest ih =>
    intro v n h hn
    obtain ⟨h1, h2, h3⟩ := h
    obtain ⟨k, rfl⟩ : ∃ k, n = k + 1 := ⟨n - 1, by simp at hn; omega⟩
    have hfind := (merge_lookup edges hnd a h1).1
    rw [h2] at hfind
    have hk : rest.length < k := by simp at hn; omega
    simp only [chainFrom, hfind, List.map_cons, ih a.finish k h3 hk, h2]

theorem merge_run (x : PathScaffolder) (ord : IterationOrder)
    (scaffold_edges : List ScaffoldEdge) (paths : PathStore)
    (m : List (ScaffoldVertexId × ScaffoldVertexId))
    (hconj : ∀ v, x.getConjugateFromGraph (x.getConjugateFromGraph v) = v)
    (h1 : buildConnections scaffold_edges [] = some m)
    (h2 : checkSymmetry x m (ord.connections m) = true) :
    (∀ a b c, mapFind m a = some c → mapFind m b = some c → a = b)
    ∧ ∃ starts, starts.Nodup
      ∧ (∀ s, s ∈ starts ↔ ((mapFind m s).isSome = true ∧ ∀ p, mapFind m p ≠ some s))
      ∧ MergeUnivocalEdges x ord scaffold_edges paths
        = (match extendAll m (buildDistances scaffold_edges []) (ord.starts starts) paths with
          | none => MergeOutcome.notFinished
          | some paths2 => MergeOutcome.done paths2) := by
  have hsym : ∀ c ∈ m, mapFind m (x.getConjugateFromGraph c.2)
      = some (x.getConjugateFromGraph c.1) :=
    fun c hc => (checkSymmetry_eq_true_iff x m _).1 h2 c ((ord.connections_perm m).mem_iff.2 hc)
  obtain ⟨starts, used, hloop, _, hnd, hchar⟩ :=
    computeStarts_spec x scaffold_edges m ord hconj h1 hsym
  refine ⟨symmetric_inj _ m hconj hsym, starts, hnd, ?_, ?_⟩
  · intro s
    rw [hchar s, no_pred_iff _ m hconj hsym s]
    constructor
    · rintro ⟨ha, hb⟩
      exact ⟨ha, fun p hp => hb (p, s) (mapFind_eq_some_mem _ _ _ hp) rfl⟩
    · rintro ⟨ha, hb⟩
      refine ⟨ha, ?_⟩
      intro c hc hcs
      have hndk := ((buildConnections_eq_some_iff scaffold_edges m).1 h1)
      have hkeys : (m.map Prod.fst).Nodup := by
        rw [hndk.1, List.map_map]
        exact hndk.2
      have := mapFind_of_mem_of_nodup m c.1 c.2 hkeys hc
      rw [hcs] at this
      exact hb c.1 this
  · unfold MergeUnivocalEdges
    rw [h1]
    simp only [h2, if_true, hloop]

/-- C23 (as amended): for an input that passes the checks of the first two loops
(conj an involution), and a chain `v0 -> v1 -> ... -> vk` of the edges whose first
vertex has no predecessor and a non-empty path and whose last vertex has no
successor, `MergeUnivocalEdges` returns, the path of `v0` is then its original
content followed by, for each edge of the chain in order, the gap
`static_cast<int>(length)` and the original path of the end of the edge, and the
paths of `v1, ..., vk` are empty. -/
theorem merge_chain_spec (x : PathScaffolder) (ord : IterationOrder)
    (scaffold_edges : List ScaffoldEdge) (paths : PathStore)
    (m : List (ScaffoldVertexId × ScaffoldVertexId))
    (v0 : ScaffoldVertexId) (chain : List ScaffoldEdge)
    (hconj : ∀ v, x.getConjugateFromGraph (x.getConjugateFromGraph v) = v)
    (h1 : buildConnections scaffold_edges [] = some m)
    (h2 : checkSymmetry x m (ord.connections m) = true)
    (hnopred : ∀ e ∈ scaffold_edges, e.finish ≠ v0)
    (hne : paths v0 ≠ [])
    (hchain : IsMaximalChain scaffold_edges v0 chain) :
    ∃ paths2, MergeUnivocalEdges x ord scaffold_edges paths = MergeOutcome.done paths2
      ∧ paths2 v0 = paths v0 ++ chain.flatMap
          (fun e => PathItem.gap (toInt32 e.length) :: paths e.finish)
      ∧ ∀ e ∈ chain, paths2 e.finish = [] := by
  obtain ⟨hinj, starts, hnd, hchar, hrun⟩ := merge_run x ord scaffold_edges paths m hconj h1 h2
  obtain ⟨hm, hndk⟩ := (buildConnections_eq_some_iff scaffold_edges m).1 h1
  have hdist : ∀ v, (mapFind m v).isSome = true →
      ∃ d, mapFind (buildDistances scaffold_edges []) v = some d := by
    intro v hv
    rw [hm] at hv
    obtain ⟨e, he, hev⟩ := (merge_dom scaffold_edges v).1 hv
    exact ⟨e.length, hev ▸ (merge_lookup scaffold_edges hndk e he).2⟩
  have hnp0 : ∀ p, mapFind m p ≠ some v0 := by
    intro p hp
    have hmem := mapFind_eq_some_mem _ _ _ hp
    rw [hm] at hmem
    obtain ⟨e, he, heq⟩ := List.mem_map.1 hmem
    simp only [Prod.mk.injEq] at heq
    exact hnopred e he heq.2
  have hnptodo : ∀ s ∈ ord.starts starts, ∀ p, mapFind m p ≠ some s :=
    fun s hs => ((hchar s).1 ((ord.starts_perm starts).mem_iff.1 hs)).2
  have hlen : chain.length < m.length + 1 := by
    have hc := chainFrom_of_maximal scaffold_edges hndk chain v0 (chain.length + 1) hchain
      (Nat.lt_succ_self _)
    have hle := chainFrom_length_le m hinj (chain.length + 1) v0 hnp0
    rw [hm] at hle
    rw [hc] at hle
    rw [hm]
    simpa using Nat.lt_succ_of_le hle
  have hL : chainFrom m (m.length + 1) v0 = chain.map (fun e => e.start) := by
    have := chainFrom_of_maximal scaffold_edges hndk chain v0 (m.length + 1) hchain hlen
    rw [hm]
    rw [hm] at this
    exact this
  have hmemE := maximal_mem scaffold_edges chain v0 hchain
  rw [hrun]
  cases chain with
  | nil =>
    obtain ⟨paths2, hex, hfr⟩ :=
      extendAll_frame m (buildDistances scaffold_edges []) hinj hdist (ord.starts starts) paths
        hnptodo
    rw [hex]
    refine ⟨paths2, rfl, ?_, fun e he => by cases he⟩
    rw [List.flatMap_nil, List.append_nil]
    refine hfr v0 ?_
    intro s hs
    refine ⟨?_, not_mem_nexts_of_no_pred m _ s v0 hnp0⟩
    intro hv
    have hsd := ((hchar s).1 ((ord.starts_perm starts).mem_iff.1 hs)).1
    rw [← hv, hm] at hsd
    obtain ⟨e, he, hev⟩ := (merge_dom scaffold_edges v0).1 hsd
    exact hchain e he hev
  | cons a rest =>
    have ha : a ∈ scaffold_edges := hchain.1
    have hav : a.start = v0 := hchain.2.1
    have hv0 : v0 ∈ ord.starts starts := by
      refine (ord.starts_perm starts).mem_iff.2 ((hchar v0).2 ⟨?_, hnp0⟩)
      rw [hm]
      exact (merge_dom scaffold_edges v0).2 ⟨a, ha, hav⟩
    obtain ⟨paths2, hex, g1, g2⟩ :=
      extendAll_target m (buildDistances scaffold_edges []) hinj hdist v0 (ord.starts starts)
        paths hnptodo ((ord.starts_perm starts).nodup_iff.2 hnd) hv0 hne
    rw [hex]
    have hlook : ∀ e ∈ a :: rest, nextAt m e.start = e.finish
        ∧ gapAt (buildDistances scaffold_edges []) e.start = toInt32 e.length := by
      intro e he
      have hl := merge_lookup scaffold_edges hndk e (hmemE e he)
      rw [← hm] at hl
      unfold nextAt gapAt
      rw [hl.1, hl.2]
      exact ⟨rfl, rfl⟩
    refine ⟨paths2, rfl, ?_, ?_⟩
    · rw [g1, hL, List.flatMap_map]
      refine congrArg (fun t => paths v0 ++ t) (flatMap_congr_mem _ _ _ ?_)
      intro e he
      rw [(hlook e he).1, (hlook e he).2]
    · intro e he
      refine g2 e.finish ?_
      rw [hL, List.map_map]
      exact List.mem_map.2 ⟨e, he, (hlook e he).1⟩

/-- The starts of the merge scenario are A and conj(C), in either iteration
order. -/
theorem merge_scenario_starts :
    computeStarts exampleScaffolder IterationOrder.insertion exampleScaffoldEdges = some [0, 12]
    ∧ computeStarts exampleScaffolder IterationOrder.reversed exampleScaffoldEdges
      = some [12, 0] := by
  refine ⟨by decide, by decide⟩

/-- Witness for C23 (as amended): in the merge scenario the chain A -> B -> C
starts at A, which has no predecessor and a non-empty path. -/
theorem merge_chain_spec_witness :
    ∃ paths2, MergeUnivocalEdges exampleScaffolder IterationOrder.insertion
        exampleScaffoldEdges examplePaths = MergeOutcome.done paths2
      ∧ paths2 0 = examplePaths 0 ++ ([⟨0, 1, 10⟩, ⟨1, 2, 20⟩] : List ScaffoldEdge).flatMap
          (fun e => PathItem.gap (toInt32 e.length) :: examplePaths e.finish)
      ∧ ∀ e ∈ ([⟨0, 1, 10⟩, ⟨1, 2, 20⟩] : List ScaffoldEdge), paths2 e.finish = [] :=
  merge_chain_spec exampleScaffolder IterationOrder.insertion exampleScaffoldEdges examplePaths
    [(0, 1), (1, 2), (12, 11), (11, 10)] 0 [⟨0, 1, 10⟩, ⟨1, 2, 20⟩]
    exampleScaffolder_involution (by decide) (by decide) (by decide)
    (by simp [examplePaths]) (by simp [IsMaximalChain, exampleScaffoldEdges])

/-- The merge scenario, run: A holds A, B, C joined with the gaps 10 and 20,
conj(C) holds conj(C), conj(B), conj(A), and the other four paths are empty. -/
theorem merge_scenario_paths :
    (MergeUnivocalEdges exampleScaffolder IterationOrder.insertion exampleScaffoldEdges
      examplePaths).pathsAt [0, 1, 2, 10, 11, 12]
    = some [[PathItem.edge 0, PathItem.gap 10, PathItem.edge 1, PathItem.gap 20,
          PathItem.edge 2],
        [], [], [], [],
        [PathItem.edge 12, PathItem.gap 10, PathItem.edge 11, PathItem.gap 20,
          PathItem.edge 10]] := by
  decide

/-- Counterexample to C23 as stated: the edges A -> B and conj(B) -> conj(A) of
length 2^31 pass both checks, A has no predecessor and a non-empty path, and the
merge joins B to A with the gap -2^31, the value of `static_cast<int>` on the
length, not with the gap D(A) = 2^31. -/
theorem merge_chain_gap_is_cast :
    computeStarts exampleScaffolder IterationOrder.insertion
        [⟨0, 1, 2147483648⟩, ⟨11, 10, 2147483648⟩] = some [0, 11]
    ∧ examplePaths 0 ≠ []
    ∧ (MergeUnivocalEdges exampleScaffolder IterationOrder.insertion
        [⟨0, 1, 2147483648⟩, ⟨11, 10, 2147483648⟩] examplePaths).pathsAt [0, 1]
      = some [[PathItem.edge 0, PathItem.gap (-2147483648), PathItem.edge 1], []]
    ∧ (MergeUnivocalEdges exampleScaffolder IterationOrder.insertion
        [⟨0, 1, 2147483648⟩, ⟨11, 10, 2147483648⟩] examplePaths).pathsAt [0, 1]
      ≠ some [[PathItem.edge 0, PathItem.gap 2147483648, PathItem.edge 1], []] := by
  refine ⟨by decide, by simp [examplePaths], by decide, by decide⟩

/-- C24 (as amended): for an input that passes the checks of the first two loops
(conj an involution), in which every edge lies on a chain of the edges whose first
vertex has no predecessor and a non-empty path and whose last vertex has no
successor, `MergeUnivocalEdges` returns, and over every list of distinct vertices
that contains the vertices of the edges the sum of the path lengths afterwards is
the sum before plus the sum of the gaps `static_cast<int>(length)` of the edges. -/
theorem merge_total_length (x : PathScaffolder) (ord : IterationOrder)
    (scaffold_edges : List ScaffoldEdge) (paths : PathStore)
    (m : List (ScaffoldVertexId × ScaffoldVertexId)) (vs : List ScaffoldVertexId)
    (hconj : ∀ v, x.getConjugateFromGraph (x.getConjugateFromGraph v) = v)
    (h1 : buildConnections scaffold_edges [] = some m)
    (h2 : checkSymmetry x m (ord.connections m) = true)
    (hvs : vs.Nodup)
    (hin : ∀ e ∈ scaffold_edges, e.start ∈ vs ∧ e.finish ∈ vs)
    (hcover : ∀ e ∈ scaffold_edges, ∃ v0 chain, (∀ e2 ∈ scaffold_edges, e2.finish ≠ v0)
      ∧ paths v0 ≠ [] ∧ IsMaximalChain scaffold_edges v0 chain ∧ e ∈ chain) :
    ∃ paths2, MergeUnivocalEdges x ord scaffold_edges paths = MergeOutcome.done paths2
      ∧ totalLength x.g paths2 vs
        = totalLength x.g paths vs + (scaffold_edges.map (fun e => toInt32 e.length)).sum := by
  obtain ⟨hinj, starts, hnd, hchar, hrun⟩ := merge_run x ord scaffold_edges paths m hconj h1 h2
  obtain ⟨hm, hndk⟩ := (buildConnections_eq_some_iff scaffold_edges m).1 h1
  have hdist : ∀ v, (mapFind m v).isSome = true →
      ∃ d, mapFind (buildDistances scaffold_edges []) v = some d := by
    intro v hv
    rw [hm] at hv
    obtain ⟨e, he, hev⟩ := (merge_dom scaffold_edges v).1 hv
    exact ⟨e.length, hev ▸ (merge_lookup scaffold_edges hndk e he).2⟩
  have hnptodo : ∀ s ∈ ord.starts starts, ∀ p, mapFind m p ≠ some s :=
    fun s hs => ((hchar s).1 ((ord.starts_perm starts).mem_iff.1 hs)).2
  -- every edge start lies on the chain of a vertex without predecessor
  have hroot : ∀ e ∈ scaffold_edges, ∃ v0, (∀ p, mapFind m p ≠ some v0) ∧ paths v0 ≠ []
      ∧ (mapFind m v0).isSome = true ∧ e.start ∈ chainFrom m (m.length + 1) v0 := by
    intro e he
    obtain ⟨v0, chain, hnopred, hne, hchain, hec⟩ := hcover e he
    have hnp0 : ∀ p, mapFind m p ≠ some v0 := by
      intro p hp
      have hmem := mapFind_eq_some_mem _ _ _ hp
      rw [hm] at hmem
      obtain ⟨e2, he2, heq⟩ := List.mem_map.1 hmem
      simp only [Prod.mk.injEq] at heq
      exact hnopred e2 he2 heq.2
    have hlen : chain.length < m.length + 1 := by
      have hc := chainFrom_of_maximal scaffold_edges hndk chain v0 (chain.length + 1) hchain
        (Nat.lt_succ_self _)
      have hle := chainFrom_length_le m hinj (chain.length + 1) v0 hnp0
      rw [hm] at hle
      rw [hc] at hle
      rw [hm]
      simpa using Nat.lt_succ_of_le hle
    have hL : chainFrom m (m.length + 1) v0 = chain.map (fun e => e.start) := by
      have := chainFrom_of_maximal scaffold_edges hndk chain v0 (m.length + 1) hchain hlen
      rw [hm]
      rw [hm] at this
      exact this
    have hmemL : e.start ∈ chainFrom m (m.length + 1) v0 := by
      rw [hL]; exact List.mem_map.2 ⟨e, hec, rfl⟩
    exact ⟨v0, hnp0, hne, chainFrom_mem_dom m _ v0 v0 (chainFrom_head_mem m _ v0 _ hmemL),
      hmemL⟩
  have hnetodo : ∀ s ∈ ord.starts starts, paths s ≠ [] := by
    intro s hs
    have hsc := (hchar s).1 ((ord.starts_perm starts).mem_iff.1 hs)
    have hsd := hsc.1
    rw [hm] at hsd
    obtain ⟨e, he, hev⟩ := (merge_dom scaffold_edges s).1 hsd
    obtain ⟨v0, _, hne, _, hmemL⟩ := hroot e he
    rw [hev] at hmemL
    rcases chainFrom_mem_pred m _ v0 s hmemL with h | ⟨p, _, hp⟩
    · rw [h]; exact hne
    · exact absurd hp (hsc.2 p)
  have hintodo : ∀ s ∈ ord.starts starts,
      s ∈ vs ∧ ∀ w ∈ (chainFrom m (m.length + 1) s).map (nextAt m), w ∈ vs := by
    intro s hs
    constructor
    · have hsd := ((hchar s).1 ((ord.starts_perm starts).mem_iff.1 hs)).1
      rw [hm] at hsd
      obtain ⟨e, he, hev⟩ := (merge_dom scaffold_edges s).1 hsd
      exact hev ▸ (hin e he).1
    · intro w hw
      obtain ⟨u, _, hu⟩ := (mem_nexts_iff m _ s w).1 hw
      have hmem := mapFind_eq_some_mem _ _ _ hu
      rw [hm] at hmem
      obtain ⟨e, he, heq⟩ := List.mem_map.1 hmem
      simp only [Prod.mk.injEq] at heq
      exact heq.2 ▸ (hin e he).2
  obtain ⟨paths2, hex, htot⟩ :=
    extendAll_total m (buildDistances scaffold_edges []) hinj hdist x.g vs hvs
      (ord.starts starts) paths hnptodo hnetodo hintodo
  rw [hrun, hex]
  refine ⟨paths2, rfl, ?_⟩
  rw [htot]
  refine congrArg (fun t => totalLength x.g paths vs + t) ?_
  have hperm : ((ord.starts starts).flatMap (chainFrom m (m.length + 1))).Perm
      (scaffold_edges.map (fun e => e.start)) := by
    rw [List.perm_ext_iff_of_nodup _ hndk]
    · intro v
      rw [List.mem_flatMap]
      constructor
      · rintro ⟨s, _, hv⟩
        have hd := chainFrom_mem_dom m _ s v hv
        rw [hm] at hd
        obtain ⟨e, he, hev⟩ := (merge_dom scaffold_edges v).1 hd
        exact List.mem_map.2 ⟨e, he, hev⟩
      · intro hv
        obtain ⟨e, he, hev⟩ := List.mem_map.1 hv
        obtain ⟨v0, hnp0, _, hd0, hmemL⟩ := hroot e he
        refine ⟨v0, (ord.starts_perm starts).mem_iff.2 ((hchar v0).2 ⟨hd0, hnp0⟩), ?_⟩
        rw [← hev]; exact hmemL
    · rw [List.nodup_flatMap]
      refine ⟨fun s hs => chainFrom_nodup m hinj _ s (hnptodo s hs), ?_⟩
      refine List.Pairwise.imp_of_mem ?_ ((ord.starts_perm starts).nodup_iff.2 hnd)
      intro a b ha hb hab
      intro u hua hub
      exact chainFrom_disjoint m hinj _ _ a b (hnptodo a ha) (hnptodo b hb) hab u hua hub
  rw [(hperm.map (gapAt (buildDistances scaffold_edges []))).sum_eq, List.map_map]
  refine congrArg List.sum (List.map_congr_left ?_)
  intro e he
  simp only [Function.comp_apply]
  unfold gapAt
  rw [(merge_lookup scaffold_edges hndk e he).2]
  rfl

/-- Witness for C24 (as amended): in the merge scenario every edge lies on the
chain from A or on the chain from conj(C). -/
theorem merge_total_length_witness :
    ∃ paths2, MergeUnivocalEdges exampleScaffolder IterationOrder.insertion
        exampleScaffoldEdges examplePaths = MergeOutcome.done paths2
      ∧ totalLength exampleScaffolder.g paths2 [0, 1, 2, 10, 11, 12]
        = totalLength exampleScaffolder.g examplePaths [0, 1, 2, 10, 11, 12]
          + (exampleScaffoldEdges.map (fun e => toInt32 e.length)).sum :=
  merge_total_length exampleScaffolder IterationOrder.insertion exampleScaffoldEdges
    examplePaths [(0, 1), (1, 2), (12, 11), (11, 10)] [0, 1, 2, 10, 11, 12]
    exampleScaffolder_involution (by decide) (by decide) (by decide) (by decide)
    (by
      intro e he
      simp only [exampleScaffoldEdges, List.mem_cons, List.mem_singleton, List.not_mem_nil,
        or_false] at he
      rcases he with h | h | h | h
      · exact ⟨0, [⟨0, 1, 10⟩, ⟨1, 2, 20⟩], by decide, by simp [examplePaths],
          by simp [IsMaximalChain, exampleScaffoldEdges], by simp [h]⟩
      · exact ⟨0, [⟨0, 1, 10⟩, ⟨1, 2, 20⟩], by decide, by simp [examplePaths],
          by simp [IsMaximalChain, exampleScaffoldEdges], by simp [h]⟩
      · exact ⟨12, [⟨12, 11, 10⟩, ⟨11, 10, 20⟩], by decide, by simp [examplePaths],
          by simp [IsMaximalChain, exampleScaffoldEdges], by simp [h]⟩
      · exact ⟨12, [⟨12, 11, 10⟩, ⟨11, 10, 20⟩], by decide, by simp [examplePaths],
          by simp [IsMaximalChain, exampleScaffoldEdges], by simp [h]⟩)

/-- Counterexample to C24 as stated: the merge scenario, which passes both checks,
with the paths of A and conj(A) empty and every other path of length 100.  The
start A is skipped, only the chain from conj(C) is merged, and the sum of the path
lengths goes from 400 to 430, while the gaps of the four edges add up to 60. -/
theorem merge_total_length_skips_empty_start :
    computeStarts exampleScaffolder IterationOrder.insertion exampleScaffoldEdges
      = some [0, 12]
    ∧ totalLength exampleScaffolder.g exampleEmptyStartPaths [0, 1, 2, 10, 11, 12] = 400
    ∧ (exampleScaffoldEdges.map (fun e => (e.length : Int))).sum = 60
    ∧ (MergeUnivocalEdges exampleScaffolder IterationOrder.insertion exampleScaffoldEdges
        exampleEmptyStartPaths).totalLength exampleScaffolder.g [0, 1, 2, 10, 11, 12]
      = some 430 := by
  refine ⟨by decide, by decide, by decide, by decide⟩

end path_extend

/-! # Filtering twice, and edges beyond the tail threshold -/

namespace barcode_index

/-- The subtraction `a - b` of two values of `size_t`. -/
def sizeSub (a b : Nat) : Nat := (a + SIZE_MOD - b % SIZE_MOD) % SIZE_MOD

/-- The iterations of the first loop of `ExtractEntryInner(shared_ptr<PathVertex>)`
that reach the statement `size_t current_tail = tail_threshold_ - current_prefix`,
in order, from the edge at the head of the list on: the edge and the value of
`current_prefix` at that statement. -/
def SimpleScaffoldVertexEntryExtractor.pathQueries (x : SimpleScaffoldVertexEntryExtractor) :
    List EdgeId → Nat → List (EdgeId × Nat)
  | [], _ => []
  | current_edge :: rest, current_prefix_len =>
    if current_prefix_len ≤ x.tail_threshold_ then
      if x.g_.length current_edge < x.length_threshold_ then
        pathQueries x rest ((current_prefix_len + x.g_.length current_edge) % SIZE_MOD)
      else
        (current_edge, current_prefix_len)
          :: pathQueries x rest ((current_prefix_len + x.g_.length current_edge) % SIZE_MOD)
    else []

theorem option_filter_idem {V : Type} (p : V → Bool) (o : Option V) :
    (o.filter p).filter p = o.filter p := by
  cases o with
  | none => rfl
  | some v =>
    by_cases hp : p v = true
    · simp [Option.filter, hp]
    · simp [Option.filter, hp]

theorem option_filter_some_imp {V : Type} (p : V → Bool) (o : Option V) (v : V)
    (h : o.filter p = some v) : o = some v :=
  ((option_filter_eq_some p o v).1 h).1

/-- C34: for a simple entry, and for a frame entry with `frame_size > 0`, and
thresholds `t` and `g`, `Filter(t, g)` applied twice gives the entry that one
application gives; and a barcode found after `Filter(t, g)` was found before,
with the same info. -/
theorem filter_idempotent (es : SimpleEdgeEntry) (ef : FrameEdgeEntry) (t g : Nat)
    (_hfs : 0 < ef.frame_size_) :
    SimpleEdgeEntry.Filter (SimpleEdgeEntry.Filter es t g) t g = SimpleEdgeEntry.Filter es t g
    ∧ (ef.Filter t g).Filter t g = ef.Filter t g
    ∧ (∀ b info, (SimpleEdgeEntry.Filter es t g).barcode_distribution_.find b = some info →
        es.barcode_distribution_.find b = some info)
    ∧ (∀ b info, (ef.Filter t g).barcode_distribution_.find b = some info →
        ef.barcode_distribution_.find b = some info) := by
  refine ⟨?_, ?_, ?_, ?_⟩
  · apply edgeEntry_eq
    · rfl
    · intro k
      rw [simple_filter_find, simple_filter_find, option_filter_idem]
  · apply frameEdgeEntry_eq
    · rfl
    · intro k
      rw [frame_filter_find, frame_filter_find]
      exact option_filter_idem _ _
    · rfl
    · rfl
    · rfl
  · intro b info h
    rw [simple_filter_find] at h
    exact option_filter_some_imp _ _ _ h
  · intro b info h
    rw [frame_filter_find] at h
    exact option_filter_some_imp _ _ _ h

/-- Witness of C34: `exampleSimpleEntry` and `exampleFrameEntry`, of frame size
10, filtered twice with thresholds 4 and 50. -/
theorem filter_idempotent_witness :
    0 < exampleFrameEntry.frame_size_
    ∧ SimpleEdgeEntry.Filter (SimpleEdgeEntry.Filter exampleSimpleEntry 4 50) 4 50
        = SimpleEdgeEntry.Filter exampleSimpleEntry 4 50
    ∧ (exampleFrameEntry.Filter 4 50).Filter 4 50 = exampleFrameEntry.Filter 4 50 :=
  ⟨by decide, (filter_idempotent exampleSimpleEntry exampleFrameEntry 4 50 (by decide)).1,
   (filter_idempotent exampleSimpleEntry exampleFrameEntry 4 50 (by decide)).2.1⟩

theorem pathLoop_eq_queries (x : SimpleScaffoldVertexEntryExtractor) (path : List EdgeId)
    (base : Nat) (m : List (BarcodeId × Nat)) :
    x.pathLoop path base m
      = (x.pathQueries path base).foldl
          (fun counts q =>
            (x.barcode_extractor_.GetBarcodesAndCountsFromHead q.1 x.count_threshold_
                (x.tail_threshold_ - q.2)).foldl
              (fun acc barcode_and_reads =>
                addCount acc barcode_and_reads.1 barcode_and_reads.2) counts) m := by
  induction path generalizing base m with
  | nil => rfl
  | cons e rest ih =>
    simp only [SimpleScaffoldVertexEntryExtractor.pathLoop,
      SimpleScaffoldVertexEntryExtractor.pathQueries]
    by_cases h1 : base ≤ x.tail_threshold_
    · by_cases h2 : x.g_.length e < x.length_threshold_
      · rw [if_pos h1, if_pos h2, if_pos h1, if_pos h2, ih]
      · rw [if_pos h1, if_neg h2, if_pos h1, if_neg h2, ih, List.foldl_cons]
    · rw [if_neg h1, if_neg h1]
      rfl

theorem pathQueries_spec (x : SimpleScaffoldVertexEntryExtractor) :
    ∀ (path : List EdgeId) (base : Nat) (q : EdgeId × Nat), base < SIZE_MOD →
      q ∈ x.pathQueries path base →
      q.2 ≤ x.tail_threshold_ ∧ q.2 < SIZE_MOD
        ∧ ∃ i, i < path.length ∧ path.getD i 0 = q.1
          ∧ q.2 = (base + pathPrefixLen x.g_ path i) % SIZE_MOD := by
  intro path
  induction path with
  | nil => intro base q _ hq; simp [SimpleScaffoldVertexEntryExtractor.pathQueries] at hq
  | cons e rest ih =>
    intro base q hbase hq
    have hnext : (base + x.g_.length e) % SIZE_MOD < SIZE_MOD :=
      Nat.mod_lt _ (by unfold SIZE_MOD; decide)
    have hrest : q ∈ x.pathQueries rest ((base + x.g_.length e) % SIZE_MOD) →
        q.2 ≤ x.tail_threshold_ ∧ q.2 < SIZE_MOD
          ∧ ∃ i, i < (e :: rest).length ∧ (e :: rest).getD i 0 = q.1
            ∧ q.2 = (base + pathPrefixLen x.g_ (e :: rest) i) % SIZE_MOD := by
      intro h
      obtain ⟨g1, g2, i, hi, hget, hval⟩ := ih _ q hnext h
      refine ⟨g1, g2, i + 1, by simpa using hi, by simpa using hget, ?_⟩
      rw [hval, pathPrefixLen_cons, Nat.mod_add_mod, Nat.add_assoc]
    simp only [SimpleScaffoldVertexEntryExtractor.pathQueries] at hq
    by_cases h1 : base ≤ x.tail_threshold_
    · by_cases h2 : x.g_.length e < x.length_threshold_
      · rw [if_pos h1, if_pos h2] at hq
        exact hrest hq
      · rw [if_pos h1, if_neg h2] at hq
        rcases List.mem_cons.1 hq with h | h
        · rw [h]
          refine ⟨h1, hbase, 0, by simp, by simp, ?_⟩
          simp [pathPrefixLen, Nat.mod_eq_of_lt hbase]
        · exact hrest h
    · rw [if_neg h1] at hq
      cases hq

/-- C32: for every path vertex and all thresholds (values of `size_t`), the
first loop of the path extractor is the fold of its queries, and at every query,
for the edge at some index `i` of the path, the value of `current_prefix`, which
is the sum of the lengths of the first `i` edges modulo `2^64`, is at most
`tail_threshold`, so that the `size_t` subtraction `tail_threshold -
current_prefix` is the difference of the two numbers: it does not wrap. -/
theorem path_query_tail_no_wrap (x : SimpleScaffoldVertexEntryExtractor)
    (path : List EdgeId) (q : EdgeId × Nat) (htail : x.tail_threshold_ < SIZE_MOD)
    (hq : q ∈ x.pathQueries path 0) :
    x.pathLoop path 0 []
        = (x.pathQueries path 0).foldl
            (fun counts q =>
              (x.barcode_extractor_.GetBarcodesAndCountsFromHead q.1 x.count_threshold_
                  (x.tail_threshold_ - q.2)).foldl
                (fun acc barcode_and_reads =>
                  addCount acc barcode_and_reads.1 barcode_and_reads.2) counts) []
    ∧ q.2 ≤ x.tail_threshold_
    ∧ sizeSub x.tail_threshold_ q.2 = x.tail_threshold_ - q.2
    ∧ ((sizeSub x.tail_threshold_ q.2 : Nat) : Int)
        = (x.tail_threshold_ : Int) - (q.2 : Int)
    ∧ ∃ i, i < path.length ∧ path.getD i 0 = q.1
        ∧ q.2 = pathPrefixLen x.g_ path i % SIZE_MOD := by
  obtain ⟨g1, g2, i, hi, hget, hval⟩ :=
    pathQueries_spec x path 0 q (by unfold SIZE_MOD; decide) hq
  have hsub : sizeSub x.tail_threshold_ q.2 = x.tail_threshold_ - q.2 := by
    unfold sizeSub
    rw [Nat.mod_eq_of_lt g2]
    unfold SIZE_MOD at htail g2 ⊢
    omega
  refine ⟨pathLoop_eq_queries x path 0 [], g1, hsub, ?_, i, hi, hget, by simpa using hval⟩
  rw [hsub]
  omega

/-- Witness of C32 (path scenario): on the path of the edges 0, 1, 2 of lengths
200, 50, 300 with tail threshold 400, edge 2 is queried with `current_prefix`
250, and the tail is 150. -/
theorem path_query_tail_no_wrap_witness :
    exampleExtractor.pathQueries [0, 1, 2] 0 = [(0, 0), (2, 250)]
    ∧ (250 : Nat) ≤ exampleExtractor.tail_threshold_
    ∧ sizeSub exampleExtractor.tail_threshold_ 250 = 150 :=
  ⟨by decide,
   (path_query_tail_no_wrap exampleExtractor [0, 1, 2] (2, 250) (by decide) (by decide)).2.1,
   (path_query_tail_no_wrap exampleExtractor [0, 1, 2] (2, 250) (by decide) (by decide)).2.2.1⟩

theorem pathLoop_beyond (x : SimpleScaffoldVertexEntryExtractor) (r : List EdgeId) :
    ∀ (common : List EdgeId) (base : Nat) (m : List (BarcodeId × Nat)),
      base + (common.map x.g_.length).sum < SIZE_MOD →
      x.tail_threshold_ < base + (common.map x.g_.length).sum →
      x.pathLoop (common ++ r) base m = x.pathLoop common base m := by
  intro common
  induction common with
  | nil =>
    intro base m _ h2
    simp only [List.map_nil, List.sum_nil, Nat.add_zero] at h2
    cases r with
    | nil => rfl
    | cons e rest =>
      simp only [List.nil_append, SimpleScaffoldVertexEntryExtractor.pathLoop]
      rw [if_neg (by omega)]
  | cons e rest ih =>
    intro base m h1 h2
    simp only [List.map_cons, List.sum_cons] at h1 h2
    have hmod : (base + x.g_.length e) % SIZE_MOD = base + x.g_.length e :=
      Nat.mod_eq_of_lt (by omega)
    simp only [List.cons_append, SimpleScaffoldVertexEntryExtractor.pathLoop, hmod]
    by_cases hb : base ≤ x.tail_threshold_
    · by_cases hl : x.g_.length e < x.length_threshold_
      · rw [if_pos hb, if_pos hl, if_pos hb, if_pos hl]
        exact ih _ _ (by omega) (by omega)
      · rw [if_pos hb, if_neg hl, if_pos hb, if_neg hl]
        exact ih _ _ (by omega) (by omega)
    · rw [if_neg hb, if_neg hb]

/-- C33 (as amended): for two path vertices `p` and `q` that share their first
`m` edges, if the lengths of those `m` edges sum to more than `tail_threshold`
and to less than `2^64`, then `ExtractEntry(p) = ExtractEntry(q)`. -/
theorem extract_entry_beyond_tail (x : SimpleScaffoldVertexEntryExtractor)
    (p q : List EdgeId) (m : Nat) (hshare : p.take m = q.take m)
    (hbeyond : x.tail_threshold_ < ((p.take m).map x.g_.length).sum)
    (hno : ((p.take m).map x.g_.length).sum < SIZE_MOD) :
    x.ExtractEntry (ScaffoldVertex.PathVertex p)
      = x.ExtractEntry (ScaffoldVertex.PathVertex q) := by
  have hp : x.pathLoop p 0 [] = x.pathLoop (p.take m) 0 [] := by
    have h := pathLoop_beyond x (p.drop m) (p.take m) 0 [] (by omega) (by omega)
    rw [List.take_append_drop] at h
    exact h
  have hq : x.pathLoop q 0 [] = x.pathLoop (q.take m) 0 [] := by
    have h := pathLoop_beyond x (q.drop m) (q.take m) 0 [] (by rw [← hshare]; omega)
      (by rw [← hshare]; omega)
    rw [List.take_append_drop] at h
    exact h
  unfold SimpleScaffoldVertexEntryExtractor.ExtractEntry
    SimpleScaffoldVertexEntryExtractor.ExtractEntryInnerPath
  simp only
  rw [hp, hq, hshare]

/-- Witness of C33 (as amended): with tail threshold 400, the paths 0, 1, 2, 0
and 0, 1, 2, 2 share the first three edges, of lengths 200, 50, 300. -/
theorem extract_entry_beyond_tail_witness :
    exampleExtractor.ExtractEntry (ScaffoldVertex.PathVertex [0, 1, 2, 0])
      = exampleExtractor.ExtractEntry (ScaffoldVertex.PathVertex [0, 1, 2, 2]) :=
  extract_entry_beyond_tail exampleExtractor [0, 1, 2, 0] [0, 1, 2, 2] 3 (by decide)
    (by decide) (by decide)

/-- C33 fails as stated.  The paths 0, 1, 2 and 0, 1, 3 over edges of length
`2^63` share their first two edges, whose lengths sum to `2^64`, more than the
tail threshold `2^64 - 1`; `current_prefix` wraps to 0 after them and the third
edge is queried: barcode 7, with 5 reads on edge 2 only, is in the entry of the
first path and not in the entry of the second. -/
theorem extract_entry_beyond_tail_wraps :
    ([0, 1, 2] : List EdgeId).take 2 = ([0, 1, 3] : List EdgeId).take 2
    ∧ longPathExtractor.tail_threshold_
        < ((([0, 1, 2] : List EdgeId).take 2).map longPathExtractor.g_.length).sum
    ∧ (longPathExtractor.ExtractEntry (ScaffoldVertex.PathVertex [0, 1, 2])).Contains 7
    ∧ ¬ (longPathExtractor.ExtractEntry (ScaffoldVertex.PathVertex [0, 1, 3])).Contains 7
    ∧ longPathExtractor.ExtractEntry (ScaffoldVertex.PathVertex [0, 1, 2])
        ≠ longPathExtractor.ExtractEntry (ScaffoldVertex.PathVertex [0, 1, 3]) := by
  have h1 : (longPathExtractor.ExtractEntry (ScaffoldVertex.PathVertex [0, 1, 2])).Contains 7 := by
    unfold SimpleVertexEntry.Contains
    decide
  have h2 : ¬ (longPathExtractor.ExtractEntry
      (ScaffoldVertex.PathVertex [0, 1, 3])).Contains 7 := by
    unfold SimpleVertexEntry.Contains
    decide
  refine ⟨by decide, by decide, h1, h2, ?_⟩
  intro h
  rw [h] at h1
  exact h2 h1

end barcode_index

/-! # Termination of the merge -/

namespace path_extend

open barcode_index

/-- How the test of `while (prev_found)` and, when it holds, one run of the body
end, in the third loop of `MergeUnivocalEdges`: the loop is left, with the value
of `prev_used`, or the body was run to its end, with the new values of `current`
and `used`. -/
inductive WalkStep where
  | leave (prev_used : Bool)
  | goOn (current : ScaffoldVertexId) (used : List ScaffoldVertexId)

/-- The test of `while (prev_found)` and one run of the body, from the values of
`current` and `used`. -/
def backwardStep (x : PathScaffolder)
    (merge_connections : List (ScaffoldVertexId × ScaffoldVertexId))
    (current : ScaffoldVertexId) (used : List ScaffoldVertexId) : WalkStep :=
  match mapFind merge_connections (x.getConjugateFromGraph current) with
  | none => WalkStep.leave false
  | some prev_conjugate =>
    if prev_conjugate ∈ used then WalkStep.leave true
    else
      WalkStep.goOn (x.getConjugateFromGraph prev_conjugate)
        (setInsert (x.getConjugateFromGraph (x.getConjugateFromGraph prev_conjugate))
          (setInsert (x.getConjugateFromGraph prev_conjugate) used))

theorem backwardWalk_step (x : PathScaffolder)
    (m : List (ScaffoldVertexId × ScaffoldVertexId)) (fuel : Nat)
    (current : ScaffoldVertexId) (used : List ScaffoldVertexId) :
    backwardWalk x m (fuel + 1) current used
      = (match backwardStep x m current used with
        | WalkStep.leave prev_used => some (current, used, prev_used)
        | WalkStep.goOn c u => backwardWalk x m fuel c u) := by
  unfold backwardStep
  cases hv : mapFind m (x.getConjugateFromGraph current) with
  | none => simp [backwardWalk, hv]
  | some pc =>
    by_cases hpc : pc ∈ used
    · simp [backwardWalk, hv, hpc]
    · simp [backwardWalk, hv, hpc]

theorem length_setInsert_le (v : ScaffoldVertexId) (l : List ScaffoldVertexId) :
    l.length ≤ (setInsert v l).length := by
  unfold setInsert
  by_cases h : v ∈ l
  · rw [if_pos h]
  · rw [if_neg h, List.length_append]; omega

theorem length_setInsert_of_not_mem (v : ScaffoldVertexId) (l : List ScaffoldVertexId)
    (h : v ∉ l) : (setInsert v l).length = l.length + 1 := by
  unfold setInsert
  rw [if_neg h, List.length_append]
  rfl

theorem backwardStep_goOn (x : PathScaffolder)
    (m : List (ScaffoldVertexId × ScaffoldVertexId))
    (hconj : ∀ v, x.getConjugateFromGraph (x.getConjugateFromGraph v) = v)
    (current : ScaffoldVertexId) (used : List ScaffoldVertexId)
    (c : ScaffoldVertexId) (u : List ScaffoldVertexId)
    (h : backwardStep x m current used = WalkStep.goOn c u) :
    (∀ v ∈ used, v ∈ u) ∧ x.getConjugateFromGraph c ∉ used ∧ x.getConjugateFromGraph c ∈ u
      ∧ c ∈ u ∧ used.length < u.length
      ∧ ((∀ v ∈ used, x.getConjugateFromGraph v ∈ used) →
          c ∉ used ∧ ∀ v ∈ u, x.getConjugateFromGraph v ∈ u) := by
  unfold backwardStep at h
  cases hv : mapFind m (x.getConjugateFromGraph current) with
  | none => rw [hv] at h; cases h
  | some pc =>
    rw [hv] at h
    by_cases hpc : pc ∈ used
    · simp [hpc] at h
    · simp only [hpc, if_false, WalkStep.goOn.injEq] at h
      obtain ⟨hc, hu⟩ := h
      subst hc
      subst hu
      rw [hconj]
      refine ⟨?_, hpc, ?_, ?_, ?_, ?_⟩
      · intro v hv2
        exact (mem_setInsert _ _ _).2 (Or.inr ((mem_setInsert _ _ _).2 (Or.inr hv2)))
      · exact (mem_setInsert _ _ _).2 (Or.inl rfl)
      · exact (mem_setInsert _ _ _).2 (Or.inr ((mem_setInsert _ _ _).2 (Or.inl rfl)))
      · by_cases hin : pc ∈ setInsert (x.getConjugateFromGraph pc) used
        · rcases (mem_setInsert _ _ _).1 hin with h1 | h1
          · have hnot : x.getConjugateFromGraph pc ∉ used := by
              rw [← h1]; exact hpc
            have := length_setInsert_of_not_mem _ _ hnot
            have h2 := length_setInsert_le pc (setInsert (x.getConjugateFromGraph pc) used)
            omega
          · exact absurd h1 hpc
        · have := length_setInsert_of_not_mem _ _ hin
          have h2 := length_setInsert_le (x.getConjugateFromGraph pc) used
          omega
      · intro hclosed
        constructor
        · intro hcu
          have := hclosed _ hcu
          rw [hconj] at this
          exact hpc this
        · intro v hv2
          rcases (mem_setInsert _ _ _).1 hv2 with h1 | h1
          · rw [h1]
            exact (mem_setInsert _ _ _).2 (Or.inr ((mem_setInsert _ _ _).2 (Or.inl rfl)))
          · rcases (mem_setInsert _ _ _).1 h1 with h2 | h2
            · rw [h2, hconj]
              exact (mem_setInsert _ _ _).2 (Or.inl rfl)
            · exact (mem_setInsert _ _ _).2 (Or.inr ((mem_setInsert _ _ _).2
                (Or.inr (hclosed v h2))))

theorem followConnections_add (m : List (ScaffoldVertexId × ScaffoldVertexId))
    (i k : Nat) (s : ScaffoldVertexId) :
    followConnections m (i + k) s = (followConnections m i s).bind (followConnections m k) := by
  induction k with
  | zero =>
    cases h : followConnections m i s with
    | none => simp [h]
    | some v => simp [h, followConnections]
  | succ k ih =>
    have h1 : followConnections m (i + (k + 1)) s
        = (followConnections m (i + k) s).bind (mapFind m) := rfl
    rw [h1, ih]
    cases h : followConnections m i s with
    | none => rfl
    | some v => rfl

theorem followConnections_distinct (m : List (ScaffoldVertexId × ScaffoldVertexId))
    (hinj : ∀ a b c, mapFind m a = some c → mapFind m b = some c → a = b)
    (s : ScaffoldVertexId) (hnp : ∀ p, mapFind m p ≠ some s) :
    ∀ (i j : Nat) (v : ScaffoldVertexId), i < j → followConnections m i s = some v →
      followConnections m j s ≠ some v := by
  intro i
  induction i with
  | zero =>
    intro j v hij h0 hj
    obtain ⟨k, rfl⟩ : ∃ k, j = k + 1 := ⟨j - 1, by omega⟩
    simp only [followConnections, Option.some.injEq] at h0
    have hj2 : (followConnections m k s).bind (mapFind m) = some v := hj
    obtain ⟨p, _, hp⟩ := Option.bind_eq_some.1 hj2
    rw [← h0] at hp
    exact hnp p hp
  | succ i ih =>
    intro j v hij hi hj
    obtain ⟨k, rfl⟩ : ∃ k, j = k + 1 := ⟨j - 1, by omega⟩
    have hi2 : (followConnections m i s).bind (mapFind m) = some v := hi
    have hj2 : (followConnections m k s).bind (mapFind m) = some v := hj
    obtain ⟨a, ha, hav⟩ := Option.bind_eq_some.1 hi2
    obtain ⟨b, hb, hbv⟩ := Option.bind_eq_some.1 hj2
    have hab := hinj a b v hav hbv
    rw [← hab] at hb
    exact ih k a (by omega) ha hb

theorem chainFrom_follow (m : List (ScaffoldVertexId × ScaffoldVertexId)) :
    ∀ (n : Nat) (v : ScaffoldVertexId) (i : Nat) (w : ScaffoldVertexId),
      (chainFrom m n v)[i]? = some w → followConnections m i v = some w := by
  intro n
  induction n with
  | zero => intro v i w h; simp [chainFrom] at h
  | succ n ih =>
    intro v i w h
    cases hv : mapFind m v with
    | none => simp [chainFrom, hv] at h
    | some w0 =>
      have heq : chainFrom m (n + 1) v = v :: chainFrom m n w0 := by simp [chainFrom, hv]
      rw [heq] at h
      cases i with
      | zero =>
        simp only [List.getElem?_cons_zero, Option.some.injEq] at h
        rw [← h]
        rfl
      | succ i =>
        simp only [List.getElem?_cons_succ] at h
        have h2 := ih w0 i w h
        rw [Nat.add_comm, followConnections_add]
        have h1 : followConnections m 1 v = some w0 := by
          simp [followConnections, hv]
        rw [h1]
        exact h2

/-- C31: for a list of scaffold edges that passes the checks of the first two
loops (conj an involution), `MergeUnivocalEdges` returns.  In the backward walk
of the third loop, a run of the body that does not leave the loop puts a vertex
into `used` that was not there (the conjugate of the new `current`, and the new
`current` itself when `used` holds the conjugate of each of its vertices, as it
does from the empty set on), so that `used` grows.  The third loop ends with the
recorded starts, and in the forward walk from a recorded start `s` the value of
`current` after `i` iterations is the vertex `i` connections after `s`; these
vertices are different for different `i`, none of them comes back to itself along
connections, and at most as many iterations as there are connections find a next
vertex. -/
theorem merge_terminates (x : PathScaffolder) (ord : IterationOrder)
    (scaffold_edges : List ScaffoldEdge) (paths : PathStore)
    (m : List (ScaffoldVertexId × ScaffoldVertexId))
    (hconj : ∀ v, x.getConjugateFromGraph (x.getConjugateFromGraph v) = v)
    (h1 : buildConnections scaffold_edges [] = some m)
    (h2 : checkSymmetry x m (ord.connections m) = true) :
    (∃ paths2, MergeUnivocalEdges x ord scaffold_edges paths = MergeOutcome.done paths2)
    ∧ (∀ fuel current used, backwardWalk x m (fuel + 1) current used
        = (match backwardStep x m current used with
          | WalkStep.leave prev_used => some (current, used, prev_used)
          | WalkStep.goOn c u => backwardWalk x m fuel c u))
    ∧ (∀ current used c u, backwardStep x m current used = WalkStep.goOn c u →
        (∀ v ∈ used, v ∈ u) ∧ x.getConjugateFromGraph c ∉ used
          ∧ x.getConjugateFromGraph c ∈ u ∧ c ∈ u ∧ used.length < u.length
          ∧ ((∀ v ∈ used, x.getConjugateFromGraph v ∈ used) →
              c ∉ used ∧ ∀ v ∈ u, x.getConjugateFromGraph v ∈ u))
    ∧ ∃ starts, computeStarts x ord scaffold_edges = some starts
        ∧ ∀ s ∈ starts,
          (∀ n i w, (chainFrom m n s)[i]? = some w → followConnections m i s = some w)
          ∧ (∀ i j v, i < j → followConnections m i s = some v →
              followConnections m j s ≠ some v)
          ∧ (∀ i v, followConnections m i s = some v →
              ∀ k, 0 < k → followConnections m k v ≠ some v)
          ∧ (∀ n, (chainFrom m n s).length ≤ m.length) := by
  obtain ⟨hinj, starts, _, hchar, hrun⟩ := merge_run x ord scaffold_edges paths m hconj h1 h2
  obtain ⟨hm, hndk⟩ := (buildConnections_eq_some_iff scaffold_edges m).1 h1
  have hsym : ∀ c ∈ m, mapFind m (x.getConjugateFromGraph c.2)
      = some (x.getConjugateFromGraph c.1) :=
    fun c hc => (checkSymmetry_eq_true_iff x m _).1 h2 c ((ord.connections_perm m).mem_iff.2 hc)
  have hdist : ∀ v, (mapFind m v).isSome = true →
      ∃ d, mapFind (buildDistances scaffold_edges []) v = some d := by
    intro v hv
    rw [hm] at hv
    obtain ⟨e, he, hev⟩ := (merge_dom scaffold_edges v).1 hv
    exact ⟨e.length, hev ▸ (merge_lookup scaffold_edges hndk e he).2⟩
  refine ⟨?_, backwardWalk_step x m, backwardStep_goOn x m hconj, ?_⟩
  · obtain ⟨paths2, hex, _⟩ :=
      extendAll_frame m (buildDistances scaffold_edges []) hinj hdist (ord.starts starts) paths
        (fun s hs => ((hchar s).1 ((ord.starts_perm starts).mem_iff.1 hs)).2)
    rw [hrun, hex]
    exact ⟨paths2, rfl⟩
  · obtain ⟨starts2, _, _, hcs, _, hchar2⟩ :=
      computeStarts_spec x scaffold_edges m ord hconj h1 hsym
    refine ⟨starts2, hcs, ?_⟩
    intro s hs
    have hnp : ∀ p, mapFind m p ≠ some s := by
      intro p hp
      have hnone := ((hchar2 s).1 hs).2
      rw [no_pred_iff _ m hconj hsym s] at hnone
      exact hnone _ (mapFind_eq_some_mem _ _ _ hp) rfl
    refine ⟨fun n => chainFrom_follow m n s, followConnections_distinct m hinj s hnp, ?_,
      fun n => chainFrom_length_le m hinj n s hnp⟩
    intro i v hi k hk hcyc
    have hsum := followConnections_add m i k s
    rw [hi] at hsum
    have hsum2 : followConnections m (i + k) s = some v := by
      rw [hsum]; exact hcyc
    exact followConnections_distinct m hinj s hnp i (i + k) v (by omega) hi hsum2

/-- Witness of C31: the merge scenario passes both checks, and the merge
returns. -/
theorem merge_terminates_witness :
    ∃ paths2, MergeUnivocalEdges exampleScaffolder IterationOrder.insertion
      exampleScaffoldEdges examplePaths = MergeOutcome.done paths2 :=
  (merge_terminates exampleScaffolder IterationOrder.insertion exampleScaffoldEdges
    examplePaths [(0, 1), (1, 2), (12, 11), (11, 10)] exampleScaffolder_involution
    (by decide) (by decide)).1

end path_extend
